import Mathlib

/-!
# Crawler frontier core: scheduler and URL normaliser

A shallow embedding of `schedule.go` (the scheduler's decision function
`schedURL`, the error counter `incErrCount` and one iteration of the event loop
`work`) and of `urlx/normalize.go` (`validateHost`, `Normalize`), followed by the
theorems that settle the specification's claims against that code.

Conventions.
* A Go `string` is the list of its bytes (`Str`); a byte is a natural number
  below 256.
* A Go `error` is `Option GoError`; `none` is `nil`.
* A Go pointer that may be `nil` is an `Option`.
* `time.Time` is an integer count of nanoseconds (`Time`), `time.Duration` an
  integer (`Duration`); `t.Add(d)` is `t + d`, `t.Before(s)` is `t < s`.
* Go `int` counters are unbounded integers (no wrap-around is modelled).
-/

set_option autoImplicit false

namespace Crawler

/-! ## Basic types -/

/-- A Go string: its bytes. -/
abbrev Str := List Nat

/-- A Go error value (its message). -/
abbrev GoError := String

/-- An instant (`time.Time`), in nanoseconds. -/
abbrev Time := Int

/-- A span of time (`time.Duration`), in nanoseconds. -/
abbrev Duration := Int

/-- The largest value of a Go `int` (64 bits). -/
def maxInt : Int := 9223372036854775807

/-- The smallest value of a Go `int` (64 bits). -/
def minInt : Int := -9223372036854775808

/-- The value a Go `int` holds for the exact result `x` of an operation: the
result wraps around modulo `2^64` into `minInt .. maxInt`. -/
def wrapInt (x : Int) : Int :=
  (x + 9223372036854775808) % 18446744073709551616 - 9223372036854775808

/-- The user part of a URL (`url.Userinfo`). -/
structure Userinfo where
  username : Str
  password : Str
  passwordSet : Bool
  deriving DecidableEq, Repr

/-- The parsed URL of `net/url` (`url.URL`). -/
structure URL where
  Scheme : Str := []
  Opaque : Str := []
  User : Option Userinfo := none
  Host : Str := []
  Path : Str := []
  RawPath : Str := []
  ForceQuery : Bool := false
  RawQuery : Str := []
  Fragment : Str := []
  deriving DecidableEq, Repr

/-! ## Scheduler: data model -/

/-- Status of a URL record (`URLStatusPending`, `URLStatusFinished`, `URLStatusError`). -/
inductive Status where
  | URLStatusPending
  | URLStatusFinished
  | URLStatusError
  deriving DecidableEq, Repr

/-- Kind of scheduling decision (the `typ` argument of `schedURL`). -/
inductive URLType where
  | URLTypeSeed
  | URLTypeNew
  | URLTypeResponse
  | URLTypeRecover
  deriving DecidableEq, Repr

open Status URLType

/-- Modelled from the spec: the per-URL record kept by the store (the struct
declaration is not part of the listed sources); fields as in section 3. -/
structure URLRecord where
  Loc : URL
  VisitCount : Int := 0
  Last : Time := 0
  ErrorCount : Int := 0
  Status : Status := URLStatusPending
  deriving DecidableEq, Repr

/-- Modelled from the spec: the fetch result handed to the scheduler (its
declaration is not part of the listed sources): the fetched URL, a timestamp and
the URLs of the discovered links. -/
structure Response where
  URL : Crawler.URL
  Timestamp : Time
  links : List Crawler.URL
  deriving DecidableEq, Repr

/-- Modelled from the spec: an entry of the wait queue (`queue.Item`, declared in
the absent `queue` package). `URL` is a pointer in the source. -/
structure Item where
  URL : Option Crawler.URL
  Next : Time
  Score : Int
  deriving DecidableEq, Repr

/-- Modelled from the spec: `queue.NewItem()` returns an item with zero-valued
fields (the default score is zero). -/
def NewItem : Item := { URL := none, Next := 0, Score := 0 }

/-- Modelled from the spec: the context passed to the policy: the URL, the
record snapshot and the triggering response, if any. -/
structure Context where
  URL : Crawler.URL
  record : Option URLRecord
  response : Option Response
  deriving DecidableEq, Repr

/-- Modelled from the spec: `newContext(cw, u)` builds a context from the URL alone. -/
def newContext (u : URL) : Context := { URL := u, record := none, response := none }

/-- Modelled from the spec: `r.Context()` is the context built from a response. -/
def Response.Context (r : Response) : Context :=
  { URL := r.URL, record := none, response := some r }

/-- Modelled from the spec: `ctx.fromURL(uu)` copies the record snapshot into the context. -/
def Context.fromURL (ctx : Context) (uu : URLRecord) : Context :=
  { ctx with record := some uu }

/-- Modelled from the spec: the store contract of section 6 (`sd.cw.store` is an
interface value whose declaration is not part of the listed sources). Every
operation takes the store state and returns the new state with the Go results;
`Get` returns a record pointer and an error. -/
structure Store (σ : Type) where
  Get : σ → URL → σ × Option URLRecord × Option GoError
  Update : σ → URLRecord → σ × Option GoError
  UpdateStatus : σ → URL → Status → σ × Option GoError
  IncVisitCount : σ → σ × Option GoError
  IsFinished : σ → σ × Bool × Option GoError

/-- The policy (`sd.cw.ctrl`): `Schedule(ctx, u)` returns `(done, next, score)`. -/
structure Controller where
  Schedule : Context → URL → Bool × Time × Int

/-- The options read by the scheduler: `opt.MinDelay`, `opt.MaxRetry`,
`opt.RetryDuration` (copied to `sd.retry`). `MaxRetry` is a Go `int`, so its
value lies in `minInt .. maxInt`. -/
structure Config where
  MinDelay : Duration
  MaxRetry : Int
  RetryDuration : Duration
  inRange : minInt ≤ MaxRetry ∧ MaxRetry ≤ maxInt := by decide
  deriving DecidableEq, Repr

/-! ## Scheduler: `schedURL` and `incErrCount` -/

section Sched

variable {σ : Type}

/-- Lines 208-220 of `schedURL`: the floor `minTime`, the policy call, and either
the Finished mark (its error is dropped) or the clamp of `item.Next`. -/
def schedDecide (st : Store σ) (opt : Config) (ctrl : Controller) (s : σ)
    (uu : URLRecord) (ctx : Context) (u : URL) : σ × Option Item × Bool × Option GoError :=
  let minTime := uu.Last + opt.MinDelay
  let item := { NewItem with URL := some u }
  let res := ctrl.Schedule ctx u
  let item := { item with Next := res.2.1, Score := res.2.2 }
  if res.1 then
    ((st.UpdateStatus s u URLStatusFinished).1, some item, true, none)
  else if item.Next < minTime then
    (s, some { item with Next := minTime }, false, none)
  else
    (s, some item, false, none)

/-- The scheduling decision `schedURL(r, u, typ)`; the result is
`(store, item, done, err)`, and `none` is a nil-pointer panic (a nil record
returned without error, or a nil response with `URLTypeResponse`).
`uu.VisitCount++` is the increment of a Go `int`, which wraps around. -/
def schedURL (st : Store σ) (opt : Config) (ctrl : Controller) (s : σ)
    (r : Option Response) (u : URL) (typ : URLType) :
    Option (σ × Option Item × Bool × Option GoError) :=
  match st.Get s u with
  | (s1, _, some err) => some (s1, none, false, some err)
  | (_, none, none) => none
  | (s1, some uu, none) =>
    match typ with
    | URLTypeResponse =>
      match r with
      | none => none
      | some resp =>
        let uu1 := { uu with VisitCount := wrapInt (uu.VisitCount + 1), Last := resp.Timestamp }
        match st.Update s1 uu1 with
        | (s2, some err) => some (s2, none, false, some err)
        | (s2, none) => some (schedDecide st opt ctrl s2 uu1 (resp.Context.fromURL uu1) u)
    | URLTypeNew =>
      some (schedDecide st opt ctrl s1 uu
        (Context.fromURL { newContext u with response := r } uu) u)
    | _ => some (schedDecide st opt ctrl s1 uu ((newContext u).fromURL uu) u)

/-- The error counter `incErrCount(u)`: returns the count before the increment;
`uu.ErrorCount++` is the increment of a Go `int`, which wraps around; both
store errors are dropped; `none` is the nil-pointer panic on a nil record. -/
def incErrCount (st : Store σ) (s : σ) (u : URL) : Option (σ × Int) :=
  match st.Get s u with
  | (_, none, _) => none
  | (s1, some uu, _) =>
    let cnt := uu.ErrorCount
    let uu1 := { uu with ErrorCount := wrapInt (uu.ErrorCount + 1) }
    some ((st.Update s1 uu1).1, cnt)

/-! ## Scheduler: one iteration of the `work` loop -/

/-- The local variables of `work` together with the store, and the values
delivered so far on the two output channels (`pqSent` on `sd.pqIn`, `outSent` on
`sd.Out`). `queueIn`/`output` record whether the channel variable is non-nil. -/
structure Sched (σ : Type) where
  store : σ
  waiting : List (Option Item) := []
  outURLs : List URL := []
  queueIn : Bool := false
  next : Option Item := none
  output : Bool := false
  outURL : Option URL := none
  pqSent : List (Option Item) := []
  outSent : List (Option URL) := []
  deriving DecidableEq

/-- The communication chosen by the `select` statement. -/
inductive Event where
  | NewIn (u : URL)
  | RecoverIn (u : URL)
  | ResIn (resp : Response)
  | DoneIn (u : URL)
  | ErrIn (u : URL) (now : Time)
  | PqOut (u : Option URL)
  | SendQueue
  | SendOut
  | PqErr (err : Option GoError)
  | Done
  | Quit
  deriving DecidableEq, Repr

/-- How an iteration of the loop ends. -/
inductive Outcome (σ : Type) where
  /-- The loop goes round again. -/
  | continue (s : Sched σ)
  /-- The function `work` returns; `stopped` tells whether `sd.stop()` was called, `err` is the
  error logged at the `ERROR` label. -/
  | exit (s : Sched σ) (stopped : Bool) (err : Option GoError)
  /-- A nil pointer was dereferenced. -/
  | panic
  /-- The chosen communication cannot proceed (send on a nil channel). -/
  | blocked

/-- Lines 70-77: the assignments at the top of the loop body. -/
def loopHead (s : Sched σ) : Sched σ :=
  let s1 := if s.outURLs.length ≠ 0 then
      { s with output := true, outURL := s.outURLs.head? } else s
  if s1.waiting.length > 0 then
    { s1 with queueIn := true, next := s1.waiting.head?.join } else s1

/-- Lines 158-164: the poll of `IsFinished` after an event that falls out of the `select`. -/
def afterSelect (st : Store σ) (s : Sched σ) : Outcome σ :=
  match st.IsFinished s.store with
  | (s1, _, some err) => Outcome.exit { s with store := s1 } true (some err)
  | (s1, true, none) => Outcome.exit { s with store := s1 } true none
  | (s1, false, none) => Outcome.continue { s with store := s1 }

/-- Lines 102-109: the loop over the links of a response. The result is the
scheduler state and the error that sends control to `ERROR`, if any. -/
def schedLinks (st : Store σ) (opt : Config) (ctrl : Controller) (resp : Response) :
    List URL → Sched σ → Option (Sched σ × Option GoError)
  | [], s => some (s, none)
  | link :: rest, s =>
    match schedURL st opt ctrl s.store (some resp) link URLTypeNew with
    | none => none
    | some (s1, _, _, some err) => some ({ s with store := s1 }, some err)
    | some (s1, item, false, none) =>
      schedLinks st opt ctrl resp rest { s with store := s1, waiting := s.waiting ++ [item] }
    | some (s1, _, true, none) =>
      schedLinks st opt ctrl resp rest { s with store := s1 }

/-- Lines 83-156: the `select` statement for the chosen communication, followed
by the `IsFinished` poll where the case falls through. -/
def workSelect (st : Store σ) (opt : Config) (ctrl : Controller) (s : Sched σ) :
    Event → Outcome σ
  | Event.NewIn u =>
    match schedURL st opt ctrl s.store none u URLTypeSeed with
    | none => Outcome.panic
    | some (s1, _, _, some err) => Outcome.exit { s with store := s1 } true (some err)
    | some (s1, item, _, none) =>
      Outcome.continue { s with store := s1, waiting := s.waiting ++ [item] }
  | Event.RecoverIn u =>
    match schedURL st opt ctrl s.store none u URLTypeRecover with
    | none => Outcome.panic
    | some (s1, _, _, some err) => Outcome.exit { s with store := s1 } true (some err)
    | some (s1, item, false, none) =>
      Outcome.continue { s with store := s1, waiting := s.waiting ++ [item] }
    | some (s1, _, true, none) => afterSelect st { s with store := s1 }
  | Event.ResIn resp =>
    let s0 := { s with store := (st.IncVisitCount s.store).1 }
    match schedLinks st opt ctrl resp resp.links s0 with
    | none => Outcome.panic
    | some (s1, some err) => Outcome.exit s1 true (some err)
    | some (s1, none) =>
      match schedURL st opt ctrl s1.store (some resp) resp.URL URLTypeResponse with
      | none => Outcome.panic
      | some (s2, _, _, some err) => Outcome.exit { s1 with store := s2 } true (some err)
      | some (s2, item, false, none) =>
        Outcome.continue { s1 with store := s2, waiting := s1.waiting ++ [item] }
      | some (s2, _, true, none) => afterSelect st { s1 with store := s2 }
  | Event.DoneIn u =>
    afterSelect st { s with store := (st.UpdateStatus s.store u URLStatusFinished).1 }
  | Event.ErrIn u now =>
    match incErrCount st s.store u with
    | none => Outcome.panic
    | some (s1, cnt) =>
      if cnt ≥ opt.MaxRetry then
        afterSelect st { s with store := (st.UpdateStatus s1 u URLStatusError).1 }
      else
        let item := { NewItem with URL := some u, Next := now + opt.RetryDuration }
        Outcome.continue { s with store := s1, waiting := s.waiting ++ [some item] }
  | Event.PqOut none => Outcome.exit s false none
  | Event.PqOut (some u) => afterSelect st { s with outURLs := s.outURLs ++ [u] }
  | Event.SendQueue =>
    if s.queueIn then
      let w := s.waiting.tail
      afterSelect st { s with pqSent := s.pqSent ++ [s.next], waiting := w,
                              queueIn := if w.length = 0 then false else s.queueIn }
    else Outcome.blocked
  | Event.SendOut =>
    if s.output then
      let o := s.outURLs.tail
      afterSelect st { s with outSent := s.outSent ++ [s.outURL], outURLs := o,
                              output := if o.length = 0 then false else s.output }
    else Outcome.blocked
  | Event.PqErr (some err) => Outcome.exit s true (some err)
  | Event.PqErr none => Outcome.exit s false none
  | Event.Done => Outcome.exit s false none
  | Event.Quit => Outcome.exit s false none

/-- One iteration of the `for` loop of `work` (lines 69-170) for the chosen communication. -/
def work (st : Store σ) (opt : Config) (ctrl : Controller) (s : Sched σ) (ev : Event) :
    Outcome σ :=
  workSelect st opt ctrl (loopHead s) ev

/-- The scheduler state in which an iteration ended, if it has one. -/
def Outcome.sched : Outcome σ → Option (Sched σ)
  | Outcome.continue s => some s
  | Outcome.exit s _ _ => some s
  | Outcome.panic => none
  | Outcome.blocked => none

/-- Consecutive iterations of the loop for a list of communications; the run
ends early when an iteration does not continue. -/
def run (st : Store σ) (opt : Config) (ctrl : Controller) : Sched σ → List Event → Outcome σ
  | s, [] => Outcome.continue s
  | s, ev :: rest =>
    match work st opt ctrl s ev with
    | Outcome.continue s1 => run st opt ctrl s1 rest
    | o => o

end Sched

/-! ## The store of the spec's contract -/

/-- Modelled from the spec: the state of a store that follows the contract of
section 6 (no store implementation is part of the listed sources): the records,
looked up by URL, and the global visit counter. -/
structure MemStore where
  recs : List URLRecord := []
  visits : Int := 0
  deriving DecidableEq, Repr

/-- The record stored for `u`, if any. -/
def MemStore.find (m : MemStore) (u : URL) : Option URLRecord :=
  m.recs.find? (fun r => decide (r.Loc = u))

/-- Replace the records stored for the URL of `r` by `r`. -/
def replaceRec (r : URLRecord) : List URLRecord → List URLRecord
  | [] => []
  | x :: xs => (if x.Loc = r.Loc then r else x) :: replaceRec r xs

/-- Set the status of the records stored for `u`. -/
def setStatus (u : URL) (status : Status) : List URLRecord → List URLRecord
  | [] => []
  | x :: xs => (if x.Loc = u then { x with Status := status } else x) :: setStatus u status xs

/-- Modelled from the spec: `Get(url)` returns the record of the URL and creates a
fresh Pending record when there is none. -/
def MemStore.Get (m : MemStore) (u : URL) : MemStore × Option URLRecord × Option GoError :=
  match m.find u with
  | some r => (m, some r, none)
  | none => ({ m with recs := { Loc := u } :: m.recs }, some { Loc := u }, none)

/-- Modelled from the spec: `Update(record)` stores the record under its URL. -/
def MemStore.Update (m : MemStore) (r : URLRecord) : MemStore × Option GoError :=
  match m.find r.Loc with
  | some _ => ({ m with recs := replaceRec r m.recs }, none)
  | none => ({ m with recs := r :: m.recs }, none)

/-- Modelled from the spec: `UpdateStatus(url, status)` sets the status of the record of the URL. -/
def MemStore.UpdateStatus (m : MemStore) (u : URL) (status : Status) :
    MemStore × Option GoError :=
  ({ m with recs := setStatus u status m.recs }, none)

/-- Modelled from the spec: `IncVisitCount()` increments the global counter. -/
def MemStore.IncVisitCount (m : MemStore) : MemStore × Option GoError :=
  ({ m with visits := m.visits + 1 }, none)

/-- Modelled from the spec: `IsFinished()` is true iff no Pending record remains. -/
def MemStore.IsFinished (m : MemStore) : MemStore × Bool × Option GoError :=
  (m, m.recs.all (fun r => decide (r.Status ≠ URLStatusPending)), none)

/-- Modelled from the spec: the store of section 6 as a `Store`. -/
def memStore : Store MemStore :=
  { Get := MemStore.Get
    Update := MemStore.Update
    UpdateStatus := MemStore.UpdateStatus
    IncVisitCount := MemStore.IncVisitCount
    IsFinished := MemStore.IsFinished }

/-- A store that behaves as `memStore` except that every `UpdateStatus` fails
(the contract allows `UpdateStatus` to return an error). -/
def statusFailStore : Store MemStore :=
  { memStore with UpdateStatus := fun m _ _ => (m, some "store: status write failed") }

/-- The status stored for `u`, if `u` has a record. -/
def MemStore.status (m : MemStore) (u : URL) : Option Status :=
  (m.find u).map (fun r => r.Status)

/-- The error count stored for `u`; a URL without a record counts zero (its
record would be created fresh). -/
def MemStore.errorCount (m : MemStore) (u : URL) : Int :=
  match m.find u with
  | some r => r.ErrorCount
  | none => 0

/-- The record `Get` hands out for `u`: the stored one, or a fresh Pending record. -/
def MemStore.recordOf (m : MemStore) (u : URL) : URLRecord :=
  match m.find u with
  | some r => r
  | none => { Loc := u }

/-! ## Scheduler: vocabulary of the claims -/

/-- The last-visit time a decision uses: the response timestamp for a
Response-complete decision, the stored `Last` otherwise. -/
def lastUsed (typ : URLType) (r : Option Response) (uu : URLRecord) : Time :=
  match typ, r with
  | URLTypeResponse, some resp => resp.Timestamp
  | _, _ => uu.Last

/-- The record a decision works on: visit count and `Last` are advanced for a
Response-complete decision, the stored record is used as it is otherwise. -/
def recordUsed (typ : URLType) (r : Option Response) (uu : URLRecord) : URLRecord :=
  match typ, r with
  | URLTypeResponse, some resp =>
    { uu with VisitCount := wrapInt (uu.VisitCount + 1), Last := resp.Timestamp }
  | _, _ => uu

/-- The context a decision hands to the policy. -/
def contextUsed (typ : URLType) (r : Option Response) (u : URL) (uu : URLRecord) : Context :=
  match typ, r with
  | URLTypeResponse, some resp => resp.Context.fromURL (recordUsed typ r uu)
  | URLTypeNew, _ => Context.fromURL { newContext u with response := r } uu
  | _, _ => (newContext u).fromURL uu

/-- A policy that answers the same `(done, next, score)` for every URL. -/
def constCtrl (done : Bool) (next : Time) (score : Int) : Controller :=
  { Schedule := fun _ _ => (done, next, score) }

/-- The parsed URL `http://x.test/`. -/
def seedURL : URL :=
  { Scheme := [104, 116, 116, 112], Host := [120, 46, 116, 101, 115, 116], Path := [47] }

/-- The record of `v` is in a terminal status (Finished or Error). -/
def MemStore.terminal (m : MemStore) (v : URL) : Prop :=
  m.status v = some URLStatusFinished ∨ m.status v = some URLStatusError

/-- Whether the iteration ended in `sd.stop()` (the scheduler shut down). -/
def Outcome.stopped {σ : Type} : Outcome σ → Bool
  | Outcome.exit _ stopped _ => stopped
  | _ => false

/-- The item an error notification below the cap appends at time `now`. -/
def retryItem (opt : Config) (u : URL) (now : Time) : Option Item :=
  some { URL := some u, Next := now + opt.RetryDuration, Score := 0 }

/-- Options used in the concrete runs: `MinDelay = 50`, `MaxRetry = 1`, retry delay 10. -/
def demoOpt : Config := { MinDelay := 50, MaxRetry := 1, RetryDuration := 10 }

/-! ## Go library functions used by the normaliser

The functions below model the parts of the Go standard library (and of
`golang.org/x/net/idna`) that `normalize.go` calls. They work on bytes. -/

/-- The bytes of a rune in UTF-8 (`utf8.EncodeRune`); surrogates and values
above U+10FFFF are written as U+FFFD. -/
def encodeRune (r : Nat) : Str :=
  if r ≤ 0x7F then [r]
  else if r ≤ 0x7FF then [0xC0 + r / 64, 0x80 + r % 64]
  else if r > 0x10FFFF ∨ (0xD800 ≤ r ∧ r ≤ 0xDFFF) then [0xEF, 0xBF, 0xBD]
  else if r ≤ 0xFFFF then [0xE0 + r / 4096, 0x80 + r / 64 % 64, 0x80 + r % 64]
  else [0xF0 + r / 262144, 0x80 + r / 4096 % 64, 0x80 + r / 64 % 64, 0x80 + r % 64]

/-- The bytes of a string literal: the UTF-8 encoding of its characters. -/
def str (s : String) : Str :=
  s.data.flatMap (fun c => encodeRune c.toNat)

/-- The replacement rune `utf8.RuneError`. -/
def RuneError : Nat := 0xFFFD

/-- The table `first` of package `utf8` together with `acceptRanges`: for a
leading byte, the length of the sequence it starts (0 for an illegal leading
byte) and the range allowed for the second byte. -/
def utf8First (b : Nat) : Nat × Nat × Nat :=
  if b < 0x80 then (1, 0, 0)
  else if b < 0xC2 then (0, 0, 0)
  else if b ≤ 0xDF then (2, 0x80, 0xBF)
  else if b = 0xE0 then (3, 0xA0, 0xBF)
  else if b ≤ 0xEC then (3, 0x80, 0xBF)
  else if b = 0xED then (3, 0x80, 0x9F)
  else if b ≤ 0xEF then (3, 0x80, 0xBF)
  else if b = 0xF0 then (4, 0x90, 0xBF)
  else if b ≤ 0xF3 then (4, 0x80, 0xBF)
  else if b = 0xF4 then (4, 0x80, 0x8F)
  else (0, 0, 0)

/-- A continuation byte (`locb ≤ c ≤ hicb`). -/
def isCont (c : Nat) : Bool := decide (0x80 ≤ c ∧ c ≤ 0xBF)

/-- The test `ValidString` makes at one position: the width of the well-formed
sequence at the head of the string, or 0 when the leading byte is illegal, the
string is too short, or a following byte is out of range. -/
def seqWidth : Str → Nat
  | [] => 0
  | s0 :: rest =>
    if s0 < 0x80 then 1
    else if (utf8First s0).1 = 0 then 0
    else if rest.length + 1 < (utf8First s0).1 then 0
    else if ¬ ((utf8First s0).2.1 ≤ rest.getD 0 0 ∧ rest.getD 0 0 ≤ (utf8First s0).2.2) then 0
    else if (utf8First s0).1 = 2 then 2
    else if ¬ isCont (rest.getD 1 0) then 0
    else if (utf8First s0).1 = 3 then 3
    else if ¬ isCont (rest.getD 2 0) then 0
    else 4

/-- The loop of `utf8.ValidString` over the bytes still to check; `fuel` bounds
the iterations (the length of the string suffices). -/
def validLoop : Nat → Str → Bool
  | 0, s => s.isEmpty
  | fuel + 1, s =>
    if s.isEmpty then true
    else if seqWidth s = 0 then false
    else validLoop fuel (s.drop (seqWidth s))

/-- The function `utf8.ValidString`. -/
def ValidString (s : Str) : Bool := validLoop s.length s

/-- The function `utf8.DecodeRuneInString`: the first rune of the string and its width in
bytes; an invalid or short sequence decodes as `(RuneError, 1)`. -/
def decodeRune : Str → Nat × Nat
  | [] => (RuneError, 0)
  | s0 :: rest =>
    if s0 < 0x80 then (s0, 1)
    else if (utf8First s0).1 = 2 then
      match rest with
      | c1 :: _ =>
        if (utf8First s0).2.1 ≤ c1 ∧ c1 ≤ (utf8First s0).2.2 then
          (s0 % 32 * 64 + c1 % 64, 2)
        else (RuneError, 1)
      | _ => (RuneError, 1)
    else if (utf8First s0).1 = 3 then
      match rest with
      | c1 :: c2 :: _ =>
        if (utf8First s0).2.1 ≤ c1 ∧ c1 ≤ (utf8First s0).2.2 ∧ isCont c2 then
          (s0 % 16 * 4096 + c1 % 64 * 64 + c2 % 64, 3)
        else (RuneError, 1)
      | _ => (RuneError, 1)
    else if (utf8First s0).1 = 4 then
      match rest with
      | c1 :: c2 :: c3 :: _ =>
        if (utf8First s0).2.1 ≤ c1 ∧ c1 ≤ (utf8First s0).2.2 ∧ isCont c2 ∧ isCont c3 then
          (s0 % 8 * 262144 + c1 % 64 * 4096 + c2 % 64 * 64 + c3 % 64, 4)
        else (RuneError, 1)
      | _ => (RuneError, 1)
    else (RuneError, 1)

/-- The runes a `for range` loop over the string yields; `fuel` bounds the
number of iterations (the length of the string suffices). -/
def runesAux : Nat → Str → List Nat
  | 0, _ => []
  | _ + 1, [] => []
  | fuel + 1, b :: rest =>
    (decodeRune (b :: rest)).1 :: runesAux fuel ((b :: rest).drop (decodeRune (b :: rest)).2)

/-- The runes of a string, as a `for range` loop yields them. -/
def runes (s : Str) : List Nat := runesAux s.length s

/-- Lower case of an ASCII byte. -/
def asciiLower (b : Nat) : Nat := if 65 ≤ b ∧ b ≤ 90 then b + 32 else b

/-- All bytes of the string are ASCII (below `utf8.RuneSelf`). -/
def isASCII (s : Str) : Bool := s.all (fun b => decide (b < 0x80))

/-- The function `unicode.ToLower`: ASCII letters are handled directly; for other runes the
case table of package `unicode` is consulted, which is the parameter `tab`. -/
def unicodeToLower (tab : Nat → Nat) (r : Nat) : Nat :=
  if r ≤ 0x7F then asciiLower r else tab r

/-- The function `strings.ToLower`: an ASCII string is lowered bytewise, any other string
rune by rune (`strings.Map(unicode.ToLower, s)`; an invalid byte becomes U+FFFD). -/
def ToLower (tab : Nat → Nat) (s : Str) : Str :=
  if isASCII s then s.map asciiLower
  else (runes s).flatMap (fun r => encodeRune (unicodeToLower tab r))

/-- The case table of `unicode.ToLower` on the Latin-1 Supplement block
(U+00C0 to U+00DE except the multiplication sign map 32 up); the mappings of
runes above U+00FF are not reproduced and are the identity here. -/
def latin1ToLower (r : Nat) : Nat :=
  if 0xC0 ≤ r ∧ r ≤ 0xDE ∧ r ≠ 0xD7 then r + 32 else r

/-- The function `strings.HasSuffix`. -/
def HasSuffix (s suffix : Str) : Bool :=
  decide (suffix.length ≤ s.length) && (s.drop (s.length - suffix.length) == suffix)

/-- The test `strings.IndexByte(s, c) >= 0`. -/
def containsByte (s : Str) (c : Nat) : Bool := s.any (fun b => b == c)

/-- The function `strings.IndexByte`: the index of the first `c`, if any. -/
def indexByte : Str → Nat → Option Nat
  | [], _ => none
  | b :: rest, c => if b = c then some 0 else (indexByte rest c).map (fun i => i + 1)

/-- The index of the last `c`, if any (`last` of package `net`). -/
def lastIndexByte : Str → Nat → Option Nat
  | [], _ => none
  | b :: rest, c =>
    match lastIndexByte rest c with
    | some i => some (i + 1)
    | none => if b = c then some 0 else none

/-- The function `net.SplitHostPort`; `none` stands for the returned error. -/
def SplitHostPort (hostport : Str) : Option (Str × Str) :=
  match lastIndexByte hostport 58 with
  | none => none
  | some i =>
    if hostport.head? = some 91 then
      match indexByte hostport 93 with
      | none => none
      | some e =>
        if e + 1 = hostport.length then none
        else if e + 1 = i then
          if containsByte (hostport.drop 1) 91 then none
          else if containsByte (hostport.drop (e + 1)) 93 then none
          else some ((hostport.take e).drop 1, hostport.drop (i + 1))
        else none
    else
      if containsByte (hostport.take i) 58 then none
      else if containsByte hostport 91 then none
      else if containsByte hostport 93 then none
      else some (hostport.take i, hostport.drop (i + 1))

/-- The function `net.JoinHostPort`. -/
def JoinHostPort (host port : Str) : Str :=
  if containsByte host 58 then [91] ++ host ++ [93, 58] ++ port
  else host ++ [58] ++ port

/-- The bound `big` of package `net`'s number parsers. -/
def big : Nat := 0xFFFFFF

/-- The loop of `dtoi`: `(n, i, ok)` after reading decimal digits. -/
def dtoiLoop : Str → Nat → Nat → Nat × Nat × Bool
  | [], n, i => (n, i, true)
  | c :: rest, n, i =>
    if 48 ≤ c ∧ c ≤ 57 then
      if n * 10 + (c - 48) ≥ big then (big, i, false)
      else dtoiLoop rest (n * 10 + (c - 48)) (i + 1)
    else (n, i, true)

/-- The function `dtoi` of package `net`: decimal to integer, `(n, i, ok)` with `i` the number of bytes read. -/
def dtoi (s : Str) : Nat × Nat × Bool :=
  match dtoiLoop s 0 0 with
  | (n, i, true) => if i = 0 then (0, 0, false) else (n, i, true)
  | r => r

/-- The value of a hexadecimal digit, if the byte is one. -/
def hexVal (c : Nat) : Option Nat :=
  if 48 ≤ c ∧ c ≤ 57 then some (c - 48)
  else if 97 ≤ c ∧ c ≤ 102 then some (c - 97 + 10)
  else if 65 ≤ c ∧ c ≤ 70 then some (c - 65 + 10)
  else none

/-- The loop of `xtoi`. -/
def xtoiLoop : Str → Nat → Nat → Nat × Nat × Bool
  | [], n, i => (n, i, true)
  | c :: rest, n, i =>
    match hexVal c with
    | some d =>
      if n * 16 + d ≥ big then (0, i, false) else xtoiLoop rest (n * 16 + d) (i + 1)
    | none => (n, i, true)

/-- The function `xtoi` of package `net`: hexadecimal to integer. -/
def xtoi (s : Str) : Nat × Nat × Bool :=
  match xtoiLoop s 0 0 with
  | (n, i, true) => if i = 0 then (0, i, false) else (n, i, true)
  | r => r

/-- The loop of `parseIPv4` from octet `i` on (`todo` octets remain); the
result tells whether an address is returned. -/
def parseIPv4Loop : Nat → Bool → Str → Bool
  | 0, _, s => s.isEmpty
  | todo + 1, first, s =>
    if s.isEmpty then false
    else if !first && s.head? ≠ some 46 then false
    else
      let s1 := if first then s else s.drop 1
      match dtoi s1 with
      | (n, c, ok) =>
        if !ok || n > 0xFF then false
        else if c > 1 && s1.head? = some 48 then false
        else parseIPv4Loop todo false (s1.drop c)

/-- The function `parseIPv4` of package `net`: whether the string is a dotted quad. -/
def parseIPv4 (s : Str) : Bool := parseIPv4Loop 4 true s

/-- The main loop of `parseIPv6`: `i` is the number of address bytes filled,
`ellipsis` whether a `::` was seen. The result is `(ok, i, ellipsis)`; `ok` is
false where the source returns nil. -/
def parseIPv6Loop : Nat → Str → Nat → Bool → Bool × Nat × Bool
  | 0, s, i, ellipsis => (s.isEmpty, i, ellipsis)
  | fuel + 1, s, i, ellipsis =>
    if i < 16 then
      match xtoi s with
      | (n, c, ok) =>
        if !ok || n > 0xFFFF then (false, i, ellipsis)
        else if c < s.length ∧ (s.drop c).head? = some 46 then
          if !ellipsis && i ≠ 12 then (false, i, ellipsis)
          else if i + 4 > 16 then (false, i, ellipsis)
          else if !parseIPv4 s then (false, i, ellipsis)
          else (true, i + 4, ellipsis)
        else
          let s1 := s.drop c
          if s1.isEmpty then (true, i + 2, ellipsis)
          else if s1.head? ≠ some 58 || s1.length = 1 then (false, i + 2, ellipsis)
          else
            let s2 := s1.drop 1
            if s2.head? = some 58 then
              if ellipsis then (false, i + 2, ellipsis)
              else if (s2.drop 1).isEmpty then (true, i + 2, true)
              else parseIPv6Loop fuel (s2.drop 1) (i + 2) true
            else parseIPv6Loop fuel s2 (i + 2) ellipsis
    else (s.isEmpty, i, ellipsis)

/-- The function `parseIPv6` of package `net`: whether the string is an IPv6 address. -/
def parseIPv6 (s : Str) : Bool :=
  let lead := decide (s.length ≥ 2) && s.head? = some 58 && (s.drop 1).head? = some 58
  let s1 := if lead then s.drop 2 else s
  if lead && s1.isEmpty then true
  else
    match parseIPv6Loop 9 s1 0 lead with
    | (ok, i, ellipsis) =>
      if !ok then false
      else if i < 16 then ellipsis
      else !ellipsis

/-- The scan of `net.ParseIP` for the first `.` or `:`. -/
def parseIPScan (whole : Str) : Str → Bool
  | [] => false
  | c :: rest =>
    if c = 46 then parseIPv4 whole
    else if c = 58 then parseIPv6 whole
    else parseIPScan whole rest

/-- The test `net.ParseIP(s) != nil`. -/
def ParseIP (s : Str) : Bool := parseIPScan s s

/-! ### Regular expressions -/

/-- Regular expressions over bytes, as far as `domainRegexp` needs them. -/
inductive Regex where
  | empty
  | eps
  | cls (p : Nat → Bool)
  | cat (a b : Regex)
  | alt (a b : Regex)
  | star (a : Regex)

/-- The repetition `a{lo,hi}` written out, for `lo ≤ hi`. -/
def Regex.rep (a : Regex) : Nat → Nat → Regex
  | _, 0 => Regex.eps
  | 0, hi + 1 => Regex.alt Regex.eps (Regex.cat a (Regex.rep a 0 hi))
  | lo + 1, hi + 1 => Regex.cat a (Regex.rep a lo hi)

/-- The repetition `a+`. -/
def Regex.plus (a : Regex) : Regex := Regex.cat a (Regex.star a)

/-- Whether the expression matches the empty string. -/
def Regex.nullable : Regex → Bool
  | Regex.empty => false
  | Regex.eps => true
  | Regex.cls _ => false
  | Regex.cat a b => a.nullable && b.nullable
  | Regex.alt a b => a.nullable || b.nullable
  | Regex.star _ => true

/-- Concatenation that drops a dead left factor. -/
def Regex.mkCat (a b : Regex) : Regex :=
  match a with
  | Regex.empty => Regex.empty
  | _ => Regex.cat a b

/-- Alternation that drops a dead branch. -/
def Regex.mkAlt (a b : Regex) : Regex :=
  match a, b with
  | Regex.empty, _ => b
  | _, Regex.empty => a
  | _, _ => Regex.alt a b

/-- The derivative of the expression by one byte. -/
def Regex.deriv (c : Nat) : Regex → Regex
  | Regex.empty => Regex.empty
  | Regex.eps => Regex.empty
  | Regex.cls p => if p c then Regex.eps else Regex.empty
  | Regex.cat a b =>
    if a.nullable then Regex.mkAlt (Regex.mkCat (a.deriv c) b) (b.deriv c)
    else Regex.mkCat (a.deriv c) b
  | Regex.alt a b => Regex.mkAlt (a.deriv c) (b.deriv c)
  | Regex.star a => Regex.mkCat (a.deriv c) (Regex.star a)

/-- Whether the whole string matches the expression (`^...$`). -/
def Regex.matches (r : Regex) : Str → Bool
  | [] => r.nullable
  | c :: rest => (r.deriv c).matches rest

/-- The class `[a-zA-Z0-9]`. -/
def isAlnum (c : Nat) : Bool :=
  decide ((97 ≤ c ∧ c ≤ 122) ∨ (65 ≤ c ∧ c ≤ 90) ∨ (48 ≤ c ∧ c ≤ 57))

/-- The class `[a-zA-Z0-9-]`. -/
def isLabelByte (c : Nat) : Bool := isAlnum c || c == 45

/-- The expression of `domainRegexp`:
`^([a-zA-Z0-9-]{1,63}\.)+[a-zA-Z0-9][a-zA-Z0-9-]{0,61}[a-zA-Z0-9]$`. A byte
outside ASCII is in no class, so matching bytes agrees with matching runes. -/
def domainRegexp : Regex :=
  Regex.cat
    (Regex.plus (Regex.cat (Regex.rep (Regex.cls isLabelByte) 1 63) (Regex.cls (fun c => c == 46))))
    (Regex.cat (Regex.cls isAlnum)
      (Regex.cat (Regex.rep (Regex.cls isLabelByte) 0 61) (Regex.cls isAlnum)))

/-- The call `domainRegexp.MatchString(s)`. -/
def domainRegexp.MatchString (s : Str) : Bool := domainRegexp.matches s

/-! ### Punycode and `idna.ToASCII` -/

/-- The 32-bit signed value of an integer (`int32` wrap-around). -/
def wrap32 (x : Int) : Int := (x + 2147483648) % 4294967296 - 2147483648

/-- The function `encodeDigit` of the punycode encoder: digits 0-25 are `a`-`z`, 26-35 are `0`-`9`. -/
def encodeDigit (d : Int) : Nat :=
  if d < 26 then (d + 97).toNat else (d - 26 + 48).toNat

/-- The loop of `adapt`: divide `delta` while it exceeds `((base - tmin) * tmax) / 2`. -/
def adaptLoop : Nat → Int → Int → Int × Int
  | 0, delta, k => (delta, k)
  | fuel + 1, delta, k =>
    if delta > 455 then adaptLoop fuel (delta / 35) (wrap32 (k + 36)) else (delta, k)

/-- The bias adaptation `adapt` of RFC 3492 section 6.1. -/
def adapt (delta numPoints : Int) (firstTime : Bool) : Int :=
  let d1 := if firstTime then Int.tdiv delta 700 else Int.tdiv delta 2
  let d2 := wrap32 (d1 + Int.tdiv d1 numPoints)
  match adaptLoop 32 d2 0 with
  | (d3, k) => wrap32 (k + Int.tdiv (wrap32 (36 * d3)) (wrap32 (d3 + 38)))

/-- The loop that writes `q` as a variable-length integer. -/
def emitDigits : Nat → Int → Int → Int → Str → Str
  | 0, _, _, _, out => out
  | fuel + 1, k, bias, q, out =>
    let t := if k - bias < 1 then 1 else if k - bias > 26 then 26 else k - bias
    if q < t then out ++ [encodeDigit q]
    else emitDigits fuel (k + 36) bias (Int.tdiv (q - t) (36 - t))
      (out ++ [encodeDigit (t + Int.tmod (q - t) (36 - t))])

/-- The state of the punycode encoder between runes. -/
structure PunyState where
  delta : Int
  bias : Int
  h : Int
  remaining : Int
  output : Str
  failed : Bool

/-- The inner `for _, r := range s` of `encode` for the current code point `n`;
`b` is the number of basic code points. -/
def encodeInner (n b : Int) : List Nat → PunyState → PunyState
  | [], st => st
  | r :: rest, st =>
    if st.failed then st
    else if (r : Int) < n then
      let d := wrap32 (st.delta + 1)
      if d < 0 then { st with failed := true }
      else encodeInner n b rest { st with delta := d }
    else if (r : Int) > n then encodeInner n b rest st
    else
      encodeInner n b rest
        { st with output := emitDigits 32 36 st.bias st.delta st.output
                  bias := adapt st.delta (st.h + 1) (decide (st.h = b))
                  delta := 0
                  h := st.h + 1
                  remaining := st.remaining - 1 }

/-- The smallest rune of the label that is at least `n` (`0x7fffffff` if none). -/
def nextCodePoint (n : Int) (rs : List Nat) : Int :=
  rs.foldl (fun m r => if m > (r : Int) ∧ (r : Int) ≥ n then (r : Int) else m) 2147483647

/-- The outer `for remaining != 0` of `encode`. -/
def encodeOuter (rs : List Nat) (b : Int) : Nat → Int → PunyState → PunyState
  | 0, _, st => st
  | fuel + 1, n, st =>
    if st.failed then st
    else if st.remaining = 0 then st
    else
      let m := nextCodePoint n rs
      let d := wrap32 (st.delta + (m - n) * (st.h + 1))
      if d < 0 then { st with failed := true }
      else
        let st1 := encodeInner m b rs { st with delta := d }
        if st1.failed then st1
        else encodeOuter rs b fuel (m + 1) { st1 with delta := wrap32 (st1.delta + 1) }

/-- Punycode `encode(prefix, s)` of `golang.org/x/net/idna`; `none` is the overflow error. -/
def punyEncode (pre s : Str) : Option Str :=
  let rs := runes s
  let basic := rs.filter (fun r => decide (r < 0x80))
  let b : Int := basic.length
  let out := pre ++ basic ++ (if b > 0 then [45] else [])
  let st := encodeOuter rs b (rs.length + 1) 128
    { delta := 0, bias := 72, h := b, remaining := (rs.length : Int) - b, output := out,
      failed := false }
  if st.failed then none else some st.output

/-- The function `strings.Split(s, sep)` for a one-byte separator. -/
def splitByte (sep : Nat) : Str → List Str
  | [] => [[]]
  | c :: rest =>
    if c = sep then [] :: splitByte sep rest
    else
      match splitByte sep rest with
      | [] => [[c]]
      | l :: ls => (c :: l) :: ls

/-- The function `strings.Join(parts, sep)` for a one-byte separator. -/
def joinByte (sep : Nat) : List Str → Str
  | [] => []
  | [l] => l
  | l :: ls => l ++ sep :: joinByte sep ls

/-- The ACE prefix `xn--`. -/
def acePrefix : Str := [120, 110, 45, 45]

/-- The label loop of `idna.ToASCII`. -/
def toASCIILabels : List Str → Option (List Str)
  | [] => some []
  | label :: rest =>
    if isASCII label then (toASCIILabels rest).map (fun ls => label :: ls)
    else
      match punyEncode acePrefix label with
      | none => none
      | some a => (toASCIILabels rest).map (fun ls => a :: ls)

/-- The function `idna.ToASCII` of `golang.org/x/net/idna`: an ASCII string is returned as it
is; otherwise every non-ASCII label is replaced by `xn--` and its punycode.
Letter case is kept. `none` is the returned error. -/
def idnaToASCII (s : Str) : Option Str :=
  if isASCII s then some s
  else (toASCIILabels (splitByte 46 s)).map (joinByte 46)

/-! ### `path.Clean` -/

/-- The backtracking of a `..` element: bytes are dropped from the end of the
buffer (kept in reverse) until a `/` has been dropped or the length is `dotdot`. -/
def backtrack (dotdot : Nat) : List Nat → List Nat
  | [] => []
  | b :: rest => if rest.length > dotdot ∧ b ≠ 47 then backtrack dotdot rest else rest

/-- The main loop of `path.Clean` on the bytes still to read; `out` is the
buffer in reverse, `fuel` bounds the iterations (the length of the path suffices). -/
def cleanLoop (rooted : Bool) : Nat → Str → List Nat → Nat → List Nat
  | 0, _, out, _ => out
  | fuel + 1, path, out, dotdot =>
    match path with
    | [] => out
    | c :: rest =>
      if c = 47 then cleanLoop rooted fuel rest out dotdot
      else if c = 46 ∧ (rest = [] ∨ rest.head? = some 47) then
        cleanLoop rooted fuel rest out dotdot
      else if c = 46 ∧ rest.head? = some 46 ∧
          (rest.drop 1 = [] ∨ (rest.drop 1).head? = some 47) then
        if out.length > dotdot then
          cleanLoop rooted fuel (rest.drop 1) (backtrack dotdot out) dotdot
        else if !rooted then
          let out1 := [46, 46] ++ (if out.length > 0 then 47 :: out else out)
          cleanLoop rooted fuel (rest.drop 1) out1 out1.length
        else cleanLoop rooted fuel (rest.drop 1) out dotdot
      else
        let out1 := if (rooted && out.length ≠ 1) || (!rooted && out.length ≠ 0)
          then 47 :: out else out
        cleanLoop rooted fuel (path.dropWhile (fun b => b ≠ 47))
          ((path.takeWhile (fun b => b ≠ 47)).reverse ++ out1) dotdot

/-- The function `path.Clean`. -/
def Clean (path : Str) : Str :=
  if path = [] then [46]
  else
    let rooted := decide (path.head? = some 47)
    let out := if rooted then cleanLoop rooted path.length (path.drop 1) [47] 1
               else cleanLoop rooted path.length path [] 0
    if out.length = 0 then [46] else out.reverse

/-! ### `URL.String` of `net/url` -/

/-- The escaping modes of `net/url`. -/
inductive Encoding where
  | encodePath
  | encodePathSegment
  | encodeHost
  | encodeZone
  | encodeUserPassword
  | encodeQueryComponent
  | encodeFragment
  deriving DecidableEq, Repr

open Encoding

/-- The function `shouldEscape(c, mode)` of `net/url`. -/
def shouldEscape (c : Nat) (mode : Encoding) : Bool :=
  if isAlnum c then false
  else if (mode = encodeHost ∨ mode = encodeZone) ∧
      c ∈ [33, 36, 38, 39, 40, 41, 42, 43, 44, 59, 61, 58, 91, 93, 60, 62, 34] then false
  else if c ∈ [45, 95, 46, 126] then false
  else if c ∈ [36, 38, 43, 44, 47, 58, 59, 61, 63, 64] ∧ mode = encodePath then decide (c = 63)
  else if c ∈ [36, 38, 43, 44, 47, 58, 59, 61, 63, 64] ∧ mode = encodePathSegment then
    decide (c = 47 ∨ c = 59 ∨ c = 44 ∨ c = 63)
  else if c ∈ [36, 38, 43, 44, 47, 58, 59, 61, 63, 64] ∧ mode = encodeUserPassword then
    decide (c = 64 ∨ c = 47 ∨ c = 63 ∨ c = 58)
  else if c ∈ [36, 38, 43, 44, 47, 58, 59, 61, 63, 64] ∧ mode = encodeQueryComponent then true
  else if c ∈ [36, 38, 43, 44, 47, 58, 59, 61, 63, 64] ∧ mode = encodeFragment then false
  else if mode = encodeFragment ∧ c ∈ [33, 40, 41, 42] then false
  else true

/-- An upper-case hexadecimal digit (`"0123456789ABCDEF"[d]`). -/
def upperHex (d : Nat) : Nat := if d < 10 then 48 + d else 55 + d

/-- The function `escape(s, mode)` of `net/url`: bytes that should be escaped become `%XX`
(a space becomes `+` in a query component). -/
def escape (s : Str) (mode : Encoding) : Str :=
  s.flatMap (fun c =>
    if shouldEscape c mode then
      if c = 32 ∧ mode = encodeQueryComponent then [43]
      else [37, upperHex (c / 16 % 16), upperHex (c % 16)]
    else [c])

/-- The function `validEncoding(s, mode)` of `net/url`. -/
def validEncoding (s : Str) (mode : Encoding) : Bool :=
  s.all (fun c =>
    if c ∈ [33, 36, 38, 39, 40, 41, 42, 43, 44, 59, 61, 58, 64, 91, 93, 37] then true
    else !shouldEscape c mode)

/-- The function `unescape(s, encodePath)` of `net/url`; `none` is the escape error. -/
def unescapePath : Str → Option Str
  | [] => some []
  | c :: rest =>
    if c = 37 then
      match rest with
      | a :: b :: rest2 =>
        match hexVal a, hexVal b with
        | some x, some y => (unescapePath rest2).map (fun t => (x * 16 + y) :: t)
        | _, _ => none
      | _ => none
    else (unescapePath rest).map (fun t => c :: t)

/-- The method `u.EscapedPath()`. -/
def URL.EscapedPath (u : URL) : Str :=
  if u.RawPath ≠ [] ∧ validEncoding u.RawPath encodePath ∧
      unescapePath u.RawPath = some u.Path then u.RawPath
  else if u.Path = [42] then [42]
  else escape u.Path encodePath

/-- The method `ui.String()` of `url.Userinfo`. -/
def Userinfo.String (ui : Userinfo) : Str :=
  escape ui.username encodeUserPassword ++
    (if ui.passwordSet then 58 :: escape ui.password encodeUserPassword else [])

/-- The part of `u.String()` between the scheme and the query when `Opaque`
is empty: `//`, user, host and path. -/
def URL.hierPart (u : URL) : Str :=
  let auth :=
    if u.Scheme ≠ [] ∨ u.Host ≠ [] ∨ u.User ≠ none then
      (if u.Host ≠ [] ∨ u.Path ≠ [] ∨ u.User ≠ none then [47, 47] else []) ++
      (match u.User with
        | some ui => ui.String ++ [64]
        | none => []) ++
      (if u.Host ≠ [] then escape u.Host encodeHost else [])
    else []
  let path := u.EscapedPath
  let sep := if path ≠ [] ∧ path.head? ≠ some 47 ∧ u.Host ≠ [] then [47] else []
  let dot :=
    if u.Scheme = [] ∧ auth = [] ∧ sep = [] ∧
        containsByte (path.takeWhile (fun b => b ≠ 47)) 58 then [46, 47] else []
  auth ++ sep ++ dot ++ path

/-- The method `u.String()`. -/
def URL.String (u : URL) : Str :=
  (if u.Scheme ≠ [] then u.Scheme ++ [58] else []) ++
  (if u.Opaque ≠ [] then u.Opaque else u.hierPart) ++
  (if u.ForceQuery ∨ u.RawQuery ≠ [] then 63 :: u.RawQuery else []) ++
  (if u.Fragment ≠ [] then 35 :: escape u.Fragment encodeFragment else [])

/-! ## The normaliser (`urlx/normalize.go`) -/

/-- The string `http`. -/
def sHTTP : Str := [104, 116, 116, 112]

/-- The string `https`. -/
def sHTTPS : Str := [104, 116, 116, 112, 115]

/-- The string `localhost`. -/
def sLocalhost : Str := [108, 111, 99, 97, 108, 104, 111, 115, 116]

/-- The string `80`. -/
def sPort80 : Str := [56, 48]

/-- The string `443`. -/
def sPort443 : Str := [52, 52, 51]

/-- The function `validateHost(host)`: the accepted host and the error. `tab` is the case
table of `unicode.ToLower` for non-ASCII runes. -/
def validateHost (tab : Nat → Nat) (host : Str) : Str × Option GoError :=
  let lower := ToLower tab host
  if domainRegexp.MatchString lower || lower == sLocalhost || ParseIP lower then
    (lower, none)
  else
    match idnaToASCII host with
    | none => ([], some "idna: invalid label")
    | some punycode =>
      if domainRegexp.MatchString punycode then (punycode, none)
      else ([], some "not valid domain name or IP address")

/-- The closure `clean` of `Normalize`. -/
def cleanPath (pth : Str) : Str :=
  let p := Clean pth
  if p = [46] then []
  else if HasSuffix pth [47] && !HasSuffix p [47] then p ++ [47]
  else p

/-- The host and port `Normalize` works with: those of `net.SplitHostPort`, or
the whole `u.Host` and an empty port when it returns an error. -/
def splitHost (hostport : Str) : Str × Str :=
  match SplitHostPort hostport with
  | some hp => hp
  | none => (hostport, [])

/-- The port `Normalize` keeps: a default port of the scheme is dropped. -/
def keptPort (scheme port : Str) : Str :=
  if (scheme = sHTTP ∧ port = sPort80) ∨ (scheme = sHTTPS ∧ port = sPort443) then [] else port

/-- The function `Normalize(u)`: the URL as the call leaves it, and the returned error.
`tab` is the case table of `unicode.ToLower` for non-ASCII runes. The operands
formatted into the error messages are left out. -/
def Normalize (tab : Nat → Nat) (u : URL) : URL × Option GoError :=
  if !ValidString u.String then (u, some "normalize URL: invalid UTF-8 string")
  else
    let u1 := { u with Scheme := ToLower tab u.Scheme }
    if u1.Scheme ≠ sHTTP ∧ u1.Scheme ≠ sHTTPS then
      (u1, some "normalize URL: unsupported scheme")
    else
      let host := (splitHost u1.Host).1
      let port := (splitHost u1.Host).2
      if host = [] then (u1, some "normalize URL: empty host")
      else
        match validateHost tab host with
        | (_, some _) => (u1, some "normalize URL: invalid host")
        | (v, none) =>
          let u2 := { u1 with Host := v }
          let port1 := keptPort u2.Scheme port
          let u3 := if port1 ≠ [] then { u2 with Host := JoinHostPort u2.Host port1 } else u2
          ({ u3 with Path := cleanPath u3.Path, RawPath := cleanPath u3.RawPath, Fragment := [] },
            none)

/-! ## Normaliser: vocabulary of the claims -/

/-- The main loop of `path.Clean` on a rooted path, from the buffer `out` (in
reverse), run to the end of `path`. -/
def cleanFrom (path : Str) (out : List Nat) : List Nat :=
  cleanLoop true path.length path out 1

/-- One insertion into a rooted path, made right after a slash: a `.` segment
(`./`), a repeated slash (`/`), or a segment followed by `..` (`name/../`). The
path is cut as `pre ++ post` with `pre` starting and ending with a slash. -/
inductive PathStep : Str → Str → Prop where
  | dot (pre post : Str) : pre.head? = some 47 → pre.getLast? = some 47 →
    PathStep (pre ++ post) (pre ++ [46, 47] ++ post)
  | slash (pre post : Str) : pre.head? = some 47 → pre.getLast? = some 47 →
    PathStep (pre ++ post) (pre ++ [47] ++ post)
  | dotdot (pre name post : Str) : pre.head? = some 47 → pre.getLast? = some 47 →
    name ≠ [] → (∀ b ∈ name, b ≠ 47) → name ≠ [46] → name ≠ [46, 46] →
    PathStep (pre ++ post) (pre ++ (name ++ [47, 46, 46, 47]) ++ post)

/-- Any number of insertions into a path. -/
inductive PathVariant : Str → Str → Prop where
  | refl (p : Str) : PathVariant p p
  | step {p q r : Str} : PathVariant p q → PathStep q r → PathVariant p r

/-- The end of `u.String()`: the query and the fragment. -/
def URL.queryFragment (u : URL) : Str :=
  (if u.ForceQuery ∨ u.RawQuery ≠ [] then 63 :: u.RawQuery else []) ++
  (if u.Fragment ≠ [] then 35 :: escape u.Fragment encodeFragment else [])

/-- The scheme `t` is a rewriting of `s`: the same string, or an ASCII string
that differs from it only in the case of letters. -/
def SchemeVariant (s t : Str) : Prop :=
  t = s ∨ (isASCII t = true ∧ t.map asciiLower = s.map asciiLower)

/-- The host field `t` is a rewriting of the host `h` under the lower-cased
`scheme`: `h` with the case of letters changed, alone or followed by the
default port of the scheme (`:80` for `http`, `:443` for `https`). -/
def HostVariant (scheme h t : Str) : Prop :=
  ∃ h' : Str, h'.map asciiLower = h.map asciiLower ∧
    (t = h' ∨ (scheme = sHTTP ∧ t = h' ++ 58 :: sPort80) ∨
      (scheme = sHTTPS ∧ t = h' ++ 58 :: sPort443))

/-- The URL `v` is a rewriting of `u`: letter case of scheme and host changed,
the default port made explicit, segments inserted into the rooted path (and raw
path); every other field is the same. -/
structure URL.Variant (tab : Nat → Nat) (u v : URL) : Prop where
  scheme : SchemeVariant u.Scheme v.Scheme
  host : HostVariant (ToLower tab u.Scheme) u.Host v.Host
  path : PathVariant u.Path v.Path
  rawPath : PathVariant u.RawPath v.RawPath
  sameOpaque : v.Opaque = u.Opaque
  sameUser : v.User = u.User
  sameForceQuery : v.ForceQuery = u.ForceQuery
  sameRawQuery : v.RawQuery = u.RawQuery
  sameFragment : v.Fragment = u.Fragment

/-- The parsed URL `http://Example.com:80/a/../b`. -/
def urlMixed : URL :=
  { Scheme := str "http", Host := str "Example.com:80", Path := str "/a/../b" }

/-- The parsed URL `http://example.com/b`. -/
def urlCanonical : URL := { Scheme := str "http", Host := str "example.com", Path := str "/b" }

/-- The language of a regular expression: `Lang r s` says that `r` matches the whole of `s`. -/
inductive Regex.Lang : Regex → Str → Prop where
  | eps : Regex.Lang Regex.eps []
  | cls {p : Nat → Bool} {c : Nat} : p c = true → Regex.Lang (Regex.cls p) [c]
  | cat {a b : Regex} {s t : Str} :
    Regex.Lang a s → Regex.Lang b t → Regex.Lang (Regex.cat a b) (s ++ t)
  | altL {a b : Regex} {s : Str} : Regex.Lang a s → Regex.Lang (Regex.alt a b) s
  | altR {a b : Regex} {s : Str} : Regex.Lang b s → Regex.Lang (Regex.alt a b) s
  | starNil {a : Regex} : Regex.Lang (Regex.star a) []
  | starCons {a : Regex} {s t : Str} :
    Regex.Lang a s → Regex.Lang (Regex.star a) t → Regex.Lang (Regex.star a) (s ++ t)

/-- Every class of the expression is closed under the byte map `f`. -/
def Regex.Closed (f : Nat → Nat) : Regex → Prop
  | Regex.empty => True
  | Regex.eps => True
  | Regex.cls p => ∀ c, p c = true → p (f c) = true
  | Regex.cat a b => Regex.Closed f a ∧ Regex.Closed f b
  | Regex.alt a b => Regex.Closed f a ∧ Regex.Closed f b
  | Regex.star a => Regex.Closed f a

/-- Every class of the expression lies within the set `q` of bytes. -/
def Regex.Within (q : Nat → Bool) : Regex → Prop
  | Regex.empty => True
  | Regex.eps => True
  | Regex.cls p => ∀ c, p c = true → q c = true
  | Regex.cat a b => Regex.Within q a ∧ Regex.Within q b
  | Regex.alt a b => Regex.Within q a ∧ Regex.Within q b
  | Regex.star a => Regex.Within q a

/-- A label of a domain name: 1 to 63 bytes, each an ASCII letter, digit or hyphen. -/
def isDomainLabel (l : Str) : Bool :=
  decide (1 ≤ l.length ∧ l.length ≤ 63) && l.all isLabelByte

/-- The last label as the claim describes it: a label that neither starts nor
ends with a hyphen. -/
def isClaimedTLD (l : Str) : Bool :=
  isDomainLabel l && decide (l.head? ≠ some 45) && decide (l.getLast? ≠ some 45)

/-- The last label as the pattern wants it: a label of at least two bytes that
neither starts nor ends with a hyphen. -/
def isTLDLabel (l : Str) : Bool :=
  isClaimedTLD l && decide (2 ≤ l.length)

/-- The parsed URL `http://Bücher.DE/`. -/
def urlBucher : URL := { Scheme := str "http", Host := str "Bücher.DE", Path := str "/" }

/-- The parsed URL `ftp://example.com/`. -/
def urlFTP : URL := { Scheme := str "ftp", Host := str "example.com", Path := str "/" }

/-- The parsed URL `http://` (empty host, empty path). -/
def urlNoHost : URL := { Scheme := str "http" }

/-- The parsed URL `http://exa mple.com/`, a host with an invalid character. -/
def urlBadHost : URL := { Scheme := str "http", Host := str "exa mple.com", Path := str "/" }

/-! ## Normaliser: IP literals -/

/-- The parsed URL `http://[::1]/`: a bracketed IPv6 address without a port. -/
def urlV6 : URL := { Scheme := str "http", Host := str "[::1]", Path := str "/" }

/-- The parsed URL `http://[::1]:80/`: a bracketed IPv6 address with the default port. -/
def urlV6Default : URL := { Scheme := str "http", Host := str "[::1]:80", Path := str "/" }

/-- The parsed URL `http://[::1]:8080/`: a bracketed IPv6 address with another port. -/
def urlV6Port : URL := { Scheme := str "http", Host := str "[::1]:8080", Path := str "/" }

/-- The parsed URL `http://127.0.0.1/`: an IPv4 address without a port. -/
def urlV4 : URL := { Scheme := str "http", Host := str "127.0.0.1", Path := str "/" }

/-- The parsed URL `https://127.0.0.1:8443/`: an IPv4 address with a port. -/
def urlV4Port : URL := { Scheme := str "https", Host := str "127.0.0.1:8443", Path := str "/" }

/-- The parsed URL `http://example.com:443/`: the https port under http. -/
def urlHTTP443 : URL := { Scheme := str "http", Host := str "example.com:443", Path := str "/" }

/-- The parsed URL `https://example.com:80/`: the http port under https. -/
def urlHTTPS80 : URL := { Scheme := str "https", Host := str "example.com:80", Path := str "/" }

/-! ## Scheduler: vocabulary of the hand-off -/

/-- The guard of the two send cases: a channel variable is non-nil only while
its list is not empty. It holds when `work` starts, where both variables are
nil. -/
def Sched.Guarded {σ : Type} (s : Sched σ) : Prop :=
  (s.queueIn = true → s.waiting ≠ []) ∧ (s.output = true → s.outURLs ≠ [])

/-- The state `b` is `a` with another store and with items appended to the two
lists: nothing was sent, nothing was removed and the channel variables are
those of `a`. -/
def Sched.Ext {σ : Type} (a b : Sched σ) : Prop :=
  (∃ added, b.waiting = a.waiting ++ added) ∧ (∃ added, b.outURLs = a.outURLs ++ added) ∧
  b.queueIn = a.queueIn ∧ b.next = a.next ∧ b.output = a.output ∧ b.outURL = a.outURL ∧
  b.pqSent = a.pqSent ∧ b.outSent = a.outSent

/-- Everything handed to the wait queue so far, followed by what is waiting. -/
def Sched.queueHistory {σ : Type} (s : Sched σ) : List (Option Item) := s.pqSent ++ s.waiting

/-- Everything handed to the output stream so far, followed by what is ready. -/
def Sched.outHistory {σ : Type} (s : Sched σ) : List (Option URL) :=
  s.outSent ++ s.outURLs.map some

/-- The state in which `work` starts on the store `m`. -/
def Sched.init {σ : Type} (m : σ) : Sched σ := { store := m }

/-- From `s` to `b` the values handed over so far were only extended, and so
was the sequence of everything appended to each list: what was handed over is
at every moment a beginning of what was appended, in the same order. -/
def Sched.Fifo {σ : Type} (s b : Sched σ) : Prop :=
  (∃ t, b.pqSent = s.pqSent ++ t) ∧ (∃ added, b.queueHistory = s.queueHistory ++ added) ∧
  (∃ t, b.outSent = s.outSent ++ t) ∧ (∃ added, b.outHistory = s.outHistory ++ added)

/-- A scheduler state with two waiting items and one ready URL, over a store
that holds one Pending record. -/
def handoffSched : Sched MemStore :=
  { store := { recs := [{ Loc := seedURL }] }
    waiting := [some { NewItem with URL := some seedURL, Next := 1 },
      some { NewItem with URL := some seedURL, Next := 2 }]
    outURLs := [seedURL] }

/-! ## Normaliser: vocabulary of path cleaning -/

/-- The segments of a path: the pieces between its slashes. -/
def segments (p : Str) : List Str := splitByte 47 p

/-- Whether a path has two slashes in a row. -/
def hasDoubleSlash : Str → Bool
  | a :: b :: rest => (a == 47 && b == 47) || hasDoubleSlash (b :: rest)
  | _ => false

/-- A path element that `path.Clean` keeps: it is not empty, has no slash and
is not `.`. -/
def IsElem (e : Str) : Prop := e ≠ [] ∧ (∀ b ∈ e, b ≠ 47) ∧ e ≠ [46]

/-- The buffer of `path.Clean` that holds the elements `L`, after the root
slash when the path is rooted. -/
def cleanBuf (rooted : Bool) (L : List Str) : Str :=
  (if rooted then [47] else []) ++ joinByte 47 L

/-- The URL `http://example.com` with the relative path `./`. -/
def urlDotSlash : URL := { Scheme := str "http", Host := str "example.com", Path := str "./" }

/-- The URL `http://example.com/a//b/./c/../d/`: a rooted path with a repeated
slash, a `.` and a `..` segment, and a trailing slash. -/
def urlMessyPath : URL :=
  { Scheme := str "http", Host := str "example.com", Path := str "/a//b/./c/../d/" }

/-- The URL `http://example.com/a/b/`: a rooted path that ends with a slash. -/
def urlDir : URL := { Scheme := str "http", Host := str "example.com", Path := str "/a/b/" }

/-- The URL `http://example.com/a/b/.`: the path of `urlDir` with a `.` segment
inserted at its end. -/
def urlDirDot : URL := { Scheme := str "http", Host := str "example.com", Path := str "/a/b/." }

/-- The URL `http://example.com/a/b/c/..`: the path of `urlDir` with the
resolvable pair `c/..` inserted at its end. -/
def urlDirDotDot : URL :=
  { Scheme := str "http", Host := str "example.com", Path := str "/a/b/c/.." }

/-! # Theorems -/

/-! ## Scheduler: theorems -/

/-- C2 (revisit floor). When `Get` succeeds with record `uu`, the `Update` of a
Response-complete decision succeeds, and the policy answers `(false, p, sc)`,
`schedURL` returns without error the item with `URL = u`, `Score = sc` and
`Next = max p (Last + MinDelay)`, `Last` being the response timestamp for a
Response-complete decision and the stored `Last` otherwise; so a proposal before
the floor is scheduled exactly at `Last + MinDelay`. -/
theorem schedURL_revisit_floor {σ : Type} (st : Store σ) (opt : Config) (ctrl : Controller)
    (s s1 : σ) (r : Option Response) (u : URL) (typ : URLType) (uu : URLRecord)
    (p : Time) (sc : Int)
    (hget : st.Get s u = (s1, some uu, none))
    (hupd : typ = URLTypeResponse →
      r ≠ none ∧ (st.Update s1 (recordUsed typ r uu)).2 = none)
    (hpol : ctrl.Schedule (contextUsed typ r u uu) u = (false, p, sc)) :
    ∃ s2 item, schedURL st opt ctrl s r u typ = some (s2, some item, false, none) ∧
      item.URL = some u ∧ item.Score = sc ∧
      item.Next = max p (lastUsed typ r uu + opt.MinDelay) ∧
      (p < lastUsed typ r uu + opt.MinDelay → item.Next = lastUsed typ r uu + opt.MinDelay) := by
  have key : ∀ (s' : σ) (rec : URLRecord) (ctx : Context),
      ctrl.Schedule ctx u = (false, p, sc) →
      ∃ s2 item, schedDecide st opt ctrl s' rec ctx u = (s2, some item, false, none) ∧
        item.URL = some u ∧ item.Score = sc ∧
        item.Next = max p (rec.Last + opt.MinDelay) ∧
        (p < rec.Last + opt.MinDelay → item.Next = rec.Last + opt.MinDelay) := by
    intro s' rec ctx h
    by_cases hlt : p < rec.Last + opt.MinDelay
    · refine ⟨s', { URL := some u, Next := rec.Last + opt.MinDelay, Score := sc }, ?_, rfl, rfl, ?_, ?_⟩
      · simp [schedDecide, h, hlt, NewItem]
      · simp [max_eq_right (le_of_lt hlt)]
      · intro _; rfl
    · refine ⟨s', { URL := some u, Next := p, Score := sc }, ?_, rfl, rfl, ?_, ?_⟩
      · simp [schedDecide, h, hlt, NewItem]
      · simp [max_eq_left (not_lt.mp hlt)]
      · intro h'; exact absurd h' hlt
  cases typ with
  | URLTypeResponse =>
    obtain ⟨hr, hu⟩ := hupd rfl
    cases r with
    | none => exact absurd rfl hr
    | some resp =>
      simp only [recordUsed] at hu
      simp only [contextUsed, recordUsed] at hpol
      obtain ⟨s2, item, h1, h2⟩ := key (st.Update s1
        { uu with VisitCount := wrapInt (uu.VisitCount + 1), Last := resp.Timestamp }).1
        { uu with VisitCount := wrapInt (uu.VisitCount + 1), Last := resp.Timestamp } _ hpol
      refine ⟨s2, item, ?_, h2⟩
      have hu' : st.Update s1 { uu with VisitCount := wrapInt (uu.VisitCount + 1), Last := resp.Timestamp }
          = ((st.Update s1
            { uu with VisitCount := wrapInt (uu.VisitCount + 1), Last := resp.Timestamp }).1, none) := by
        rw [← hu]
      simp only [schedURL, hget]
      rw [hu']
      simp only [h1]
  | URLTypeNew =>
    simp only [contextUsed] at hpol
    obtain ⟨s2, item, h1, h2⟩ := key s1 uu _ hpol
    exact ⟨s2, item, by simp only [schedURL, hget, h1], h2⟩
  | URLTypeSeed =>
    simp only [contextUsed] at hpol
    obtain ⟨s2, item, h1, h2⟩ := key s1 uu _ hpol
    exact ⟨s2, item, by simp only [schedURL, hget, h1], h2⟩
  | URLTypeRecover =>
    simp only [contextUsed] at hpol
    obtain ⟨s2, item, h1, h2⟩ := key s1 uu _ hpol
    exact ⟨s2, item, by simp only [schedURL, hget, h1], h2⟩

/-- Witness of C2: an empty store, a response stamped 100, `MinDelay = 50` and a
policy proposing 120: the item is scheduled at 150. -/
theorem schedURL_revisit_floor_witness :
    ∃ s2 item, schedURL memStore { MinDelay := 50, MaxRetry := 5, RetryDuration := 10 }
        (constCtrl false 120 7) {} (some { URL := seedURL, Timestamp := 100, links := [] })
        seedURL URLTypeResponse = some (s2, some item, false, none) ∧
      item.URL = some seedURL ∧ item.Score = 7 ∧
      item.Next = max 120 ((100 : Int) + 50) ∧
      ((120 : Int) < 100 + 50 → item.Next = 100 + 50) :=
  schedURL_revisit_floor memStore { MinDelay := 50, MaxRetry := 5, RetryDuration := 10 }
    (constCtrl false 120 7) {} { recs := [{ Loc := seedURL }] }
    (some { URL := seedURL, Timestamp := 100, links := [] }) seedURL URLTypeResponse
    { Loc := seedURL } 120 7 rfl (fun _ => ⟨by simp, rfl⟩) rfl

/-! ### Lookup lemmas for the store of the contract -/

theorem find_replaceRec (r : URLRecord) (v : URL) (l : List URLRecord) :
    (replaceRec r l).find? (fun x => decide (x.Loc = v)) =
      if v = r.Loc then (l.find? (fun x => decide (x.Loc = v))).map (fun _ => r)
      else l.find? (fun x => decide (x.Loc = v)) := by
  induction l with
  | nil => simp [replaceRec]
  | cons x xs ih =>
    by_cases hv : v = r.Loc
    · subst hv
      by_cases hx : x.Loc = r.Loc
      · simp [replaceRec, hx, List.find?_cons]
      · simp [replaceRec, hx, List.find?_cons] at ih ⊢
        exact ih
    · by_cases hx : x.Loc = r.Loc
      · have h1 : ¬ r.Loc = v := fun h => hv h.symm
        have h2 : ¬ x.Loc = v := fun h => hv (h.symm.trans hx)
        simp [replaceRec, hx, List.find?_cons, h1, hv] at ih ⊢
        simpa [hx, h1] using ih
      · by_cases hxv : x.Loc = v
        · simp [replaceRec, hx, List.find?_cons, hxv, hv]
        · simp [replaceRec, hx, List.find?_cons, hxv, hv] at ih ⊢
          exact ih

theorem find_setStatus (u v : URL) (status : Status) (l : List URLRecord) :
    (setStatus u status l).find? (fun x => decide (x.Loc = v)) =
      if v = u then
        (l.find? (fun x => decide (x.Loc = v))).map (fun x => { x with Status := status })
      else l.find? (fun x => decide (x.Loc = v)) := by
  induction l with
  | nil => simp [setStatus]
  | cons x xs ih =>
    by_cases hv : v = u
    · subst hv
      by_cases hx : x.Loc = v
      · simp [setStatus, hx, List.find?_cons]
      · simp [setStatus, hx, List.find?_cons] at ih ⊢
        exact ih
    · by_cases hx : x.Loc = u
      · have h2 : ¬ x.Loc = v := fun h => hv (h.symm.trans hx)
        simp [setStatus, hx, List.find?_cons, hv] at ih ⊢
        simpa [hx, h2, hv, Ne.symm hv] using ih
      · by_cases hxv : x.Loc = v
        · simp [setStatus, hx, List.find?_cons, hxv, hv]
        · simp [setStatus, hx, List.find?_cons, hxv, hv] at ih ⊢
          exact ih

theorem MemStore.find_loc {m : MemStore} {u : URL} {r : URLRecord} (h : m.find u = some r) :
    r.Loc = u := by
  have := List.find?_some h
  simpa using this

theorem MemStore.recordOf_loc (m : MemStore) (u : URL) : (m.recordOf u).Loc = u := by
  unfold MemStore.recordOf
  cases h : m.find u with
  | none => rfl
  | some r => exact MemStore.find_loc h

theorem MemStore.Get_eq (m : MemStore) (u : URL) :
    m.Get u = ((m.Get u).1, some (m.recordOf u), none) := by
  unfold MemStore.Get MemStore.recordOf
  cases h : m.find u <;> rfl

theorem MemStore.find_Get (m : MemStore) (u v : URL) :
    (m.Get u).1.find v = if v = u then some (m.recordOf u) else m.find v := by
  unfold MemStore.Get MemStore.recordOf
  cases h : m.find u with
  | none =>
    by_cases hv : v = u
    · subst hv; simp [MemStore.find]
    · have h1 : ¬ u = v := fun h' => hv h'.symm
      simp [MemStore.find, hv, h1, List.find?_cons]
  | some r =>
    by_cases hv : v = u
    · subst hv; simp [h]
    · simp [hv]

theorem MemStore.Update_snd (m : MemStore) (r : URLRecord) : (m.Update r).2 = none := by
  unfold MemStore.Update
  cases m.find r.Loc <;> rfl

theorem MemStore.find_Update (m : MemStore) (r : URLRecord) (v : URL) :
    (m.Update r).1.find v = if v = r.Loc then some r else m.find v := by
  unfold MemStore.Update
  cases h : m.find r.Loc with
  | none =>
    by_cases hv : v = r.Loc
    · subst hv; simp [MemStore.find]
    · have h1 : ¬ r.Loc = v := fun h' => hv h'.symm
      simp [MemStore.find, hv, h1, List.find?_cons]
  | some x =>
    by_cases hv : v = r.Loc
    · subst hv
      simp only [MemStore.find] at h ⊢
      simp [find_replaceRec, h]
    · simp only [MemStore.find]
      simp [find_replaceRec, hv]

theorem MemStore.find_UpdateStatus (m : MemStore) (u v : URL) (status : Status) :
    (m.UpdateStatus u status).1.find v =
      if v = u then (m.find v).map (fun x => { x with Status := status }) else m.find v := by
  simp only [MemStore.UpdateStatus, MemStore.find]
  exact find_setStatus u v status m.recs

/-! ### The decision on the store of the contract -/

theorem schedURL_mem_response (opt : Config) (ctrl : Controller) (m : MemStore)
    (resp : Response) (u : URL) :
    schedURL memStore opt ctrl m (some resp) u URLTypeResponse =
      some (schedDecide memStore opt ctrl
        ((m.Get u).1.Update (recordUsed URLTypeResponse (some resp) (m.recordOf u))).1
        (recordUsed URLTypeResponse (some resp) (m.recordOf u))
        (contextUsed URLTypeResponse (some resp) u (m.recordOf u)) u) := by
  have hg : memStore.Get m u = ((m.Get u).1, some (m.recordOf u), none) := MemStore.Get_eq m u
  have hu : ∀ x, memStore.Update (m.Get u).1 x = (((m.Get u).1.Update x).1, none) := by
    intro x
    have := MemStore.Update_snd (m.Get u).1 x
    show MemStore.Update (m.Get u).1 x = _
    rw [← this]
  simp only [schedURL, hg, hu, recordUsed, contextUsed]

theorem schedURL_mem_other (opt : Config) (ctrl : Controller) (m : MemStore)
    (r : Option Response) (u : URL) (typ : URLType) (h : typ ≠ URLTypeResponse) :
    schedURL memStore opt ctrl m r u typ =
      some (schedDecide memStore opt ctrl (m.Get u).1 (m.recordOf u)
        (contextUsed typ r u (m.recordOf u)) u) := by
  have hg : memStore.Get m u = ((m.Get u).1, some (m.recordOf u), none) := MemStore.Get_eq m u
  cases typ with
  | URLTypeResponse => exact absurd rfl h
  | URLTypeNew => simp only [schedURL, hg, contextUsed]
  | URLTypeSeed => simp only [schedURL, hg, contextUsed]
  | URLTypeRecover => simp only [schedURL, hg, contextUsed]

theorem schedDecide_mem (opt : Config) (ctrl : Controller) (m : MemStore)
    (uu : URLRecord) (ctx : Context) (u : URL) :
    ∃ m1 item, schedDecide memStore opt ctrl m uu ctx u
        = (m1, some item, (ctrl.Schedule ctx u).1, none) ∧
      item.URL = some u ∧
      m1 = (if (ctrl.Schedule ctx u).1 then (m.UpdateStatus u URLStatusFinished).1 else m) := by
  by_cases hd : (ctrl.Schedule ctx u).1 = true
  · refine ⟨(m.UpdateStatus u URLStatusFinished).1,
      { URL := some u, Next := (ctrl.Schedule ctx u).2.1, Score := (ctrl.Schedule ctx u).2.2 },
      ?_, rfl, ?_⟩
    · simp [schedDecide, hd, memStore, NewItem]
    · simp [hd]
  · by_cases hlt : (ctrl.Schedule ctx u).2.1 < uu.Last + opt.MinDelay
    · refine ⟨m, ⟨some u, uu.Last + opt.MinDelay, (ctrl.Schedule ctx u).2.2⟩, ?_, rfl, ?_⟩
      · simp [schedDecide, hd, hlt, NewItem]
      · simp [hd]
    · refine ⟨m, ⟨some u, (ctrl.Schedule ctx u).2.1, (ctrl.Schedule ctx u).2.2⟩, ?_, rfl, ?_⟩
      · simp [schedDecide, hd, hlt, NewItem]
      · simp [hd]

theorem wrapInt_of_range (x : Int) (h1 : minInt ≤ x) (h2 : x ≤ maxInt) : wrapInt x = x := by
  unfold wrapInt
  unfold minInt at h1
  unfold maxInt at h2
  omega

theorem wrapInt_range (x : Int) : minInt ≤ wrapInt x ∧ wrapInt x ≤ maxInt := by
  unfold wrapInt minInt maxInt
  omega

/-- Visit accounting of one decision on the store of the contract. -/
theorem schedURL_visits (opt : Config) (ctrl : Controller) (m : MemStore)
    (u : URL) (resp : Response) :
    (∃ m1 item done,
        schedURL memStore opt ctrl m (some resp) u URLTypeResponse = some (m1, item, done, none) ∧
        done = (ctrl.Schedule (resp.Context.fromURL
          { m.recordOf u with VisitCount := wrapInt ((m.recordOf u).VisitCount + 1),
                              Last := resp.Timestamp }) u).1 ∧
        (m1.find u).map (fun x => x.VisitCount)
          = some (wrapInt ((m.recordOf u).VisitCount + 1)) ∧
        (m1.find u).map (fun x => x.Last) = some resp.Timestamp ∧
        (m.find u = none → (m1.find u).map (fun x => x.VisitCount) = some 1)) ∧
    (∀ (typ : URLType) (r : Option Response), typ ≠ URLTypeResponse →
      ∃ m1 item done, schedURL memStore opt ctrl m r u typ = some (m1, item, done, none) ∧
        (m1.find u).map (fun x => x.VisitCount) = some (m.recordOf u).VisitCount ∧
        (m1.find u).map (fun x => x.Last) = some (m.recordOf u).Last) := by
  constructor
  · obtain ⟨m1, item, h1, -, h3⟩ := schedDecide_mem opt ctrl
      ((m.Get u).1.Update (recordUsed URLTypeResponse (some resp) (m.recordOf u))).1
      (recordUsed URLTypeResponse (some resp) (m.recordOf u))
      (contextUsed URLTypeResponse (some resp) u (m.recordOf u)) u
    have hloc := MemStore.recordOf_loc m u
    have hf : (m1.find u).map (fun x => (x.VisitCount, x.Last)) =
        some (wrapInt ((m.recordOf u).VisitCount + 1), resp.Timestamp) := by
      rw [h3]
      split
      · simp [MemStore.find_UpdateStatus, MemStore.find_Update, recordUsed, hloc]
      · simp [MemStore.find_Update, recordUsed, hloc]
    have hv : (m1.find u).map (fun x => x.VisitCount)
        = some (wrapInt ((m.recordOf u).VisitCount + 1)) := by
      cases hq : m1.find u with
      | none => simp [hq] at hf
      | some x => simp [hq] at hf ⊢; exact hf.1
    have hl : (m1.find u).map (fun x => x.Last) = some resp.Timestamp := by
      cases hq : m1.find u with
      | none => simp [hq] at hf
      | some x => simp [hq] at hf ⊢; exact hf.2
    refine ⟨m1, some item, _, ?_, rfl, hv, hl, ?_⟩
    · rw [schedURL_mem_response, h1]
      rfl
    · intro hnone
      rw [hv]
      simp only [MemStore.recordOf, hnone]
      rfl
  · intro typ r htyp
    obtain ⟨m1, item, h1, -, h3⟩ := schedDecide_mem opt ctrl (m.Get u).1 (m.recordOf u)
      (contextUsed typ r u (m.recordOf u)) u
    have hf : (m1.find u).map (fun x => (x.VisitCount, x.Last)) =
        some ((m.recordOf u).VisitCount, (m.recordOf u).Last) := by
      rw [h3]
      split
      · simp [MemStore.find_UpdateStatus, MemStore.find_Get]
      · simp [MemStore.find_Get]
    refine ⟨m1, some item, (ctrl.Schedule (contextUsed typ r u (m.recordOf u)) u).1, ?_, ?_, ?_⟩
    · rw [schedURL_mem_other opt ctrl m r u typ htyp, h1]
    · cases hq : m1.find u with
      | none => simp [hq] at hf
      | some x => simp [hq] at hf ⊢; exact hf.1
    · cases hq : m1.find u with
      | none => simp [hq] at hf
      | some x => simp [hq] at hf ⊢; exact hf.2

/-! ### Statuses in the store of the contract -/

theorem MemStore.status_Get (m : MemStore) (u v : URL) :
    (m.Get u).1.status v = if v = u then some (m.recordOf u).Status else m.status v := by
  unfold MemStore.status
  rw [MemStore.find_Get]
  split <;> simp

theorem MemStore.status_Update (m : MemStore) (r : URLRecord) (v : URL) :
    (m.Update r).1.status v = if v = r.Loc then some r.Status else m.status v := by
  unfold MemStore.status
  rw [MemStore.find_Update]
  split <;> simp

theorem MemStore.status_UpdateStatus (m : MemStore) (u v : URL) (status : Status) :
    (m.UpdateStatus u status).1.status v =
      if v = u then (m.status v).map (fun _ => status) else m.status v := by
  unfold MemStore.status
  rw [MemStore.find_UpdateStatus]
  split
  · cases m.find v <;> simp
  · rfl

theorem MemStore.status_recordOf {m : MemStore} {u : URL} {status : Status}
    (h : m.status u = some status) : (m.recordOf u).Status = status := by
  unfold MemStore.status at h
  unfold MemStore.recordOf
  cases hq : m.find u with
  | none => simp [hq] at h
  | some r => simpa [hq] using h

theorem MemStore.terminal_recordOf {m : MemStore} {u : URL} (h : m.terminal u) :
    (m.recordOf u).Status = URLStatusFinished ∨ (m.recordOf u).Status = URLStatusError := by
  rcases h with h | h
  · exact Or.inl (MemStore.status_recordOf h)
  · exact Or.inr (MemStore.status_recordOf h)

theorem MemStore.terminal_Get {m : MemStore} {v : URL} (u : URL) (h : m.terminal v) :
    (m.Get u).1.terminal v := by
  unfold MemStore.terminal
  rw [MemStore.status_Get]
  split
  · next hv =>
    subst hv
    rcases MemStore.terminal_recordOf h with h' | h' <;> simp [h']
  · exact h

theorem MemStore.terminal_UpdateStatus {m : MemStore} {v : URL} (u : URL) (status : Status)
    (hs : status = URLStatusFinished ∨ status = URLStatusError) (h : m.terminal v) :
    (m.UpdateStatus u status).1.terminal v := by
  unfold MemStore.terminal
  rw [MemStore.status_UpdateStatus]
  split
  · rcases h with h | h <;> rcases hs with hs | hs <;> simp [h, hs]
  · exact h

/-- Storing a record whose status is the stored one keeps terminal statuses. -/
theorem MemStore.terminal_Get_Update {m : MemStore} {v : URL} (u : URL) (r : URLRecord)
    (hloc : r.Loc = u) (hst : r.Status = (m.recordOf u).Status) (h : m.terminal v) :
    ((m.Get u).1.Update r).1.terminal v := by
  unfold MemStore.terminal
  rw [MemStore.status_Update, hloc]
  split
  · next hv =>
    subst hv
    rw [hst]
    rcases MemStore.terminal_recordOf h with h' | h' <;> simp [h']
  · exact MemStore.terminal_Get u h

theorem loopHead_store {σ : Type} (s : Sched σ) : (loopHead s).store = s.store := by
  simp only [loopHead]
  split <;> split <;> rfl

theorem loopHead_waiting {σ : Type} (s : Sched σ) : (loopHead s).waiting = s.waiting := by
  simp only [loopHead]
  split <;> split <;> rfl

theorem afterSelect_mem (s : Sched MemStore) : (afterSelect memStore s).sched = some s := by
  unfold afterSelect
  simp only [memStore, MemStore.IsFinished]
  cases List.all s.store.recs (fun r => decide (r.Status ≠ URLStatusPending)) <;> rfl

/-- Summary of a decision on the store of the contract: it returns without
error an item for `u`; the policy's `done` is returned; a done decision leaves
`u` Finished; terminal statuses stay terminal. -/
theorem schedURL_mem (opt : Config) (ctrl : Controller) (m : MemStore)
    (r : Option Response) (u : URL) (typ : URLType)
    (hr : typ = URLTypeResponse → r ≠ none) :
    ∃ m1 item, schedURL memStore opt ctrl m r u typ
        = some (m1, some item, (ctrl.Schedule (contextUsed typ r u (m.recordOf u)) u).1, none) ∧
      item.URL = some u ∧
      ((ctrl.Schedule (contextUsed typ r u (m.recordOf u)) u).1 = true →
        m1.status u = some URLStatusFinished) ∧
      (∀ v, m.terminal v → m1.terminal v) := by
  by_cases htyp : typ = URLTypeResponse
  · subst htyp
    cases r with
    | none => exact absurd rfl (hr rfl)
    | some resp =>
      obtain ⟨m1, item, h1, h2, h3⟩ := schedDecide_mem opt ctrl
        ((m.Get u).1.Update (recordUsed URLTypeResponse (some resp) (m.recordOf u))).1
        (recordUsed URLTypeResponse (some resp) (m.recordOf u))
        (contextUsed URLTypeResponse (some resp) u (m.recordOf u)) u
      have hloc := MemStore.recordOf_loc m u
      refine ⟨m1, item, by rw [schedURL_mem_response, h1], h2, ?_, ?_⟩
      · intro hd
        rw [h3, if_pos hd, MemStore.status_UpdateStatus, if_pos rfl, MemStore.status_Update]
        simp [recordUsed, hloc]
      · intro v hv
        have hk : ((m.Get u).1.Update
            (recordUsed URLTypeResponse (some resp) (m.recordOf u))).1.terminal v :=
          MemStore.terminal_Get_Update u _ (by simp [recordUsed, hloc]) (by simp [recordUsed]) hv
        rw [h3]
        split
        · exact MemStore.terminal_UpdateStatus u _ (Or.inl rfl) hk
        · exact hk
  · obtain ⟨m1, item, h1, h2, h3⟩ := schedDecide_mem opt ctrl (m.Get u).1 (m.recordOf u)
      (contextUsed typ r u (m.recordOf u)) u
    refine ⟨m1, item, by rw [schedURL_mem_other opt ctrl m r u typ htyp, h1], h2, ?_, ?_⟩
    · intro hd
      rw [h3, if_pos hd, MemStore.status_UpdateStatus, if_pos rfl, MemStore.status_Get]
      simp
    · intro v hv
      rw [h3]
      split
      · exact MemStore.terminal_UpdateStatus u _ (Or.inl rfl) (MemStore.terminal_Get u hv)
      · exact MemStore.terminal_Get u hv

theorem incErrCount_mem (m : MemStore) (u : URL) :
    incErrCount memStore m u =
      some (((m.Get u).1.Update
        { m.recordOf u with ErrorCount := wrapInt ((m.recordOf u).ErrorCount + 1) }).1,
        (m.recordOf u).ErrorCount) := by
  have hg : memStore.Get m u = ((m.Get u).1, some (m.recordOf u), none) := MemStore.Get_eq m u
  simp only [incErrCount, hg]
  rfl

/-- Counterexample to C3 as stated: with `MaxRetry = 1` and a fresh record, after
exactly one error notification the status is still Pending, the error count is
1, and that notification appended a retry item. -/
theorem errIn_cap_counterexample :
    (run memStore demoOpt (constCtrl false 0 0) { store := {} }
        [Event.ErrIn seedURL 100]).sched.map
      (fun s => (s.store.status seedURL, s.store.errorCount seedURL, s.waiting)) =
    some (some URLStatusPending, 1, [some { URL := some seedURL, Next := 110, Score := 0 }]) := by
  decide

theorem MemStore.errorCount_eq (m : MemStore) (u : URL) :
    m.errorCount u = (m.recordOf u).ErrorCount := by
  unfold MemStore.errorCount MemStore.recordOf
  cases m.find u <;> rfl

theorem MemStore.recordOf_of_find {m : MemStore} {u : URL} {r : URLRecord}
    (h : m.find u = some r) : m.recordOf u = r := by
  unfold MemStore.recordOf
  rw [h]

/-- An error notification below the cap: one retry item is appended, the error
count is incremented as a Go `int`, the status of the record is kept. -/
theorem work_errIn_below (opt : Config) (ctrl : Controller) (s : Sched MemStore) (u : URL)
    (now : Time) (h : s.store.errorCount u < opt.MaxRetry) :
    ∃ s1, work memStore opt ctrl s (Event.ErrIn u now) = Outcome.continue s1 ∧
      s1.waiting = s.waiting ++ [retryItem opt u now] ∧
      s1.store.errorCount u = wrapInt (s.store.errorCount u + 1) ∧
      (s1.store.recordOf u).Status = (s.store.recordOf u).Status ∧
      s1.store.status u = some (s.store.recordOf u).Status := by
  have hlt : ¬ (s.store.recordOf u).ErrorCount ≥ opt.MaxRetry := by
    rw [← MemStore.errorCount_eq]; exact not_le.mpr h
  have hfind : (((s.store.Get u).1.Update
      { s.store.recordOf u with ErrorCount := wrapInt ((s.store.recordOf u).ErrorCount + 1) }).1).find u =
      some { s.store.recordOf u with ErrorCount := wrapInt ((s.store.recordOf u).ErrorCount + 1) } := by
    rw [MemStore.find_Update]
    simp [MemStore.recordOf_loc]
  refine ⟨{ loopHead s with
      store := ((s.store.Get u).1.Update
        { s.store.recordOf u with ErrorCount := wrapInt ((s.store.recordOf u).ErrorCount + 1) }).1,
      waiting := (loopHead s).waiting ++ [retryItem opt u now] }, ?_, ?_, ?_, ?_, ?_⟩
  · simp only [work, workSelect, loopHead_store, incErrCount_mem, hlt, if_false]
    rfl
  · simp [loopHead_waiting]
  · simp only [MemStore.errorCount_eq, MemStore.recordOf_of_find hfind]
  · simp only [MemStore.recordOf_of_find hfind]
  · simp only [MemStore.status, hfind, Option.map]

/-- An error notification at or above the cap: nothing is appended and the status becomes Error. -/
theorem work_errIn_cap (opt : Config) (ctrl : Controller) (s : Sched MemStore) (u : URL)
    (now : Time) (h : opt.MaxRetry ≤ s.store.errorCount u) :
    ∃ s2, (work memStore opt ctrl s (Event.ErrIn u now)).sched = some s2 ∧
      s2.waiting = s.waiting ∧ s2.store.status u = some URLStatusError := by
  have hge : (s.store.recordOf u).ErrorCount ≥ opt.MaxRetry := by
    rw [← MemStore.errorCount_eq]; exact h
  refine ⟨{ loopHead s with
      store := (MemStore.UpdateStatus ((s.store.Get u).1.Update
        { s.store.recordOf u with ErrorCount := wrapInt ((s.store.recordOf u).ErrorCount + 1) }).1
        u URLStatusError).1 }, ?_, ?_, ?_⟩
  · simp only [work, workSelect, loopHead_store, incErrCount_mem, hge, if_true]
    exact afterSelect_mem _
  · simp [loopHead_waiting]
  · show (MemStore.UpdateStatus _ u URLStatusError).1.status u = _
    rw [MemStore.status_UpdateStatus, if_pos rfl, MemStore.status_Update]
    simp [MemStore.recordOf_loc]

theorem run_errIn_below (opt : Config) (ctrl : Controller) (u : URL) :
    ∀ (times : List Time) (s : Sched MemStore),
      minInt ≤ s.store.errorCount u → s.store.errorCount u + times.length ≤ opt.MaxRetry →
      ∃ s1, run memStore opt ctrl s (times.map (Event.ErrIn u)) = Outcome.continue s1 ∧
        s1.waiting = s.waiting ++ times.map (retryItem opt u) ∧
        s1.store.errorCount u = s.store.errorCount u + times.length ∧
        (s1.store.recordOf u).Status = (s.store.recordOf u).Status := by
  intro times
  induction times with
  | nil => intro s _ _; exact ⟨s, rfl, by simp, by simp, rfl⟩
  | cons t rest ih =>
    intro s hmin hle
    have hlen : ((t :: rest).length : Int) = (rest.length : Int) + 1 := by simp
    rw [hlen] at hle
    have hmax := opt.inRange.2
    obtain ⟨s1, h1, h2, h3, h4, -⟩ := work_errIn_below opt ctrl s u t (by omega)
    rw [wrapInt_of_range _ (by omega) (by omega)] at h3
    obtain ⟨s2, k1, k2, k3, k4⟩ := ih s1 (by rw [h3]; omega) (by rw [h3]; omega)
    refine ⟨s2, ?_, ?_, ?_, ?_⟩
    · simp only [List.map_cons, run, h1]; exact k1
    · rw [k2, h2]; simp
    · rw [k3, h3, hlen]; omega
    · rw [k4, h4]

/-- C3 as amended (retry cap). From an error count of zero, the first `MaxRetry`
consecutive error notifications for `u` each append one retry item and keep the
status of the record; the notification after them, the `(MaxRetry + 1)`-th,
appends nothing and leaves the status Error. -/
theorem errIn_retry_cap (opt : Config) (ctrl : Controller) (s : Sched MemStore) (u : URL)
    (times : List Time) (now : Time)
    (hcnt : s.store.errorCount u = 0) (hlen : (times.length : Int) = opt.MaxRetry) :
    ∃ s1 s2, run memStore opt ctrl s (times.map (Event.ErrIn u)) = Outcome.continue s1 ∧
      s1.waiting = s.waiting ++ times.map (retryItem opt u) ∧
      (s1.store.recordOf u).Status = (s.store.recordOf u).Status ∧
      (work memStore opt ctrl s1 (Event.ErrIn u now)).sched = some s2 ∧
      s2.waiting = s1.waiting ∧ s2.store.status u = some URLStatusError := by
  obtain ⟨s1, h1, h2, h3, h4⟩ := run_errIn_below opt ctrl u times s
    (by rw [hcnt]; decide) (by rw [hcnt, hlen]; omega)
  obtain ⟨s2, k1, k2, k3⟩ := work_errIn_cap opt ctrl s1 u now (by rw [h3, hcnt, hlen]; omega)
  exact ⟨s1, s2, h1, h2, h4, k1, k2, k3⟩

/-- Witness of C3 as amended: `MaxRetry = 1`, a fresh store, notifications at 100 and 200. -/
theorem errIn_retry_cap_witness :
    ∃ s1 s2, run memStore demoOpt (constCtrl false 0 0) { store := {} }
        ([100].map (Event.ErrIn seedURL)) = Outcome.continue s1 ∧
      s1.waiting = [] ++ [100].map (retryItem demoOpt seedURL) ∧
      (s1.store.recordOf seedURL).Status = (({} : MemStore).recordOf seedURL).Status ∧
      (work memStore demoOpt (constCtrl false 0 0) s1 (Event.ErrIn seedURL 200)).sched = some s2 ∧
      s2.waiting = s1.waiting ∧ s2.store.status seedURL = some URLStatusError :=
  errIn_retry_cap demoOpt (constCtrl false 0 0) { store := {} } seedURL [100] 200
    (by decide) (by decide)

/-- C4, the failing path. For a new seed the `done` result of the decision is
discarded: when the policy says done, the record of the seed is marked Finished
and the item is appended to the waiting list all the same, whereas the same
decision for a recovered URL appends nothing. -/
theorem work_seed_done_still_queued (opt : Config) (s : Sched MemStore) (u : URL)
    (p : Time) (sc : Int) :
    (∃ s1, work memStore opt (constCtrl true p sc) s (Event.NewIn u) = Outcome.continue s1 ∧
      s1.store.status u = some URLStatusFinished ∧
      s1.waiting = s.waiting ++ [some { URL := some u, Next := p, Score := sc }]) ∧
    (∃ s2, (work memStore opt (constCtrl true p sc) s (Event.RecoverIn u)).sched = some s2 ∧
      s2.store.status u = some URLStatusFinished ∧ s2.waiting = s.waiting) := by
  have hst : (MemStore.UpdateStatus (s.store.Get u).1 u URLStatusFinished).1.status u =
      some URLStatusFinished := by
    rw [MemStore.status_UpdateStatus, if_pos rfl, MemStore.status_Get, if_pos rfl]
    rfl
  constructor
  · refine ⟨{ loopHead s with
        store := (MemStore.UpdateStatus (s.store.Get u).1 u URLStatusFinished).1,
        waiting := (loopHead s).waiting ++ [some { URL := some u, Next := p, Score := sc }] },
      ?_, hst, ?_⟩
    · simp only [work, workSelect, loopHead_store,
        schedURL_mem_other opt _ s.store none u URLTypeSeed (by decide)]
      simp [schedDecide, constCtrl, NewItem, memStore]
    · simp [loopHead_waiting]
  · refine ⟨{ loopHead s with
        store := (MemStore.UpdateStatus (s.store.Get u).1 u URLStatusFinished).1 },
      ?_, hst, ?_⟩
    · simp only [work, workSelect, loopHead_store,
        schedURL_mem_other opt _ s.store none u URLTypeRecover (by decide)]
      simp only [schedDecide, constCtrl, if_true]
      exact afterSelect_mem _
    · simp [loopHead_waiting]

/-- C6, the failing input. With a store whose `UpdateStatus` fails, a decision
that the policy declares done returns a nil error (`done = true`, the record
still Pending), and the loop handling it for a recovered URL carries on
without stopping the scheduler. -/
theorem schedURL_drops_status_error :
    (statusFailStore.UpdateStatus { recs := [{ Loc := seedURL }] } seedURL URLStatusFinished).2
        = some "store: status write failed" ∧
    (schedURL statusFailStore demoOpt (constCtrl true 5 1) {} none seedURL URLTypeRecover).map
        (fun x => (x.1.status seedURL, x.2.2.1, x.2.2.2))
      = some (some URLStatusPending, true, none) ∧
    (work statusFailStore demoOpt (constCtrl true 5 1) { store := {} }
        (Event.RecoverIn seedURL)).stopped = false := by
  decide

/-- Counterexample to C7 as stated: a record in status Error becomes Finished
on a done notification, and a Finished record with the retry cap reached
becomes Error on an error notification. -/
theorem terminal_status_counterexample :
    (work memStore demoOpt (constCtrl false 0 0)
        { store := { recs := [{ Loc := seedURL, Status := URLStatusError }] } }
        (Event.DoneIn seedURL)).sched.map (fun s => s.store.status seedURL)
      = some (some URLStatusFinished) ∧
    (work memStore demoOpt (constCtrl false 0 0)
        { store := { recs := [{ Loc := seedURL, ErrorCount := 1, Status := URLStatusFinished }] } }
        (Event.ErrIn seedURL 100)).sched.map (fun s => s.store.status seedURL)
      = some (some URLStatusError) := by
  decide

theorem schedLinks_mem (opt : Config) (ctrl : Controller) (resp : Response) :
    ∀ (links : List URL) (s : Sched MemStore),
      ∃ s1, schedLinks memStore opt ctrl resp links s = some (s1, none) ∧
        ∀ v, s.store.terminal v → s1.store.terminal v := by
  intro links
  induction links with
  | nil => intro s; exact ⟨s, rfl, fun _ h => h⟩
  | cons link rest ih =>
    intro s
    obtain ⟨m1, item, h1, -, -, h4⟩ :=
      schedURL_mem opt ctrl s.store (some resp) link URLTypeNew (fun h => nomatch h)
    cases hd : (ctrl.Schedule (contextUsed URLTypeNew (some resp) link
        (s.store.recordOf link)) link).1 with
    | false =>
      rw [hd] at h1
      obtain ⟨s1, k1, k2⟩ := ih { s with store := m1, waiting := s.waiting ++ [some item] }
      exact ⟨s1, by simp only [schedLinks, h1]; exact k1, fun v hv => k2 v (h4 v hv)⟩
    | true =>
      rw [hd] at h1
      obtain ⟨s1, k1, k2⟩ := ih { s with store := m1 }
      exact ⟨s1, by simp only [schedLinks, h1]; exact k1, fun v hv => k2 v (h4 v hv)⟩

/-- C7 as amended (terminal statuses). For every communication the loop
handles on the store of the contract, a record that is Finished or Error
before the iteration is Finished or Error after it: the scheduler never writes
Pending over a terminal status (it may still replace Error by Finished and
Finished by Error). -/
theorem work_keeps_terminal (opt : Config) (ctrl : Controller) (s s1 : Sched MemStore)
    (ev : Event) (v : URL)
    (hstep : (work memStore opt ctrl s ev).sched = some s1)
    (hterm : s.store.terminal v) : s1.store.terminal v := by
  have hterm0 : (loopHead s).store.terminal v := by rw [loopHead_store]; exact hterm
  unfold work at hstep
  generalize loopHead s = s0 at hstep hterm0
  cases ev with
  | NewIn u =>
    obtain ⟨m1, item, h1, -, -, h4⟩ :=
      schedURL_mem opt ctrl s0.store none u URLTypeSeed (fun h => nomatch h)
    simp only [workSelect, h1, Outcome.sched, Option.some.injEq] at hstep
    subst hstep
    exact h4 v hterm0
  | RecoverIn u =>
    obtain ⟨m1, item, h1, -, -, h4⟩ :=
      schedURL_mem opt ctrl s0.store none u URLTypeRecover (fun h => nomatch h)
    cases hd : (ctrl.Schedule (contextUsed URLTypeRecover none u (s0.store.recordOf u)) u).1 with
    | false =>
      rw [hd] at h1
      simp only [workSelect, h1, Outcome.sched, Option.some.injEq] at hstep
      subst hstep
      exact h4 v hterm0
    | true =>
      rw [hd] at h1
      simp only [workSelect, h1, afterSelect_mem, Option.some.injEq] at hstep
      subst hstep
      exact h4 v hterm0
  | ResIn resp =>
    obtain ⟨s2, k1, k2⟩ := schedLinks_mem opt ctrl resp resp.links
      { s0 with store := (memStore.IncVisitCount s0.store).1 }
    have hterm2 : s2.store.terminal v := k2 v hterm0
    obtain ⟨m1, item, h1, -, -, h4⟩ :=
      schedURL_mem opt ctrl s2.store (some resp) resp.URL URLTypeResponse (fun _ => by simp)
    cases hd : (ctrl.Schedule (contextUsed URLTypeResponse (some resp) resp.URL
        (s2.store.recordOf resp.URL)) resp.URL).1 with
    | false =>
      rw [hd] at h1
      simp only [workSelect, k1, h1, Outcome.sched, Option.some.injEq] at hstep
      subst hstep
      exact h4 v hterm2
    | true =>
      rw [hd] at h1
      simp only [workSelect, k1, h1, afterSelect_mem, Option.some.injEq] at hstep
      subst hstep
      exact h4 v hterm2
  | DoneIn u =>
    simp only [workSelect, afterSelect_mem, Option.some.injEq] at hstep
    subst hstep
    exact MemStore.terminal_UpdateStatus u _ (Or.inl rfl) hterm0
  | ErrIn u now =>
    have hk : ((s0.store.Get u).1.Update
        { s0.store.recordOf u with ErrorCount := wrapInt ((s0.store.recordOf u).ErrorCount + 1) }).1.terminal v :=
      MemStore.terminal_Get_Update u _ (MemStore.recordOf_loc _ u) rfl hterm0
    simp only [workSelect, incErrCount_mem] at hstep
    split at hstep
    · simp only [afterSelect_mem, Option.some.injEq] at hstep
      subst hstep
      exact MemStore.terminal_UpdateStatus u _ (Or.inr rfl) hk
    · simp only [Outcome.sched, Option.some.injEq] at hstep
      subst hstep
      exact hk
  | PqOut u =>
    cases u with
    | none =>
      simp only [workSelect, Outcome.sched, Option.some.injEq] at hstep
      subst hstep; exact hterm0
    | some u =>
      simp only [workSelect, afterSelect_mem, Option.some.injEq] at hstep
      subst hstep; exact hterm0
  | SendQueue =>
    simp only [workSelect] at hstep
    split at hstep
    · simp only [afterSelect_mem, Option.some.injEq] at hstep
      subst hstep; exact hterm0
    · simp [Outcome.sched] at hstep
  | SendOut =>
    simp only [workSelect] at hstep
    split at hstep
    · simp only [afterSelect_mem, Option.some.injEq] at hstep
      subst hstep; exact hterm0
    · simp [Outcome.sched] at hstep
  | PqErr err =>
    cases err with
    | none =>
      simp only [workSelect, Outcome.sched, Option.some.injEq] at hstep
      subst hstep; exact hterm0
    | some e =>
      simp only [workSelect, Outcome.sched, Option.some.injEq] at hstep
      subst hstep; exact hterm0
  | Done =>
    simp only [workSelect, Outcome.sched, Option.some.injEq] at hstep
    subst hstep; exact hterm0
  | Quit =>
    simp only [workSelect, Outcome.sched, Option.some.injEq] at hstep
    subst hstep; exact hterm0

/-- Witness of C7 as amended: a Finished record stays terminal through a new-seed decision. -/
theorem work_keeps_terminal_witness :
    ({ store := { recs := [{ Loc := seedURL, Status := URLStatusFinished }] },
       waiting := [some { URL := some seedURL, Next := 50, Score := 0 }] }
      : Sched MemStore).store.terminal seedURL :=
  work_keeps_terminal demoOpt (constCtrl false 0 0)
    { store := { recs := [{ Loc := seedURL, Status := URLStatusFinished }] } }
    { store := { recs := [{ Loc := seedURL, Status := URLStatusFinished }] },
      waiting := [some { URL := some seedURL, Next := 50, Score := 0 }] }
    (Event.NewIn seedURL) seedURL (by decide) (Or.inl (by decide))

/-! ## Normaliser: theorems -/

/-- C1, the failing input. `Normalize` on `http://Bücher.DE/` succeeds through
the IDNA branch of `validateHost` with host `xn--Bcher-kva.DE` (the punycode of
the host as given, not of its lower-cased form); a second `Normalize` succeeds
through the first branch and lower-cases the host to `xn--bcher-kva.de`: the
second application changes `Host`. -/
theorem Normalize_idna_not_idempotent :
    Normalize latin1ToLower urlBucher
        = ({ urlBucher with Host := str "xn--Bcher-kva.DE" }, none) ∧
    Normalize latin1ToLower { urlBucher with Host := str "xn--Bcher-kva.DE" }
        = ({ urlBucher with Host := str "xn--bcher-kva.de" }, none) := by
  decide

/-- The first branch of `validateHost`: the lower-cased host is a domain name,
`localhost` or an IP literal. -/
theorem validateHost_lower (tab : Nat → Nat) (host : Str)
    (hc : (domainRegexp.MatchString (ToLower tab host) || ToLower tab host == sLocalhost ||
      ParseIP (ToLower tab host)) = true) :
    validateHost tab host = (ToLower tab host, none) := by
  simp only [validateHost, hc, if_true]

/-- The IDNA branch of `validateHost`. -/
theorem validateHost_idna (tab : Nat → Nat) (host : Str)
    (hc : (domainRegexp.MatchString (ToLower tab host) || ToLower tab host == sLocalhost ||
      ParseIP (ToLower tab host)) = false) :
    validateHost tab host =
      match idnaToASCII host with
      | none => ([], some "idna: invalid label")
      | some punycode =>
        if domainRegexp.MatchString punycode then (punycode, none)
        else ([], some "not valid domain name or IP address") := by
  simp only [validateHost, hc]
  rfl

theorem validateHost_ne_nil (tab : Nat → Nat) (host v : Str)
    (h : validateHost tab host = (v, none)) : v ≠ [] := by
  cases hc : (domainRegexp.MatchString (ToLower tab host) || ToLower tab host == sLocalhost ||
      ParseIP (ToLower tab host)) with
  | true =>
    rw [validateHost_lower tab host hc] at h
    simp only [Prod.mk.injEq, and_true] at h
    subst h
    intro hnil
    rw [hnil] at hc
    revert hc
    decide
  | false =>
    rw [validateHost_idna tab host hc] at h
    cases hi : idnaToASCII host with
    | none => simp [hi] at h
    | some p =>
      simp only [hi] at h
      by_cases hm : domainRegexp.MatchString p = true
      · simp only [hm, if_true, Prod.mk.injEq, and_true] at h
        subst h
        intro hnil
        rw [hnil] at hm
        revert hm
        decide
      · simp [hm] at h

theorem JoinHostPort_ne_nil (host port : Str) : JoinHostPort host port ≠ [] := by
  unfold JoinHostPort
  split <;> simp

/-- The result of a successful `Normalize`, field by field. -/
theorem Normalize_ok (tab : Nat → Nat) (u : URL) (h : (Normalize tab u).2 = none) :
    ValidString u.String = true ∧
    (ToLower tab u.Scheme = sHTTP ∨ ToLower tab u.Scheme = sHTTPS) ∧
    (splitHost u.Host).1 ≠ [] ∧
    (validateHost tab (splitHost u.Host).1).2 = none ∧
    (Normalize tab u).1 =
      { u with
        Scheme := ToLower tab u.Scheme
        Host :=
          if keptPort (ToLower tab u.Scheme) (splitHost u.Host).2 ≠ [] then
            JoinHostPort (validateHost tab (splitHost u.Host).1).1
              (keptPort (ToLower tab u.Scheme) (splitHost u.Host).2)
          else (validateHost tab (splitHost u.Host).1).1
        Path := cleanPath u.Path
        RawPath := cleanPath u.RawPath
        Fragment := [] } := by
  unfold Normalize at h ⊢
  by_cases hv : ValidString u.String = true
  · by_cases hs : ToLower tab u.Scheme ≠ sHTTP ∧ ToLower tab u.Scheme ≠ sHTTPS
    · simp [hv, hs] at h
    · by_cases hh : (splitHost u.Host).1 = []
      · simp [hv, hs, hh] at h
      · cases hvh : validateHost tab (splitHost u.Host).1 with
        | mk v e =>
          cases e with
          | some e => simp [hv, hs, hh, hvh] at h
          | none =>
            have hs' : ToLower tab u.Scheme = sHTTP ∨ ToLower tab u.Scheme = sHTTPS := by
              by_contra hc
              exact hs ⟨fun h1 => hc (Or.inl h1), fun h2 => hc (Or.inr h2)⟩
            refine ⟨hv, hs', hh, rfl, ?_⟩
            simp only [hv, hs, hh, hvh]
            by_cases hp : keptPort (ToLower tab u.Scheme) (splitHost u.Host).2 = []
            · simp [hp]
            · simp [hp]
  · simp [hv] at h

theorem Normalize_err_of_scheme (tab : Nat → Nat) (u : URL)
    (h : ToLower tab u.Scheme ≠ sHTTP ∧ ToLower tab u.Scheme ≠ sHTTPS) :
    (Normalize tab u).2 ≠ none := by
  intro hn
  rcases (Normalize_ok tab u hn).2.1 with h1 | h1
  · exact h.1 h1
  · exact h.2 h1

theorem Normalize_err_of_host (tab : Nat → Nat) (u : URL)
    (h : (validateHost tab (splitHost u.Host).1).2 ≠ none) : (Normalize tab u).2 ≠ none :=
  fun hn => h (Normalize_ok tab u hn).2.2.2.1

/-- C9 (rejection of unsupported scheme and empty or invalid host). `Normalize`
is a total function (no call it makes can panic) and returns an error when
the lower-cased scheme is neither `http` nor `https`, when the host left after
splitting off the port is empty, and when that host is rejected by
`validateHost`, which is the case when its lower-cased form is neither a
domain name, `localhost` nor an IP literal and its IDNA encoding fails or is
not a domain name. Whenever `Normalize` succeeds the scheme is `http` or
`https` and the host is not empty. `ftp://example.com/`, `http://` and a host
with a space are rejected. -/
theorem Normalize_rejects (tab : Nat → Nat) (u : URL) :
    ((ToLower tab u.Scheme ≠ sHTTP ∧ ToLower tab u.Scheme ≠ sHTTPS) →
      (Normalize tab u).2 ≠ none) ∧
    ((splitHost u.Host).1 = [] → (Normalize tab u).2 ≠ none) ∧
    ((domainRegexp.MatchString (ToLower tab (splitHost u.Host).1) = false ∧
        ToLower tab (splitHost u.Host).1 ≠ sLocalhost ∧
        ParseIP (ToLower tab (splitHost u.Host).1) = false ∧
        (∀ p, idnaToASCII (splitHost u.Host).1 = some p → domainRegexp.MatchString p = false)) →
      (Normalize tab u).2 ≠ none) ∧
    ((Normalize tab u).2 = none →
      ((Normalize tab u).1.Scheme = sHTTP ∨ (Normalize tab u).1.Scheme = sHTTPS) ∧
      (Normalize tab u).1.Host ≠ []) ∧
    (Normalize tab urlFTP).2 ≠ none ∧ (Normalize tab urlNoHost).2 ≠ none ∧
    (Normalize tab urlBadHost).2 ≠ none := by
  have hFTP : ToLower tab urlFTP.Scheme = str "ftp" := by
    have : isASCII urlFTP.Scheme = true := by decide
    simp only [ToLower, this, if_true]
    decide
  refine ⟨Normalize_err_of_scheme tab u, ?_, ?_, ?_, ?_, ?_, ?_⟩
  · intro h hn
    exact (Normalize_ok tab u hn).2.2.1 h
  · rintro ⟨h1, h2, h3, h4⟩
    apply Normalize_err_of_host
    have hc : (domainRegexp.MatchString (ToLower tab (splitHost u.Host).1) ||
        ToLower tab (splitHost u.Host).1 == sLocalhost ||
        ParseIP (ToLower tab (splitHost u.Host).1)) = false := by
      simp [h1, h2, h3]
    rw [validateHost_idna tab _ hc]
    cases hi : idnaToASCII (splitHost u.Host).1 with
    | none => simp
    | some p => simp [h4 p hi]
  · intro hn
    obtain ⟨-, hs, -, hv, heq⟩ := Normalize_ok tab u hn
    rw [heq]
    refine ⟨hs, ?_⟩
    show (if _ then _ else _) ≠ []
    split
    · exact JoinHostPort_ne_nil _ _
    · apply validateHost_ne_nil tab (splitHost u.Host).1
      rw [← hv]
  · apply Normalize_err_of_scheme
    rw [hFTP]
    decide
  · intro hn
    exact (Normalize_ok tab urlNoHost hn).2.2.1 (by decide)
  · apply Normalize_err_of_host
    have hl : ToLower tab (splitHost urlBadHost.Host).1 = str "exa mple.com" := by
      have : isASCII (splitHost urlBadHost.Host).1 = true := by decide
      simp only [ToLower, this, if_true]
      decide
    have hc : (domainRegexp.MatchString (ToLower tab (splitHost urlBadHost.Host).1) ||
        ToLower tab (splitHost urlBadHost.Host).1 == sLocalhost ||
        ParseIP (ToLower tab (splitHost urlBadHost.Host).1)) = false := by
      rw [hl]
      decide
    rw [validateHost_idna tab _ hc]
    decide

/-! ### The matcher and the language of an expression -/

theorem Regex.Lang.nullable_of_nil {r : Regex} {s : Str} (h : Regex.Lang r s) (hs : s = []) :
    r.nullable = true := by
  induction h with
  | eps => rfl
  | cls _ => simp at hs
  | cat _ _ iha ihb =>
    simp only [List.append_eq_nil] at hs
    simp [Regex.nullable, iha hs.1, ihb hs.2]
  | altL _ ih => simp [Regex.nullable, ih hs]
  | altR _ ih => simp [Regex.nullable, ih hs]
  | starNil => rfl
  | starCons _ _ _ _ => rfl

theorem Regex.lang_nil_of_nullable : ∀ (r : Regex), r.nullable = true → Regex.Lang r []
  | Regex.empty, h => by simp [Regex.nullable] at h
  | Regex.eps, _ => Regex.Lang.eps
  | Regex.cls _, h => by simp [Regex.nullable] at h
  | Regex.cat a b, h => by
    simp only [Regex.nullable, Bool.and_eq_true] at h
    exact Regex.Lang.cat (s := []) (t := []) (Regex.lang_nil_of_nullable a h.1)
      (Regex.lang_nil_of_nullable b h.2)
  | Regex.alt a b, h => by
    simp only [Regex.nullable, Bool.or_eq_true] at h
    rcases h with h | h
    · exact Regex.Lang.altL (Regex.lang_nil_of_nullable a h)
    · exact Regex.Lang.altR (Regex.lang_nil_of_nullable b h)
  | Regex.star _, _ => Regex.Lang.starNil

theorem Regex.not_lang_empty (s : Str) : ¬ Regex.Lang Regex.empty s := by
  intro h
  cases h

theorem Regex.lang_mkCat (a b : Regex) (s : Str) :
    Regex.Lang (Regex.mkCat a b) s ↔ Regex.Lang (Regex.cat a b) s := by
  cases a with
  | empty =>
    constructor
    · intro h; exact absurd h (Regex.not_lang_empty s)
    · intro h
      cases h with
      | cat ha _ => exact absurd ha (Regex.not_lang_empty _)
  | eps => exact Iff.rfl
  | cls _ => exact Iff.rfl
  | cat _ _ => exact Iff.rfl
  | alt _ _ => exact Iff.rfl
  | star _ => exact Iff.rfl

theorem Regex.lang_alt (a b : Regex) (s : Str) :
    Regex.Lang (Regex.alt a b) s ↔ Regex.Lang a s ∨ Regex.Lang b s := by
  constructor
  · intro h
    cases h with
    | altL h => exact Or.inl h
    | altR h => exact Or.inr h
  · rintro (h | h)
    · exact Regex.Lang.altL h
    · exact Regex.Lang.altR h

theorem Regex.lang_mkAlt (a b : Regex) (s : Str) :
    Regex.Lang (Regex.mkAlt a b) s ↔ Regex.Lang a s ∨ Regex.Lang b s := by
  have hl : ∀ x, Regex.Lang (Regex.mkAlt Regex.empty x) s ↔
      Regex.Lang Regex.empty s ∨ Regex.Lang x s := by
    intro x
    have : Regex.mkAlt Regex.empty x = x := by cases x <;> rfl
    rw [this]
    exact ⟨Or.inr, fun h => h.resolve_left (Regex.not_lang_empty s)⟩
  have hr : ∀ x, Regex.Lang x s ↔ Regex.Lang x s ∨ Regex.Lang Regex.empty s :=
    fun x => ⟨Or.inl, fun h => h.resolve_right (Regex.not_lang_empty s)⟩
  cases a with
  | empty => exact hl b
  | eps => cases b <;> first | exact hr _ | exact Regex.lang_alt _ _ s
  | cls _ => cases b <;> first | exact hr _ | exact Regex.lang_alt _ _ s
  | cat _ _ => cases b <;> first | exact hr _ | exact Regex.lang_alt _ _ s
  | alt _ _ => cases b <;> first | exact hr _ | exact Regex.lang_alt _ _ s
  | star _ => cases b <;> first | exact hr _ | exact Regex.lang_alt _ _ s

theorem Regex.lang_of_deriv (c : Nat) : ∀ (r : Regex) (s : Str),
    Regex.Lang (r.deriv c) s → Regex.Lang r (c :: s)
  | Regex.empty, s, h => absurd h (Regex.not_lang_empty s)
  | Regex.eps, s, h => absurd h (Regex.not_lang_empty s)
  | Regex.cls p, s, h => by
    simp only [Regex.deriv] at h
    split at h
    · next hp =>
      cases h
      exact Regex.Lang.cls hp
    · exact absurd h (Regex.not_lang_empty s)
  | Regex.cat a b, s, h => by
    have hcat : Regex.Lang (Regex.mkCat (a.deriv c) b) s → Regex.Lang (Regex.cat a b) (c :: s) := by
      intro h1
      rw [Regex.lang_mkCat] at h1
      cases h1 with
      | cat ha hb => exact Regex.Lang.cat (Regex.lang_of_deriv c a _ ha) hb
    simp only [Regex.deriv] at h
    split at h
    · next hn =>
      rw [Regex.lang_mkAlt] at h
      rcases h with h | h
      · exact hcat h
      · exact Regex.Lang.cat (s := []) (Regex.lang_nil_of_nullable a hn)
          (Regex.lang_of_deriv c b _ h)
    · exact hcat h
  | Regex.alt a b, s, h => by
    simp only [Regex.deriv] at h
    rw [Regex.lang_mkAlt] at h
    rcases h with h | h
    · exact Regex.Lang.altL (Regex.lang_of_deriv c a _ h)
    · exact Regex.Lang.altR (Regex.lang_of_deriv c b _ h)
  | Regex.star a, s, h => by
    simp only [Regex.deriv] at h
    rw [Regex.lang_mkCat] at h
    cases h with
    | cat ha hb => exact Regex.Lang.starCons (Regex.lang_of_deriv c a _ ha) hb

theorem Regex.deriv_of_lang (c : Nat) {r : Regex} {t : Str} (h : Regex.Lang r t) :
    ∀ s, t = c :: s → Regex.Lang (r.deriv c) s := by
  induction h with
  | eps => intro s hs; simp at hs
  | cls hp =>
    intro s hs
    simp only [List.cons.injEq] at hs
    obtain ⟨h1, h2⟩ := hs
    subst h1; subst h2
    simp only [Regex.deriv, hp, if_true]
    exact Regex.Lang.eps
  | @cat a b s1 s2 ha hb iha ihb =>
    intro s hs
    have hleft : ∀ s1', s1 = c :: s1' → Regex.Lang (Regex.mkCat (a.deriv c) b) (s1' ++ s2) := by
      intro s1' h1
      rw [Regex.lang_mkCat]
      exact Regex.Lang.cat (iha s1' h1) hb
    cases s1 with
    | nil =>
      simp only [List.nil_append] at hs
      have hn := Regex.Lang.nullable_of_nil ha rfl
      simp only [Regex.deriv, hn, if_true]
      rw [Regex.lang_mkAlt]
      exact Or.inr (ihb s hs)
    | cons c1 s1' =>
      simp only [List.cons_append, List.cons.injEq] at hs
      obtain ⟨h1, h2⟩ := hs
      subst h1; subst h2
      simp only [Regex.deriv]
      split
      · rw [Regex.lang_mkAlt]
        exact Or.inl (hleft s1' rfl)
      · exact hleft s1' rfl
  | altL _ ih =>
    intro s hs
    simp only [Regex.deriv]
    rw [Regex.lang_mkAlt]
    exact Or.inl (ih s hs)
  | altR _ ih =>
    intro s hs
    simp only [Regex.deriv]
    rw [Regex.lang_mkAlt]
    exact Or.inr (ih s hs)
  | starNil => intro s hs; simp at hs
  | @starCons a s1 s2 ha hb iha ihb =>
    intro s hs
    cases s1 with
    | nil =>
      simp only [List.nil_append] at hs
      exact ihb s hs
    | cons c1 s1' =>
      simp only [List.cons_append, List.cons.injEq] at hs
      obtain ⟨h1, h2⟩ := hs
      subst h1; subst h2
      simp only [Regex.deriv]
      rw [Regex.lang_mkCat]
      exact Regex.Lang.cat (iha s1' rfl) hb

/-- The matcher decides the language of the expression. -/
theorem Regex.matches_iff : ∀ (s : Str) (r : Regex), r.matches s = true ↔ Regex.Lang r s
  | [], r => by
    simp only [Regex.matches]
    exact ⟨Regex.lang_nil_of_nullable r, fun h => Regex.Lang.nullable_of_nil h rfl⟩
  | c :: rest, r => by
    simp only [Regex.matches]
    rw [Regex.matches_iff rest (r.deriv c)]
    exact ⟨Regex.lang_of_deriv c r rest, fun h => Regex.deriv_of_lang c h rest rfl⟩

theorem Regex.lang_rep_cls (p : Nat → Bool) : ∀ (hi lo : Nat) (s : Str),
    (∀ c ∈ s, p c = true) → lo ≤ s.length → s.length ≤ hi →
    Regex.Lang (Regex.rep (Regex.cls p) lo hi) s
  | 0, lo, s, _, _, hhi => by
    have hs : s = [] := List.length_eq_zero.mp (Nat.le_zero.mp hhi)
    subst hs
    cases lo <;> exact Regex.Lang.eps
  | hi + 1, 0, [], _, _, _ => Regex.Lang.altL Regex.Lang.eps
  | hi + 1, 0, c :: t, hp, _, hhi => by
    refine Regex.Lang.altR (Regex.Lang.cat (s := [c]) (Regex.Lang.cls (hp c (by simp))) ?_)
    exact Regex.lang_rep_cls p hi 0 t (fun x hx => hp x (by simp [hx])) (Nat.zero_le _)
      (by simpa using hhi)
  | hi + 1, lo + 1, [], _, hlo, _ => by simp at hlo
  | hi + 1, lo + 1, c :: t, hp, hlo, hhi => by
    refine Regex.Lang.cat (s := [c]) (Regex.Lang.cls (hp c (by simp))) ?_
    exact Regex.lang_rep_cls p hi lo t (fun x hx => hp x (by simp [hx]))
      (by simpa using hlo) (by simpa using hhi)

theorem Regex.Lang.map_closed (f : Nat → Nat) {r : Regex} {s : Str} (h : Regex.Lang r s)
    (hc : Regex.Closed f r) : Regex.Lang r (s.map f) := by
  induction h with
  | eps => exact Regex.Lang.eps
  | cls hp => exact Regex.Lang.cls (hc _ hp)
  | cat _ _ iha ihb =>
    rw [List.map_append]
    exact Regex.Lang.cat (iha hc.1) (ihb hc.2)
  | altL _ ih => exact Regex.Lang.altL (ih hc.1)
  | altR _ ih => exact Regex.Lang.altR (ih hc.2)
  | starNil => exact Regex.Lang.starNil
  | starCons _ _ iha ihb =>
    rw [List.map_append]
    exact Regex.Lang.starCons (iha hc) (ihb hc)

theorem Regex.Lang.all_within (q : Nat → Bool) {r : Regex} {s : Str} (h : Regex.Lang r s)
    (hw : Regex.Within q r) : ∀ c ∈ s, q c = true := by
  induction h with
  | eps => intro c hc; simp at hc
  | cls hp =>
    intro c hc
    simp only [List.mem_singleton] at hc
    subst hc
    exact hw _ hp
  | cat _ _ iha ihb =>
    intro c hc
    rcases List.mem_append.mp hc with h1 | h1
    · exact iha hw.1 c h1
    · exact ihb hw.2 c h1
  | altL _ ih => exact ih hw.1
  | altR _ ih => exact ih hw.2
  | starNil => intro c hc; simp at hc
  | starCons _ _ iha ihb =>
    intro c hc
    rcases List.mem_append.mp hc with h1 | h1
    · exact iha hw c h1
    · exact ihb hw c h1

theorem Regex.closed_rep (f : Nat → Nat) (a : Regex) (ha : Regex.Closed f a) :
    ∀ (hi lo : Nat), Regex.Closed f (Regex.rep a lo hi)
  | 0, lo => by cases lo <;> exact True.intro
  | hi + 1, 0 => ⟨True.intro, ha, Regex.closed_rep f a ha hi 0⟩
  | hi + 1, lo + 1 => ⟨ha, Regex.closed_rep f a ha hi lo⟩

theorem Regex.within_rep (q : Nat → Bool) (a : Regex) (ha : Regex.Within q a) :
    ∀ (hi lo : Nat), Regex.Within q (Regex.rep a lo hi)
  | 0, lo => by cases lo <;> exact True.intro
  | hi + 1, 0 => ⟨True.intro, ha, Regex.within_rep q a ha hi 0⟩
  | hi + 1, lo + 1 => ⟨ha, Regex.within_rep q a ha hi lo⟩

theorem isAlnum_asciiLower (c : Nat) (h : isAlnum c = true) : isAlnum (asciiLower c) = true := by
  simp only [isAlnum, decide_eq_true_eq] at h ⊢
  unfold asciiLower
  split <;> omega

theorem isLabelByte_asciiLower (c : Nat) (h : isLabelByte c = true) :
    isLabelByte (asciiLower c) = true := by
  simp only [isLabelByte, isAlnum, Bool.or_eq_true, decide_eq_true_eq, beq_iff_eq] at h ⊢
  unfold asciiLower
  split <;> omega

theorem isLabelByte_lt (c : Nat) (h : isLabelByte c = true) : c < 128 := by
  simp only [isLabelByte, isAlnum, Bool.or_eq_true, decide_eq_true_eq, beq_iff_eq] at h
  omega

theorem domainRegexp_closed : Regex.Closed asciiLower domainRegexp := by
  have hl : Regex.Closed asciiLower (Regex.cls isLabelByte) := isLabelByte_asciiLower
  have ha : Regex.Closed asciiLower (Regex.cls isAlnum) := isAlnum_asciiLower
  have hd : Regex.Closed asciiLower (Regex.cls (fun c => c == 46)) := by
    intro c hc
    simp only [beq_iff_eq] at hc ⊢
    subst hc
    decide
  exact ⟨⟨⟨Regex.closed_rep _ _ hl 63 1, hd⟩, Regex.closed_rep _ _ hl 63 1, hd⟩,
    ha, Regex.closed_rep _ _ hl 61 0, ha⟩

/-- Bytes that can occur in a string matched by `domainRegexp`: label bytes and the dot. -/
theorem domainRegexp_within :
    Regex.Within (fun c => isLabelByte c || c == 46) domainRegexp := by
  have hl : Regex.Within (fun c => isLabelByte c || c == 46) (Regex.cls isLabelByte) := by
    intro c hc; simp [hc]
  have ha : Regex.Within (fun c => isLabelByte c || c == 46) (Regex.cls isAlnum) := by
    intro c hc; simp [isLabelByte, hc]
  have hd : Regex.Within (fun c => isLabelByte c || c == 46) (Regex.cls (fun c => c == 46)) := by
    intro c hc
    simp only [beq_iff_eq] at hc
    simp [hc]
  exact ⟨⟨⟨Regex.within_rep _ _ hl 63 1, hd⟩, Regex.within_rep _ _ hl 63 1, hd⟩,
    ha, Regex.within_rep _ _ hl 61 0, ha⟩

theorem MatchString_bytes {s : Str} (h : domainRegexp.MatchString s = true) :
    ∀ c ∈ s, isLabelByte c = true ∨ c = 46 := by
  intro c hc
  have := ((Regex.matches_iff s domainRegexp).mp h).all_within _ domainRegexp_within c hc
  simpa using this

theorem MatchString_map_lower {s : Str} (h : domainRegexp.MatchString s = true) :
    domainRegexp.MatchString (s.map asciiLower) = true :=
  (Regex.matches_iff _ domainRegexp).mpr
    (((Regex.matches_iff s domainRegexp).mp h).map_closed asciiLower domainRegexp_closed)

theorem isASCII_iff (s : Str) : isASCII s = true ↔ ∀ c ∈ s, c < 128 := by
  simp [isASCII, List.all_eq_true]

theorem ToLower_ascii (tab : Nat → Nat) (s : Str) (h : isASCII s = true) :
    ToLower tab s = s.map asciiLower := by
  simp only [ToLower, h, if_true]

theorem MatchString_isASCII {s : Str} (h : domainRegexp.MatchString s = true) :
    isASCII s = true := by
  rw [isASCII_iff]
  intro c hc
  rcases MatchString_bytes h c hc with h1 | h1
  · exact isLabelByte_lt c h1
  · omega

/-! ### Domain names and `validateHost` -/

theorem joinByte_append_singleton (sep : Nat) (tld : Str) : ∀ (labels : List Str),
    joinByte sep (labels ++ [tld]) = labels.flatMap (fun l => l ++ [sep]) ++ tld
  | [] => by simp [joinByte]
  | [l] => by simp [joinByte]
  | l :: l2 :: ls => by
    have ih := joinByte_append_singleton sep tld (l2 :: ls)
    simp only [List.cons_append] at ih
    show l ++ sep :: joinByte sep (l2 :: (ls ++ [tld])) = _
    rw [ih]
    simp [List.flatMap_cons]

theorem lang_label_dot {l : Str} (h : isDomainLabel l = true) :
    Regex.Lang (Regex.cat (Regex.rep (Regex.cls isLabelByte) 1 63) (Regex.cls (fun c => c == 46)))
      (l ++ [46]) := by
  simp only [isDomainLabel, Bool.and_eq_true, decide_eq_true_eq, List.all_eq_true] at h
  exact Regex.Lang.cat (Regex.lang_rep_cls _ 63 1 l h.2 h.1.1 h.1.2) (Regex.Lang.cls (by decide))

theorem lang_labels_star : ∀ (labels : List Str), (∀ l ∈ labels, isDomainLabel l = true) →
    Regex.Lang (Regex.star (Regex.cat (Regex.rep (Regex.cls isLabelByte) 1 63)
      (Regex.cls (fun c => c == 46)))) (labels.flatMap (fun l => l ++ [46]))
  | [], _ => Regex.Lang.starNil
  | l :: ls, h => by
    rw [List.flatMap_cons]
    exact Regex.Lang.starCons (lang_label_dot (h l (by simp)))
      (lang_labels_star ls (fun x hx => h x (by simp [hx])))

theorem isAlnum_of_label_ne_hyphen {c : Nat} (h : isLabelByte c = true) (hc : c ≠ 45) :
    isAlnum c = true := by
  simp only [isLabelByte, Bool.or_eq_true, beq_iff_eq] at h
  exact h.resolve_right hc

theorem lang_tld {tld : Str} (h : isTLDLabel tld = true) :
    Regex.Lang (Regex.cat (Regex.cls isAlnum)
      (Regex.cat (Regex.rep (Regex.cls isLabelByte) 0 61) (Regex.cls isAlnum))) tld := by
  simp only [isTLDLabel, isClaimedTLD, isDomainLabel, Bool.and_eq_true, decide_eq_true_eq,
    List.all_eq_true] at h
  obtain ⟨⟨⟨⟨⟨-, hlen⟩, hall⟩, hhead⟩, hlast⟩, h2⟩ := h
  cases tld with
  | nil => simp at h2
  | cons a rest =>
    have hrest : rest ≠ [] := by
      intro hn; subst hn; simp at h2
    have hsplit : rest = rest.dropLast ++ [rest.getLast hrest] :=
      (List.dropLast_append_getLast hrest).symm
    have ha : isAlnum a = true :=
      isAlnum_of_label_ne_hyphen (hall a (by simp)) (by simpa using hhead)
    have hz : isAlnum (rest.getLast hrest) = true := by
      apply isAlnum_of_label_ne_hyphen (hall _ (by simp [List.getLast_mem]))
      intro hz
      apply hlast
      rw [List.getLast?_eq_getLast _ (by simp), List.getLast_cons hrest, hz]
    have hmid : ∀ c ∈ rest.dropLast, isLabelByte c = true :=
      fun c hc => hall c (by simp [List.mem_of_mem_dropLast hc])
    have hmidlen : rest.dropLast.length ≤ 61 := by
      simp only [List.length_cons] at hlen
      simp only [List.length_dropLast]
      omega
    rw [hsplit]
    exact Regex.Lang.cat (s := [a]) (Regex.Lang.cls ha)
      (Regex.Lang.cat (Regex.lang_rep_cls _ 61 0 _ hmid (Nat.zero_le _) hmidlen)
        (Regex.Lang.cls hz))

/-- A host made of one or more labels and a last label of at least two bytes matches `domainRegexp`. -/
theorem MatchString_domain (labels : List Str) (tld : Str) (hne : labels ≠ [])
    (hl : ∀ l ∈ labels, isDomainLabel l = true) (ht : isTLDLabel tld = true) :
    domainRegexp.MatchString (joinByte 46 (labels ++ [tld])) = true := by
  rw [joinByte_append_singleton]
  apply (Regex.matches_iff _ domainRegexp).mpr
  refine Regex.Lang.cat ?_ (lang_tld ht)
  cases labels with
  | nil => exact absurd rfl hne
  | cons l ls =>
    rw [List.flatMap_cons]
    exact Regex.Lang.cat (lang_label_dot (hl l (by simp)))
      (lang_labels_star ls (fun x hx => hl x (by simp [hx])))

/-- Counterexample to C10 as stated: `a.b` is made of two labels of the
claimed kind (the last one, `b`, neither starts nor ends with a hyphen), and
`validateHost` rejects it: the pattern wants a last label of at least two bytes. -/
theorem validateHost_single_letter_tld :
    (isDomainLabel (str "a") && isClaimedTLD (str "b")) = true ∧
    validateHost latin1ToLower (joinByte 46 [str "a", str "b"])
      = ([], some "not valid domain name or IP address") := by
  decide

/-- C10 as amended (domain-name acceptance). `validateHost` accepts every host
made of two or more dot-separated labels, each of 1 to 63 ASCII letters, digits
and hyphens, whose last label has at least two characters and neither starts
nor ends with a hyphen; the host it returns is the lower-cased input (ASCII
letters lowered bytewise). -/
theorem validateHost_accepts_domain (tab : Nat → Nat) (labels : List Str) (tld : Str)
    (hne : labels ≠ []) (hl : ∀ l ∈ labels, isDomainLabel l = true)
    (ht : isTLDLabel tld = true) :
    validateHost tab (joinByte 46 (labels ++ [tld]))
      = ((joinByte 46 (labels ++ [tld])).map asciiLower, none) ∧
    ToLower tab (joinByte 46 (labels ++ [tld]))
      = (joinByte 46 (labels ++ [tld])).map asciiLower := by
  have hm := MatchString_domain labels tld hne hl ht
  have hlow := ToLower_ascii tab _ (MatchString_isASCII hm)
  refine ⟨?_, hlow⟩
  rw [validateHost_lower tab _ (by rw [hlow, MatchString_map_lower hm]; rfl), hlow]

/-- Witness of C10 as amended: the host `Example.COM`. -/
theorem validateHost_accepts_domain_witness :
    validateHost latin1ToLower (joinByte 46 ([str "Example"] ++ [str "COM"]))
      = ((joinByte 46 ([str "Example"] ++ [str "COM"])).map asciiLower, none) ∧
    ToLower latin1ToLower (joinByte 46 ([str "Example"] ++ [str "COM"]))
      = (joinByte 46 ([str "Example"] ++ [str "COM"])).map asciiLower :=
  validateHost_accepts_domain latin1ToLower [str "Example"] (str "COM") (by decide)
    (by decide) (by decide)

/-! ### `path.Clean` on rooted paths -/

theorem length_dropWhile_le (p : Nat → Bool) (l : List Nat) :
    (l.dropWhile p).length ≤ l.length := by
  induction l with
  | nil => simp
  | cons x xs ih =>
    simp only [List.dropWhile_cons]
    split
    · simp only [List.length_cons]; omega
    · exact Nat.le_refl _

/-- One iteration of the loop of `path.Clean`. -/
theorem cleanLoop_succ (rooted : Bool) (fuel : Nat) (c : Nat) (rest : Str) (out : List Nat)
    (dotdot : Nat) :
    cleanLoop rooted (fuel + 1) (c :: rest) out dotdot =
      if c = 47 then cleanLoop rooted fuel rest out dotdot
      else if c = 46 ∧ (rest = [] ∨ rest.head? = some 47) then
        cleanLoop rooted fuel rest out dotdot
      else if c = 46 ∧ rest.head? = some 46 ∧
          (rest.drop 1 = [] ∨ (rest.drop 1).head? = some 47) then
        if out.length > dotdot then
          cleanLoop rooted fuel (rest.drop 1) (backtrack dotdot out) dotdot
        else if !rooted then
          cleanLoop rooted fuel (rest.drop 1)
            ([46, 46] ++ (if out.length > 0 then 47 :: out else out))
            ([46, 46] ++ (if out.length > 0 then 47 :: out else out)).length
        else cleanLoop rooted fuel (rest.drop 1) out dotdot
      else
        cleanLoop rooted fuel ((c :: rest).dropWhile (fun b => b ≠ 47))
          (((c :: rest).takeWhile (fun b => b ≠ 47)).reverse ++
            (if (rooted && out.length ≠ 1) || (!rooted && out.length ≠ 0)
              then 47 :: out else out)) dotdot := rfl

/-- The loop of `path.Clean` does not depend on the fuel once it covers the path. -/
theorem cleanLoop_fuel (rooted : Bool) : ∀ (fuel fuel' : Nat) (path : Str) (out : List Nat)
    (dotdot : Nat), path.length ≤ fuel → path.length ≤ fuel' →
    cleanLoop rooted fuel path out dotdot = cleanLoop rooted fuel' path out dotdot := by
  intro fuel
  induction fuel with
  | zero =>
    intro fuel' path out dotdot h _
    have hp : path = [] := List.length_eq_zero.mp (Nat.le_zero.mp h)
    subst hp
    cases fuel' <;> rfl
  | succ n ih =>
    intro fuel' path out dotdot h h'
    cases fuel' with
    | zero =>
      have hp : path = [] := List.length_eq_zero.mp (Nat.le_zero.mp h')
      subst hp
      rfl
    | succ m =>
      cases path with
      | nil => rfl
      | cons c rest =>
        simp only [List.length_cons] at h h'
        have hr : rest.length ≤ n := by omega
        have hr' : rest.length ≤ m := by omega
        have hd : (rest.drop 1).length ≤ n := by simp only [List.length_drop]; omega
        have hd' : (rest.drop 1).length ≤ m := by simp only [List.length_drop]; omega
        have hw : ((c :: rest).dropWhile (fun b => decide (b ≠ 47))).length ≤ rest.length + 1 :=
          length_dropWhile_le _ (c :: rest)
        rw [cleanLoop_succ, cleanLoop_succ]
        by_cases h1 : c = 47
        · rw [if_pos h1, if_pos h1]
          exact ih m rest out dotdot hr hr'
        · rw [if_neg h1, if_neg h1]
          have hw2 : ((c :: rest).dropWhile (fun b => decide (b ≠ 47))).length ≤ rest.length := by
            simp only [List.dropWhile_cons, h1, ne_eq, not_false_eq_true, decide_True, if_true]
            exact length_dropWhile_le _ rest
          rw [ih m rest out dotdot hr hr', ih m (rest.drop 1) _ dotdot hd hd',
            ih m (rest.drop 1) out dotdot hd hd', ih m (rest.drop 1) _ _ hd hd',
            ih m _ _ dotdot (Nat.le_trans hw2 hr) (Nat.le_trans hw2 hr')]

theorem cleanFrom_nil (out : List Nat) : cleanFrom [] out = out := rfl

theorem cleanFrom_of_fuel (fuel : Nat) (path : Str) (out : List Nat) (h : path.length ≤ fuel) :
    cleanLoop true fuel path out 1 = cleanFrom path out :=
  cleanLoop_fuel true _ _ path out 1 h (Nat.le_refl _)

theorem cleanFrom_slash (rest : Str) (out : List Nat) :
    cleanFrom (47 :: rest) out = cleanFrom rest out := by
  show cleanLoop true (rest.length + 1) (47 :: rest) out 1 = _
  rw [cleanLoop_succ, if_pos rfl]
  rfl

theorem cleanFrom_dot (rest : Str) (out : List Nat) (h : rest = [] ∨ rest.head? = some 47) :
    cleanFrom (46 :: rest) out = cleanFrom rest out := by
  show cleanLoop true (rest.length + 1) (46 :: rest) out 1 = _
  rw [cleanLoop_succ, if_neg (by decide), if_pos ⟨rfl, h⟩]
  rfl

theorem cleanFrom_dotdot (rest : Str) (out : List Nat)
    (h : rest = [] ∨ rest.head? = some 47) :
    cleanFrom (46 :: 46 :: rest) out =
      cleanFrom rest (if out.length > 1 then backtrack 1 out else out) := by
  show cleanLoop true (rest.length + 1 + 1) (46 :: 46 :: rest) out 1 = _
  rw [cleanLoop_succ, if_neg (by decide), if_neg (by simp), if_pos ⟨rfl, rfl, by simpa using h⟩]
  simp only [List.drop_succ_cons, List.drop_zero, Bool.not_true, Bool.false_eq_true, if_false]
  split
  · exact cleanFrom_of_fuel _ _ _ (by omega)
  · exact cleanFrom_of_fuel _ _ _ (by omega)

/-- A real path element: its bytes are appended after a separating slash,
which is left out directly after the root. -/
theorem cleanFrom_elem (name rest : Str) (out : List Nat) (hname : name ≠ [])
    (hno : ∀ b ∈ name, b ≠ 47) (hnd : name ≠ [46]) (hndd : name ≠ [46, 46])
    (hrest : rest = [] ∨ rest.head? = some 47) :
    cleanFrom (name ++ rest) out =
      cleanFrom rest (name.reverse ++ (if out.length ≠ 1 then 47 :: out else out)) := by
  cases name with
  | nil => exact absurd rfl hname
  | cons c nm =>
    have hc : c ≠ 47 := hno c (by simp)
    have hstop : rest.takeWhile (fun b => decide (b ≠ 47)) = [] ∧
        rest.dropWhile (fun b => decide (b ≠ 47)) = rest := by
      rcases hrest with h | h
      · subst h; simp
      · cases rest with
        | nil => simp
        | cons r rs =>
          simp only [List.head?_cons, Option.some.injEq] at h
          subst h
          simp
    have htake : (c :: (nm ++ rest)).takeWhile (fun b => decide (b ≠ 47)) = c :: nm := by
      have := @List.takeWhile_append_of_pos Nat (fun b => decide (b ≠ 47)) (c :: nm) rest
        (by simpa using hno)
      simp only [List.cons_append] at this
      rw [this, hstop.1]
      simp
    have hdrop : (c :: (nm ++ rest)).dropWhile (fun b => decide (b ≠ 47)) = rest := by
      have := @List.dropWhile_append_of_pos Nat (fun b => decide (b ≠ 47)) (c :: nm) rest
        (by simpa using hno)
      simp only [List.cons_append] at this
      rw [this, hstop.2]
    have h2 : ¬ (c = 46 ∧ (nm ++ rest = [] ∨ (nm ++ rest).head? = some 47)) := by
      rintro ⟨h46, h⟩
      subst h46
      cases nm with
      | nil => exact hnd rfl
      | cons d ds =>
        rcases h with h | h
        · simp at h
        · simp only [List.cons_append, List.head?_cons, Option.some.injEq] at h
          exact hno d (by simp) h
    have h3 : ¬ (c = 46 ∧ (nm ++ rest).head? = some 46 ∧
        ((nm ++ rest).drop 1 = [] ∨ ((nm ++ rest).drop 1).head? = some 47)) := by
      rintro ⟨h46, hh, h⟩
      subst h46
      cases nm with
      | nil =>
        rcases hrest with hr | hr
        · subst hr; simp at hh
        · simp only [List.nil_append] at hh
          rw [hr] at hh
          simp at hh
      | cons d ds =>
        simp only [List.cons_append, List.head?_cons, Option.some.injEq] at hh
        subst hh
        simp only [List.cons_append, List.drop_succ_cons, List.drop_zero] at h
        cases ds with
        | nil => exact hndd rfl
        | cons e es =>
          rcases h with h | h
          · simp at h
          · simp only [List.cons_append, List.head?_cons, Option.some.injEq] at h
            exact hno e (by simp) h
    show cleanLoop true ((nm ++ rest).length + 1) (c :: (nm ++ rest)) out 1 = _
    rw [cleanLoop_succ, if_neg hc, if_neg h2, if_neg h3, htake, hdrop,
      cleanFrom_of_fuel _ _ _ (by simp)]
    simp

theorem cleanFrom_dot_slash (rest : Str) (out : List Nat) :
    cleanFrom (46 :: 47 :: rest) out = cleanFrom rest out := by
  rw [cleanFrom_dot (47 :: rest) out (Or.inr rfl), cleanFrom_slash]

theorem cleanFrom_dotdot_slash (rest : Str) (out : List Nat) :
    cleanFrom (46 :: 46 :: 47 :: rest) out =
      cleanFrom rest (if out.length > 1 then backtrack 1 out else out) := by
  rw [cleanFrom_dotdot (47 :: rest) out (Or.inr rfl), cleanFrom_slash]

theorem cleanFrom_elem_slash (name rest : Str) (out : List Nat) (hname : name ≠ [])
    (hno : ∀ b ∈ name, b ≠ 47) (hnd : name ≠ [46]) (hndd : name ≠ [46, 46]) :
    cleanFrom (name ++ 47 :: rest) out =
      cleanFrom rest (name.reverse ++ (if out.length ≠ 1 then 47 :: out else out)) := by
  rw [cleanFrom_elem name (47 :: rest) out hname hno hnd hndd (Or.inr rfl), cleanFrom_slash]

theorem backtrack_to_slash (S : List Nat) (hS : S.length ≥ 1) : ∀ (l : List Nat),
    (∀ b ∈ l, b ≠ 47) → backtrack 1 (l ++ 47 :: S) = S
  | [], _ => by simp [backtrack]
  | b :: l, h => by
    have hb : b ≠ 47 := h b (by simp)
    have hlen : (l ++ 47 :: S).length > 1 := by simp; omega
    show backtrack 1 (b :: (l ++ 47 :: S)) = S
    rw [backtrack, if_pos ⟨hlen, hb⟩]
    exact backtrack_to_slash S hS l (fun x hx => h x (by simp [hx]))

theorem backtrack_to_root (S : List Nat) (hS : S.length = 1) : ∀ (l : List Nat), l ≠ [] →
    (∀ b ∈ l, b ≠ 47) → backtrack 1 (l ++ S) = S
  | [], hne, _ => absurd rfl hne
  | [b], _, _ => by
    show backtrack 1 (b :: S) = S
    rw [backtrack, if_neg (by omega)]
  | b :: c :: l, _, h => by
    have hb : b ≠ 47 := h b (by simp)
    have hlen : (c :: l ++ S).length > 1 := by simp; omega
    show backtrack 1 (b :: (c :: l ++ S)) = S
    rw [backtrack, if_pos ⟨hlen, hb⟩]
    exact backtrack_to_root S hS (c :: l) (by simp) (fun x hx => h x (List.mem_cons_of_mem _ hx))

theorem backtrack_length : ∀ (out : List Nat), out.length > 1 → (backtrack 1 out).length ≥ 1
  | [], h => by simp at h
  | b :: rest, h => by
    rw [backtrack]
    split
    · next hc => exact backtrack_length rest hc.1
    · simp only [List.length_cons] at h; omega

/-- Reading `name/../` from a buffer leaves the buffer as it was. -/
theorem cleanFrom_name_dotdot (name post : Str) (out : List Nat) (hout : out.length ≥ 1)
    (hname : name ≠ []) (hno : ∀ b ∈ name, b ≠ 47) (hnd : name ≠ [46])
    (hndd : name ≠ [46, 46]) :
    cleanFrom ((name ++ [47, 46, 46, 47]) ++ post) out = cleanFrom post out := by
  have hrev : ∀ b ∈ name.reverse, b ≠ 47 := fun b hb => hno b (List.mem_reverse.mp hb)
  have hrne : name.reverse ≠ [] := by simpa using hname
  have hnl : name.length ≥ 1 := List.length_pos.mpr hname
  have e : (name ++ [47, 46, 46, 47]) ++ post = name ++ (47 :: 46 :: 46 :: 47 :: post) := by simp
  rw [e, cleanFrom_elem_slash name _ out hname hno hnd hndd, cleanFrom_dotdot_slash]
  congr 1
  by_cases h1 : out.length = 1
  · simp only [h1, ne_eq, not_true_eq_false, if_false]
    rw [if_pos (by simp; omega)]
    exact backtrack_to_root out h1 _ hrne hrev
  · simp only [ne_eq, h1, not_false_eq_true, if_true]
    rw [if_pos (by simp; omega)]
    exact backtrack_to_slash out hout _ hrev

theorem split_at_slash : ∀ (pre : Str), pre.getLast? = some 47 →
    ∃ name rem, pre = name ++ 47 :: rem ∧ (∀ b ∈ name, b ≠ 47) ∧
      (rem = [] ∨ rem.getLast? = some 47)
  | [], h => by simp at h
  | c :: t, h => by
    by_cases hc : c = 47
    · subst hc
      refine ⟨[], t, rfl, by simp, ?_⟩
      cases t with
      | nil => exact Or.inl rfl
      | cons d ds => exact Or.inr (by simpa [List.getLast?_cons_cons] using h)
    · cases t with
      | nil => simp at h; exact absurd h hc
      | cons d ds =>
        have ht : (d :: ds).getLast? = some 47 := by simpa [List.getLast?_cons_cons] using h
        obtain ⟨name, rem, h1, h2, h3⟩ := split_at_slash (d :: ds) ht
        refine ⟨c :: name, rem, by rw [h1]; rfl, ?_, h3⟩
        intro b hb
        rcases List.mem_cons.mp hb with hb | hb
        · rw [hb]; exact hc
        · exact h2 b hb

/-- An insertion that a buffer does not notice is not noticed after any prefix
that ends at a slash. -/
theorem cleanFrom_insert (ins post : Str)
    (hins : ∀ out : List Nat, out.length ≥ 1 → cleanFrom (ins ++ post) out = cleanFrom post out) :
    ∀ (n : Nat) (pre : Str), pre.length ≤ n → (pre = [] ∨ pre.getLast? = some 47) →
      ∀ out : List Nat, out.length ≥ 1 →
        cleanFrom (pre ++ (ins ++ post)) out = cleanFrom (pre ++ post) out := by
  intro n
  induction n with
  | zero =>
    intro pre hlen _ out hout
    have hp : pre = [] := List.length_eq_zero.mp (Nat.le_zero.mp hlen)
    subst hp
    exact hins out hout
  | succ n ih =>
    intro pre hlen hpre out hout
    rcases hpre with hp | hp
    · subst hp
      exact hins out hout
    · obtain ⟨name, rem, h1, h2, h3⟩ := split_at_slash pre hp
      subst h1
      have hrem : rem.length ≤ n := by
        simp only [List.length_append, List.length_cons] at hlen
        omega
      have e : ∀ X : Str, (name ++ 47 :: rem) ++ X = name ++ (47 :: (rem ++ X)) := by
        intro X; simp
      rw [e, e]
      by_cases hn0 : name = []
      · subst hn0
        simp only [List.nil_append]
        rw [cleanFrom_slash, cleanFrom_slash]
        exact ih rem hrem h3 out hout
      · by_cases hn1 : name = [46]
        · subst hn1
          simp only [List.singleton_append]
          rw [cleanFrom_dot_slash, cleanFrom_dot_slash]
          exact ih rem hrem h3 out hout
        · by_cases hn2 : name = [46, 46]
          · subst hn2
            simp only [List.cons_append, List.nil_append]
            rw [cleanFrom_dotdot_slash, cleanFrom_dotdot_slash]
            apply ih rem hrem h3
            split
            · next hgt => exact backtrack_length out hgt
            · exact hout
          · rw [cleanFrom_elem_slash name _ out hn0 h2 hn1 hn2,
              cleanFrom_elem_slash name _ out hn0 h2 hn1 hn2]
            apply ih rem hrem h3
            simp only [List.length_append, List.length_reverse]
            split
            · simp only [List.length_cons]; omega
            · omega

theorem Clean_rooted (q : Str) :
    Clean (47 :: q) =
      if (cleanFrom q [47]).length = 0 then [46] else (cleanFrom q [47]).reverse := by
  simp only [Clean, List.head?_cons, List.drop_succ_cons, List.drop_zero, decide_True,
    if_true, reduceCtorEq, if_false, List.length_cons]
  rw [cleanFrom_of_fuel _ _ _ (by omega)]

theorem HasSuffix_singleton (c : Nat) : ∀ (s : Str),
    HasSuffix s [c] = decide (s.getLast? = some c)
  | [] => by simp [HasSuffix]
  | [a] => by
    simp only [HasSuffix, List.length_singleton, Nat.le_refl, decide_True, Nat.sub_self,
      List.drop_zero, Bool.true_and, List.getLast?_singleton, Option.some.injEq]
    by_cases h : a = c <;> simp [h]
  | a :: b :: t => by
    have ih := HasSuffix_singleton c (b :: t)
    simp only [HasSuffix, List.length_cons, List.length_singleton, List.length_nil] at ih ⊢
    have e : t.length + 1 + 1 - (0 + 1) = (t.length + 1 - (0 + 1)) + 1 := by omega
    rw [e, List.drop_succ_cons, List.getLast?_cons_cons]
    simpa using ih

theorem getLast?_append_ne_nil (a b : Str) (hb : b ≠ []) : (a ++ b).getLast? = b.getLast? := by
  rw [List.getLast?_eq_getLast _ (by simp [hb]), List.getLast?_eq_getLast _ hb,
    List.getLast_append_of_ne_nil hb]

/-- The closure `clean` of `Normalize` gives the same path after an insertion. -/
theorem cleanPath_step {p q : Str} (h : PathStep p q) : cleanPath q = cleanPath p := by
  have key : ∀ (pre ins post : Str), pre.head? = some 47 → pre.getLast? = some 47 →
      ins.getLast? = some 47 →
      (∀ out : List Nat, out.length ≥ 1 → cleanFrom (ins ++ post) out = cleanFrom post out) →
      cleanPath (pre ++ ins ++ post) = cleanPath (pre ++ post) := by
    intro pre ins post hhead hlast hilast hins
    cases pre with
    | nil => simp at hhead
    | cons c pre1 =>
      simp only [List.head?_cons, Option.some.injEq] at hhead
      subst hhead
      have hpre1 : pre1 = [] ∨ pre1.getLast? = some 47 := by
        cases pre1 with
        | nil => exact Or.inl rfl
        | cons d ds => exact Or.inr (by simpa [List.getLast?_cons_cons] using hlast)
      have hclean : Clean (47 :: pre1 ++ ins ++ post) = Clean (47 :: pre1 ++ post) := by
        have e1 : 47 :: pre1 ++ ins ++ post = 47 :: (pre1 ++ (ins ++ post)) := by simp
        have e2 : 47 :: pre1 ++ post = 47 :: (pre1 ++ post) := by simp
        rw [e1, e2, Clean_rooted, Clean_rooted,
          cleanFrom_insert ins post hins pre1.length pre1 (Nat.le_refl _) hpre1 [47] (by simp)]
      have hsuf : HasSuffix (47 :: pre1 ++ ins ++ post) [47]
          = HasSuffix (47 :: pre1 ++ post) [47] := by
        rw [HasSuffix_singleton, HasSuffix_singleton]
        by_cases hpost : post = []
        · subst hpost
          have hine : ins ≠ [] := by
            intro hn; subst hn; simp at hilast
          simp only [List.append_nil]
          rw [getLast?_append_ne_nil _ _ hine, hilast, hlast]
        · rw [getLast?_append_ne_nil _ _ hpost, getLast?_append_ne_nil _ _ hpost]
      simp only [cleanPath, hclean, hsuf]
  cases h with
  | dot pre post h1 h2 =>
    exact key pre [46, 47] post h1 h2 rfl (fun out _ => by
      show cleanFrom (46 :: 47 :: post) out = _
      rw [cleanFrom_dot_slash])
  | slash pre post h1 h2 =>
    exact key pre [47] post h1 h2 rfl (fun out _ => by
      show cleanFrom (47 :: post) out = _
      rw [cleanFrom_slash])
  | dotdot pre name post h1 h2 h3 h4 h5 h6 =>
    exact key pre (name ++ [47, 46, 46, 47]) post h1 h2
      (by rw [getLast?_append_ne_nil _ _ (by simp)]; rfl)
      (fun out hout => cleanFrom_name_dotdot name post out hout h3 h4 h5 h6)

theorem cleanPath_variant {p q : Str} (h : PathVariant p q) : cleanPath q = cleanPath p := by
  induction h with
  | refl => rfl
  | step _ hs ih => rw [cleanPath_step hs, ih]

/-! ### UTF-8 validity of `u.String()` -/

theorem utf8First_cases (b : Nat) (hb : ¬ b < 128) :
    (utf8First b).1 = 0 ∨
    (((utf8First b).1 = 2 ∨ (utf8First b).1 = 3 ∨ (utf8First b).1 = 4) ∧
      128 ≤ (utf8First b).2.1) := by
  unfold utf8First
  split_ifs <;> simp

theorem seqWidth_le : ∀ (s : Str), seqWidth s ≤ s.length
  | [] => Nat.le_refl _
  | s0 :: rest => by
    by_cases h0 : s0 < 128
    · simp only [seqWidth, h0, if_true, List.length_cons]
      omega
    · rcases utf8First_cases s0 h0 with hz | ⟨hsz, -⟩
      · simp only [seqWidth, h0, hz, if_true, if_false]
        omega
      · simp only [seqWidth, h0, if_false, List.length_cons]
        split_ifs <;> omega

theorem seqWidth_pos_of_ascii (a : Nat) (Y : Str) (ha : a < 128) : seqWidth (a :: Y) = 1 := by
  simp only [seqWidth, ha, if_true]

theorem validLoop_fuel : ∀ (fuel fuel' : Nat) (s : Str), s.length ≤ fuel → s.length ≤ fuel' →
    validLoop fuel s = validLoop fuel' s := by
  intro fuel
  induction fuel with
  | zero =>
    intro fuel' s h _
    have hs : s = [] := List.length_eq_zero.mp (Nat.le_zero.mp h)
    subst hs
    cases fuel' <;> rfl
  | succ n ih =>
    intro fuel' s h h'
    cases fuel' with
    | zero =>
      have hs : s = [] := List.length_eq_zero.mp (Nat.le_zero.mp h')
      subst hs
      rfl
    | succ m =>
      simp only [validLoop]
      by_cases he : s.isEmpty = true
      · simp [he]
      · by_cases hw : seqWidth s = 0
        · simp [he, hw]
        · have hlen : (s.drop (seqWidth s)).length ≤ s.length - 1 := by
            simp only [List.length_drop]; omega
          simp only [he, hw, if_false, Bool.false_eq_true]
          exact ih m _ (by omega) (by omega)

theorem ValidString_of_fuel (fuel : Nat) (s : Str) (h : s.length ≤ fuel) :
    validLoop fuel s = ValidString s :=
  validLoop_fuel _ _ s h (Nat.le_refl _)

/-- One iteration of `ValidString` on a non-empty string. -/
theorem ValidString_cons (c : Nat) (rest : Str) :
    ValidString (c :: rest) =
      if seqWidth (c :: rest) = 0 then false
      else ValidString ((c :: rest).drop (seqWidth (c :: rest))) := by
  show validLoop (rest.length + 1) (c :: rest) = _
  simp only [validLoop, List.isEmpty_cons, Bool.false_eq_true, if_false]
  split
  · rfl
  · exact ValidString_of_fuel _ _ (by simp only [List.length_drop, List.length_cons]; omega)

theorem ValidString_cons_ascii (a : Nat) (Y : Str) (ha : a < 128) :
    ValidString (a :: Y) = ValidString Y := by
  rw [ValidString_cons, seqWidth_pos_of_ascii a Y ha]
  rfl

theorem ValidString_ascii_append : ∀ (A Y : Str), isASCII A = true →
    ValidString (A ++ Y) = ValidString Y
  | [], _, _ => rfl
  | a :: A, Y, h => by
    have h' := (isASCII_iff (a :: A)).mp h
    rw [List.cons_append, ValidString_cons_ascii _ _ (h' a (by simp))]
    exact ValidString_ascii_append A Y
      ((isASCII_iff A).mpr (fun c hc => h' c (List.mem_cons_of_mem _ hc)))

theorem ValidString_ascii (A : Str) (h : isASCII A = true) : ValidString A = true := by
  have := ValidString_ascii_append A [] h
  rw [List.append_nil] at this
  rw [this]
  rfl

theorem not_isCont_ascii (a : Nat) (ha : a < 128) : isCont a = false := by
  simp only [isCont, decide_eq_false_iff_not]
  omega

/-- An ASCII byte after a non-empty string does not change the test at its head. -/
theorem seqWidth_append_ascii (s0 a : Nat) (rest Y : Str) (ha : a < 128) :
    seqWidth (s0 :: rest ++ a :: Y) = seqWidth (s0 :: rest) := by
  have hca := not_isCont_ascii a ha
  by_cases h0 : s0 < 128
  · simp only [List.cons_append, seqWidth, h0, if_true]
  · rcases utf8First_cases s0 h0 with hz | ⟨hsz, hlo⟩
    · simp only [List.cons_append, seqWidth, h0, hz, if_true, if_false]
    · have hra : ¬ ((utf8First s0).2.1 ≤ a ∧ a ≤ (utf8First s0).2.2) := by omega
      rcases rest with _ | ⟨c1, _ | ⟨c2, _ | ⟨c3, r⟩⟩⟩
      · rcases hsz with h | h | h <;>
          simp [seqWidth, h0, h, hra]
      · rcases hsz with h | h | h <;>
          simp [seqWidth, h0, h, hca]
      · rcases hsz with h | h | h <;>
          simp [seqWidth, h0, h, hca]
      · have hz0 : ¬ (utf8First s0).1 = 0 := by omega
        have e1 : ¬ ((c1 :: c2 :: c3 :: (r ++ a :: Y)).length + 1 < (utf8First s0).1) := by
          simp only [List.length_cons]; omega
        have e2 : ¬ ((c1 :: c2 :: c3 :: r).length + 1 < (utf8First s0).1) := by
          simp only [List.length_cons]; omega
        simp only [List.cons_append, seqWidth, h0, hz0, e1, e2, if_false,
          List.getD_cons_zero, List.getD_cons_succ]

/-- An ASCII byte ends every sequence before it: validity splits at the byte. -/
theorem ValidString_split (a : Nat) (ha : a < 128) (Y : Str) : ∀ (n : Nat) (X : Str),
    X.length ≤ n → ValidString (X ++ a :: Y) = (ValidString X && ValidString Y) := by
  intro n
  induction n with
  | zero =>
    intro X hX
    have : X = [] := List.length_eq_zero.mp (Nat.le_zero.mp hX)
    subst this
    rw [List.nil_append, ValidString_cons_ascii a Y ha]
    rfl
  | succ n ih =>
    intro X hX
    cases X with
    | nil =>
      rw [List.nil_append, ValidString_cons_ascii a Y ha]
      rfl
    | cons s0 rest =>
      have hw := seqWidth_append_ascii s0 a rest Y ha
      have hle := seqWidth_le (s0 :: rest)
      rw [List.cons_append, ValidString_cons, ValidString_cons]
      rw [← List.cons_append, hw]
      by_cases hz : seqWidth (s0 :: rest) = 0
      · simp [hz]
      · simp only [hz, if_false]
        rw [List.drop_append_of_le_length hle]
        apply ih
        simp only [List.length_drop]
        simp only [List.length_cons] at hX ⊢
        omega

theorem shouldEscape_of_not_ascii (c : Nat) (mode : Encoding) (hc : ¬ c < 128) :
    shouldEscape c mode = true := by
  have ha : isAlnum c = false := by
    simp only [isAlnum, decide_eq_false_iff_not]
    omega
  have h1 : c ∉ [33, 36, 38, 39, 40, 41, 42, 43, 44, 59, 61, 58, 91, 93, 60, 62, 34] := by
    simp only [List.mem_cons, List.mem_singleton, List.not_mem_nil, or_false]
    omega
  have h2 : c ∉ [45, 95, 46, 126] := by
    simp only [List.mem_cons, List.mem_singleton, List.not_mem_nil, or_false]
    omega
  have h3 : c ∉ [36, 38, 43, 44, 47, 58, 59, 61, 63, 64] := by
    simp only [List.mem_cons, List.mem_singleton, List.not_mem_nil, or_false]
    omega
  have h4 : c ∉ [33, 40, 41, 42] := by
    simp only [List.mem_cons, List.mem_singleton, List.not_mem_nil, or_false]
    omega
  simp only [shouldEscape, ha, h1, h2, h3, h4, and_false, false_and, if_false,
    Bool.false_eq_true]

theorem upperHex_lt (d : Nat) (h : d < 16) : upperHex d < 128 := by
  unfold upperHex
  split <;> omega

theorem isASCII_append (a b : Str) : isASCII (a ++ b) = (isASCII a && isASCII b) := by
  simp [isASCII, List.all_append]

theorem isASCII_escape (s : Str) (mode : Encoding) : isASCII (escape s mode) = true := by
  rw [isASCII_iff]
  intro b hb
  simp only [escape, List.mem_flatMap] at hb
  obtain ⟨c, -, hb⟩ := hb
  by_cases he : shouldEscape c mode = true
  · simp only [he, if_true] at hb
    split at hb
    · simp only [List.mem_singleton] at hb; omega
    · have h1 := upperHex_lt (c / 16 % 16) (Nat.mod_lt _ (by decide))
      have h2 := upperHex_lt (c % 16) (Nat.mod_lt _ (by decide))
      simp only [List.mem_cons, List.mem_singleton, List.not_mem_nil, or_false] at hb
      rcases hb with hb | hb | hb <;> omega
  · simp only [he, if_false, List.mem_singleton, Bool.false_eq_true] at hb
    subst hb
    by_contra hc
    exact he (shouldEscape_of_not_ascii b mode hc)

theorem isASCII_of_validEncoding (s : Str) (mode : Encoding) (h : validEncoding s mode = true) :
    isASCII s = true := by
  rw [isASCII_iff]
  intro c hc
  simp only [validEncoding, List.all_eq_true] at h
  have := h c hc
  by_contra hn
  have h1 : c ∉ [33, 36, 38, 39, 40, 41, 42, 43, 44, 59, 61, 58, 64, 91, 93, 37] := by
    simp only [List.mem_cons, List.mem_singleton, List.not_mem_nil, or_false]
    omega
  simp [h1, shouldEscape_of_not_ascii c mode hn] at this

theorem isASCII_EscapedPath (u : URL) : isASCII u.EscapedPath = true := by
  unfold URL.EscapedPath
  split
  · next h => exact isASCII_of_validEncoding _ _ (by simpa using h.2.1)
  · split
    · rfl
    · exact isASCII_escape _ _

theorem isASCII_Userinfo (ui : Userinfo) : isASCII ui.String = true := by
  unfold Userinfo.String
  rw [isASCII_append, isASCII_escape]
  split
  · have : isASCII (58 :: escape ui.password encodeUserPassword) = true := by
      have := isASCII_escape ui.password encodeUserPassword
      simp only [isASCII, List.all_cons] at this ⊢
      simp [this]
    simp [this]
  · rfl

theorem isASCII_ite (c : Prop) [Decidable c] (a b : Str) (ha : isASCII a = true)
    (hb : isASCII b = true) : isASCII (if c then a else b) = true := by
  split
  · exact ha
  · exact hb

theorem isASCII_hierPart (u : URL) : isASCII u.hierPart = true := by
  have hp := isASCII_EscapedPath u
  have hh := isASCII_escape u.Host encodeHost
  have hu : isASCII (match u.User with
      | some ui => ui.String ++ [64]
      | none => []) = true := by
    cases u.User with
    | none => rfl
    | some ui =>
      simp only [isASCII_append, isASCII_Userinfo, Bool.true_and]
      rfl
  unfold URL.hierPart
  simp only [isASCII_append, Bool.and_eq_true]
  refine ⟨⟨⟨?_, ?_⟩, ?_⟩, hp⟩
  · apply isASCII_ite
    · simp only [isASCII_append, Bool.and_eq_true]
      exact ⟨⟨isASCII_ite _ _ _ rfl rfl, hu⟩, isASCII_ite _ _ _ hh rfl⟩
    · rfl
  · exact isASCII_ite _ _ _ rfl rfl
  · exact isASCII_ite _ _ _ rfl rfl

/-- The string `u.String()` in three parts. -/
theorem URL.String_eq (u : URL) :
    u.String = (if u.Scheme ≠ [] then u.Scheme ++ [58] else []) ++
      ((if u.Opaque ≠ [] then u.Opaque else u.hierPart) ++ u.queryFragment) := by
  simp only [URL.String, URL.queryFragment, List.append_assoc]

/-- UTF-8 validity of `u.String()` depends on the scheme, the opaque part, the
query and the fragment only: user, host and path are written escaped. -/
theorem ValidString_String (u : URL) :
    ValidString u.String =
      (ValidString u.Scheme &&
        ValidString ((if u.Opaque ≠ [] then u.Opaque else []) ++ u.queryFragment)) := by
  have hmid : ValidString ((if u.Opaque ≠ [] then u.Opaque else u.hierPart) ++ u.queryFragment)
      = ValidString ((if u.Opaque ≠ [] then u.Opaque else []) ++ u.queryFragment) := by
    split
    · rfl
    · rw [ValidString_ascii_append _ _ (isASCII_hierPart u)]
      rfl
  rw [URL.String_eq]
  by_cases hs : u.Scheme = []
  · simp only [hs, ne_eq, not_true_eq_false, if_false, List.nil_append]
    rw [hmid]
    simp [ValidString, validLoop]
  · simp only [ne_eq, hs, not_false_eq_true, if_true, List.append_assoc, List.singleton_append]
    rw [ValidString_split 58 (by decide) _ _ u.Scheme (Nat.le_refl _), hmid]

/-! ### Host and port -/

theorem lastIndexByte_none (c : Nat) : ∀ (s : Str), (∀ b ∈ s, b ≠ c) → lastIndexByte s c = none
  | [], _ => rfl
  | b :: rest, h => by
    rw [lastIndexByte, lastIndexByte_none c rest (fun x hx => h x (List.mem_cons_of_mem _ hx))]
    simp [h b (by simp)]

theorem lastIndexByte_append (c : Nat) (t : Str) (ht : ∀ b ∈ t, b ≠ c) : ∀ (s : Str),
    lastIndexByte (s ++ c :: t) c = some s.length
  | [] => by
    rw [List.nil_append, lastIndexByte, lastIndexByte_none c t ht]
    simp
  | b :: rest => by
    rw [List.cons_append, lastIndexByte, lastIndexByte_append c t ht rest]
    rfl

theorem containsByte_false (c : Nat) (s : Str) (h : ∀ b ∈ s, b ≠ c) : containsByte s c = false := by
  simp only [containsByte, List.any_eq_false, beq_iff_eq]
  exact fun b hb => h b hb

theorem splitHost_no_port (h : Str) (hc : ∀ b ∈ h, b ≠ 58) : splitHost h = (h, []) := by
  simp only [splitHost, SplitHostPort, lastIndexByte_none 58 h hc]

/-- Splitting `host:port` when host and port hold no colon or bracket. -/
theorem splitHost_port (h port : Str) (hh : ∀ b ∈ h, b ≠ 58 ∧ b ≠ 91 ∧ b ≠ 93)
    (hp : ∀ b ∈ port, b ≠ 58 ∧ b ≠ 91 ∧ b ≠ 93) :
    splitHost (h ++ 58 :: port) = (h, port) := by
  have hall : ∀ b ∈ h ++ 58 :: port, b ≠ 91 ∧ b ≠ 93 := by
    intro b hb
    rcases List.mem_append.mp hb with hb | hb
    · exact (hh b hb).2
    · rcases List.mem_cons.mp hb with hb | hb
      · subst hb; decide
      · exact (hp b hb).2
  have hhead : (h ++ 58 :: port).head? ≠ some 91 := by
    cases h with
    | nil => simp
    | cons b rest =>
      simp only [List.cons_append, List.head?_cons, ne_eq, Option.some.injEq]
      exact (hh b (by simp)).2.1
  simp only [splitHost, SplitHostPort, lastIndexByte_append 58 port (fun b hb => (hp b hb).1) h,
    hhead, if_false, List.take_left', containsByte_false 58 h (fun b hb => (hh b hb).1),
    containsByte_false 91 _ (fun b hb => (hall b hb).1),
    containsByte_false 93 _ (fun b hb => (hall b hb).2), Bool.false_eq_true]
  simp

theorem isASCII_map_lower (s : Str) : isASCII (s.map asciiLower) = isASCII s := by
  induction s with
  | nil => rfl
  | cons a t ih =>
    simp only [isASCII, List.map_cons, List.all_cons] at ih ⊢
    rw [ih]
    congr 1
    unfold asciiLower
    split
    · simp only [decide_eq_decide]; omega
    · rfl

theorem label_of_lower (c : Nat) (h : isLabelByte (asciiLower c) = true ∨ asciiLower c = 46) :
    isLabelByte c = true ∨ c = 46 := by
  simp only [isLabelByte, isAlnum, Bool.or_eq_true, decide_eq_true_eq, beq_iff_eq] at h ⊢
  unfold asciiLower at h
  split at h <;> omega

theorem label_not_special (c : Nat) (h : isLabelByte c = true ∨ c = 46) :
    c ≠ 58 ∧ c ≠ 91 ∧ c ≠ 93 := by
  simp only [isLabelByte, isAlnum, Bool.or_eq_true, decide_eq_true_eq, beq_iff_eq] at h
  omega

/-- A string that lower-cases to a matched host consists of label bytes and dots. -/
theorem bytes_of_case_variant {h h' : Str} (hm : domainRegexp.MatchString h = true)
    (he : h'.map asciiLower = h.map asciiLower) :
    ∀ c ∈ h', isLabelByte c = true ∨ c = 46 := by
  intro c hc
  apply label_of_lower
  have hmem : asciiLower c ∈ h.map asciiLower := by
    rw [← he]
    exact List.mem_map_of_mem _ hc
  exact MatchString_bytes (MatchString_map_lower hm) _ hmem

/-- The result of `validateHost` on a case variant of a host that matches the domain pattern. -/
theorem validateHost_case_variant (tab : Nat → Nat) {h h' : Str}
    (hm : domainRegexp.MatchString h = true) (he : h'.map asciiLower = h.map asciiLower) :
    validateHost tab h' = (h.map asciiLower, none) := by
  have hascii : isASCII h' = true := by
    rw [isASCII_iff]
    intro c hc
    rcases bytes_of_case_variant hm he c hc with h1 | h1
    · exact isLabelByte_lt c h1
    · omega
  have hlow : ToLower tab h' = h.map asciiLower := by rw [ToLower_ascii tab h' hascii, he]
  rw [validateHost_lower tab h' (by rw [hlow, MatchString_map_lower hm]; rfl), hlow]

/-! ### Equivalence collapsing -/

/-- The result of `Normalize` once the host, the port and the validation result are known
and the port is dropped or absent. -/
theorem Normalize_of_host (tab : Nat → Nat) (u : URL) (host port L : Str)
    (hsplit : splitHost u.Host = (host, port)) (hne : host ≠ [])
    (hval : validateHost tab host = (L, none))
    (hkept : keptPort (ToLower tab u.Scheme) port = []) :
    Normalize tab u =
      if ValidString u.String = true then
        if ToLower tab u.Scheme ≠ sHTTP ∧ ToLower tab u.Scheme ≠ sHTTPS then
          ({ u with Scheme := ToLower tab u.Scheme }, some "normalize URL: unsupported scheme")
        else
          ({ u with Scheme := ToLower tab u.Scheme, Host := L, Path := cleanPath u.Path,
                    RawPath := cleanPath u.RawPath, Fragment := [] }, none)
      else (u, some "normalize URL: invalid UTF-8 string") := by
  unfold Normalize
  by_cases hv : ValidString u.String = true
  · by_cases hs : ToLower tab u.Scheme ≠ sHTTP ∧ ToLower tab u.Scheme ≠ sHTTPS
    · simp [hv, hs]
    · simp [hv, hs, hsplit, hne, hval, hkept]
  · simp [hv]

theorem ToLower_scheme_variant (tab : Nat → Nat) {s t : Str} (h : SchemeVariant s t) :
    ToLower tab t = ToLower tab s ∧ ValidString t = ValidString s := by
  rcases h with h | ⟨h1, h2⟩
  · subst h; exact ⟨rfl, rfl⟩
  · have hs : isASCII s = true := by
      rw [← isASCII_map_lower, ← h2, isASCII_map_lower]
      exact h1
    exact ⟨by rw [ToLower_ascii tab t h1, ToLower_ascii tab s hs, h2],
      by rw [ValidString_ascii t h1, ValidString_ascii s hs]⟩

theorem keptPort_default (scheme : Str) :
    (scheme = sHTTP → keptPort scheme sPort80 = []) ∧
    (scheme = sHTTPS → keptPort scheme sPort443 = []) ∧ keptPort scheme [] = [] := by
  refine ⟨?_, ?_, ?_⟩
  · intro h; simp [keptPort, h]
  · intro h; simp [keptPort, h]
  · simp [keptPort]

theorem Normalize_tab_irrelevant (tab tab' : Nat → Nat) (u : URL)
    (hs : isASCII u.Scheme = true) (hh : isASCII (splitHost u.Host).1 = true) :
    Normalize tab u = Normalize tab' u := by
  have h1 : ToLower tab u.Scheme = ToLower tab' u.Scheme := by
    rw [ToLower_ascii tab _ hs, ToLower_ascii tab' _ hs]
  have h2 : validateHost tab (splitHost u.Host).1 = validateHost tab' (splitHost u.Host).1 := by
    simp only [validateHost, ToLower_ascii tab _ hh, ToLower_ascii tab' _ hh]
  simp only [Normalize, h1, h2]

/-- Counterexample to C8 as stated: `http://example.com/a/b/` normalises to
itself, while the same URL with a `.` segment, or with the resolvable pair
`c/..`, inserted at the end of its rooted path normalises to the path `/a/b`:
the insertion removes the final slash of the path, and with it the slash that
the closure `clean` would restore. -/
theorem Normalize_trailing_segment_counterexample :
    domainRegexp.MatchString urlDir.Host = true ∧
    urlDirDot = { urlDir with Path := urlDir.Path ++ str "." } ∧
    urlDirDotDot = { urlDir with Path := urlDir.Path ++ str "c/.." } ∧
    Normalize latin1ToLower urlDir = (urlDir, none) ∧
    Normalize latin1ToLower urlDirDot = ({ urlDir with Path := str "/a/b" }, none) ∧
    Normalize latin1ToLower urlDirDotDot = ({ urlDir with Path := str "/a/b" }, none) ∧
    (Normalize latin1ToLower urlDirDot).1 ≠ (Normalize latin1ToLower urlDir).1 ∧
    (Normalize latin1ToLower urlDirDotDot).1 ≠ (Normalize latin1ToLower urlDir).1 := by
  decide

/-- C8 as amended (equivalence collapsing). `http://Example.com:80/a/../b` and
`http://example.com/b` both normalise, without error, to scheme `http`, host
`example.com`, path `/b` and an empty fragment. More generally, for a URL `u`
whose host matches the ASCII domain pattern and a URL `v` obtained from it by
changing the letter case of scheme or host, writing the default port of the
scheme explicitly, or inserting `./`, `name/../` and repeated slashes after a
slash of the rooted path, `Normalize` returns the same error value on both and,
when it succeeds, the same URL. -/
theorem Normalize_equivalence_collapsing (tab : Nat → Nat) (u v : URL)
    (hm : domainRegexp.MatchString u.Host = true) (hv : URL.Variant tab u v) :
    (Normalize tab urlMixed = (urlCanonical, none) ∧
      Normalize tab urlCanonical = (urlCanonical, none)) ∧
    (Normalize tab v).2 = (Normalize tab u).2 ∧
    ((Normalize tab u).2 = none → (Normalize tab v).1 = (Normalize tab u).1) := by
  constructor
  · rw [Normalize_tab_irrelevant tab latin1ToLower urlMixed (by decide) (by decide),
      Normalize_tab_irrelevant tab latin1ToLower urlCanonical (by decide) (by decide)]
    decide
  · obtain ⟨hsch, ⟨h', he, hhost⟩, hpath, hraw, ho, hus, hfq, hrq, hfr⟩ := hv
    obtain ⟨hlow, hvs⟩ := ToLower_scheme_variant tab hsch
    -- the host of `u`
    have hub : ∀ c ∈ u.Host, isLabelByte c = true ∨ c = 46 := MatchString_bytes hm
    have hune : u.Host ≠ [] := by
      intro hn
      rw [hn] at hm
      revert hm
      decide
    have husplit : splitHost u.Host = (u.Host, []) :=
      splitHost_no_port _ (fun b hb => (label_not_special b (hub b hb)).1)
    have huval := validateHost_case_variant tab hm (rfl : u.Host.map asciiLower = _)
    have hN := Normalize_of_host tab u u.Host [] _ husplit hune huval
      (keptPort_default _).2.2
    -- the host of `v`
    have hvb : ∀ c ∈ h', isLabelByte c = true ∨ c = 46 := bytes_of_case_variant hm he
    have hvne : h' ≠ [] := by
      intro hn
      rw [hn] at he
      exact hune (List.map_eq_nil_iff.mp he.symm)
    have hvval := validateHost_case_variant tab hm he
    have hport : ∀ b ∈ sPort80 ++ sPort443, b ≠ 58 ∧ b ≠ 91 ∧ b ≠ 93 := by decide
    have hvsplit : ∃ port, splitHost v.Host = (h', port) ∧
        keptPort (ToLower tab v.Scheme) port = [] := by
      rw [hlow]
      rcases hhost with h1 | ⟨h1, h2⟩ | ⟨h1, h2⟩
      · refine ⟨[], ?_, (keptPort_default _).2.2⟩
        rw [h1]
        exact splitHost_no_port _ (fun b hb => (label_not_special b (hvb b hb)).1)
      · refine ⟨sPort80, ?_, (keptPort_default _).1 h1⟩
        rw [h2]
        exact splitHost_port _ _ (fun b hb => label_not_special b (hvb b hb))
          (fun b hb => hport b (List.mem_append_left _ hb))
      · refine ⟨sPort443, ?_, (keptPort_default _).2.1 h1⟩
        rw [h2]
        exact splitHost_port _ _ (fun b hb => label_not_special b (hvb b hb))
          (fun b hb => hport b (List.mem_append_right _ hb))
    obtain ⟨port, hvs1, hvs2⟩ := hvsplit
    have hM := Normalize_of_host tab v h' port _ hvs1 hvne hvval hvs2
    -- validity of the two strings
    have hvalid : ValidString v.String = ValidString u.String := by
      rw [ValidString_String, ValidString_String, hvs]
      simp only [URL.queryFragment, ho, hfq, hrq, hfr]
    rw [hM, hN, hvalid, hlow, cleanPath_variant hpath, cleanPath_variant hraw]
    by_cases hV : ValidString u.String = true
    · by_cases hS : ToLower tab u.Scheme ≠ sHTTP ∧ ToLower tab u.Scheme ≠ sHTTPS
      · simp [hV, hS]
      · simp only [hV, hS, if_true, if_false, true_and]
        intro _
        cases u
        cases v
        simp_all
    · simp [hV]

/-- Witness of C8: `http://example.com/b` and its rewriting `http://Example.com:80/a/../b`. -/
theorem Normalize_equivalence_collapsing_witness :
    (Normalize latin1ToLower urlMixed = (urlCanonical, none) ∧
      Normalize latin1ToLower urlCanonical = (urlCanonical, none)) ∧
    (Normalize latin1ToLower urlMixed).2 = (Normalize latin1ToLower urlCanonical).2 ∧
    ((Normalize latin1ToLower urlCanonical).2 = none →
      (Normalize latin1ToLower urlMixed).1 = (Normalize latin1ToLower urlCanonical).1) :=
  Normalize_equivalence_collapsing latin1ToLower urlCanonical urlMixed (by decide)
    { scheme := Or.inl rfl
      host := ⟨str "Example.com", by decide, Or.inr (Or.inl ⟨by decide, by decide⟩)⟩
      path := PathVariant.step (PathVariant.refl _)
        (PathStep.dotdot [47] [97] [98] rfl rfl (by decide) (by decide) (by decide) (by decide))
      rawPath := PathVariant.refl _
      sameOpaque := rfl
      sameUser := rfl
      sameForceQuery := rfl
      sameRawQuery := rfl
      sameFragment := rfl }

/-! ### Visit accounting of a completed response -/

theorem MemStore.recordOf_Get (m : MemStore) (u v : URL) :
    (m.Get u).1.recordOf v = m.recordOf v := by
  by_cases hv : v = u
  · subst hv
    have h := MemStore.find_Get m v v
    rw [if_pos rfl] at h
    exact MemStore.recordOf_of_find h
  · have h := MemStore.find_Get m u v
    rw [if_neg hv] at h
    simp only [MemStore.recordOf, h]

theorem MemStore.recordOf_UpdateStatus (m : MemStore) (u v : URL) (status : Status) :
    ((m.UpdateStatus u status).1.recordOf v).VisitCount = (m.recordOf v).VisitCount ∧
    ((m.UpdateStatus u status).1.recordOf v).Last = (m.recordOf v).Last := by
  have h := MemStore.find_UpdateStatus m u v status
  by_cases hv : v = u
  · rw [if_pos hv] at h
    cases hf : m.find v with
    | none =>
      rw [hf] at h
      simp only [MemStore.recordOf, h, hf, Option.map_none', and_self]
    | some r =>
      rw [hf] at h
      simp only [MemStore.recordOf, h, hf, Option.map_some', and_self]
  · rw [if_neg hv] at h
    simp only [MemStore.recordOf, h, and_self]

/-- A decision that is not Response-complete keeps the visit count and the
last-visit time of every record. -/
theorem schedURL_mem_other_visits (opt : Config) (ctrl : Controller) (m : MemStore)
    (r : Option Response) (u : URL) (typ : URLType) (htyp : typ ≠ URLTypeResponse) :
    ∃ m1 item, schedURL memStore opt ctrl m r u typ
        = some (m1, some item, (ctrl.Schedule (contextUsed typ r u (m.recordOf u)) u).1, none) ∧
      ∀ v, (m1.recordOf v).VisitCount = (m.recordOf v).VisitCount ∧
        (m1.recordOf v).Last = (m.recordOf v).Last := by
  obtain ⟨m1, item, h1, -, h3⟩ := schedDecide_mem opt ctrl (m.Get u).1 (m.recordOf u)
    (contextUsed typ r u (m.recordOf u)) u
  refine ⟨m1, item, by rw [schedURL_mem_other opt ctrl m r u typ htyp, h1], ?_⟩
  intro v
  rw [h3]
  split
  · have := MemStore.recordOf_UpdateStatus (m.Get u).1 u v URLStatusFinished
    rw [MemStore.recordOf_Get] at this
    exact this
  · rw [MemStore.recordOf_Get]
    exact ⟨rfl, rfl⟩

theorem schedLinks_mem_visits (opt : Config) (ctrl : Controller) (resp : Response) :
    ∀ (links : List URL) (s : Sched MemStore),
      ∃ s1, schedLinks memStore opt ctrl resp links s = some (s1, none) ∧
        ∀ v, (s1.store.recordOf v).VisitCount = (s.store.recordOf v).VisitCount ∧
          (s1.store.recordOf v).Last = (s.store.recordOf v).Last := by
  intro links
  induction links with
  | nil => intro s; exact ⟨s, rfl, fun _ => ⟨rfl, rfl⟩⟩
  | cons link rest ih =>
    intro s
    obtain ⟨m1, item, h1, h4⟩ :=
      schedURL_mem_other_visits opt ctrl s.store (some resp) link URLTypeNew (fun h => nomatch h)
    cases hd : (ctrl.Schedule (contextUsed URLTypeNew (some resp) link
        (s.store.recordOf link)) link).1 with
    | false =>
      rw [hd] at h1
      obtain ⟨s1, k1, k2⟩ := ih { s with store := m1, waiting := s.waiting ++ [some item] }
      exact ⟨s1, by simp only [schedLinks, h1]; exact k1,
        fun v => ⟨(k2 v).1.trans (h4 v).1, (k2 v).2.trans (h4 v).2⟩⟩
    | true =>
      rw [hd] at h1
      obtain ⟨s1, k1, k2⟩ := ih { s with store := m1 }
      exact ⟨s1, by simp only [schedLinks, h1]; exact k1,
        fun v => ⟨(k2 v).1.trans (h4 v).1, (k2 v).2.trans (h4 v).2⟩⟩

/-- Handling a completed response in the loop: whatever its links are, the
record of the response's URL ends with its visit count incremented once, as a
Go `int`, and `Last` at the response timestamp. -/
theorem work_response_visits (opt : Config) (ctrl : Controller) (s : Sched MemStore)
    (resp : Response) :
    ∃ s1, (work memStore opt ctrl s (Event.ResIn resp)).sched = some s1 ∧
      (s1.store.find resp.URL).map (fun x => x.VisitCount)
        = some (wrapInt ((s.store.recordOf resp.URL).VisitCount + 1)) ∧
      (s1.store.find resp.URL).map (fun x => x.Last) = some resp.Timestamp := by
  obtain ⟨s2, k1, k2⟩ := schedLinks_mem_visits opt ctrl resp resp.links
    { loopHead s with store := (memStore.IncVisitCount (loopHead s).store).1 }
  have hrec : (s2.store.recordOf resp.URL).VisitCount = (s.store.recordOf resp.URL).VisitCount := by
    rw [(k2 resp.URL).1]
    show ((MemStore.IncVisitCount (loopHead s).store).1.recordOf resp.URL).VisitCount = _
    rw [loopHead_store]
    rfl
  obtain ⟨⟨m1, item, done, h1, -, h3, h4, -⟩, -⟩ :=
    schedURL_visits opt ctrl s2.store resp.URL resp
  rw [hrec] at h3
  cases hd : done with
  | false =>
    rw [hd] at h1
    exact ⟨{ s2 with store := m1, waiting := s2.waiting ++ [item] },
      by simp only [work, workSelect, k1, h1, Outcome.sched], h3, h4⟩
  | true =>
    rw [hd] at h1
    exact ⟨{ s2 with store := m1 },
      by simp only [work, workSelect, k1, h1, afterSelect_mem], h3, h4⟩

/-- Counterexample to C5 as stated: the visit count is a Go `int`, and the
timestamp of a response may be the zero instant. From a record at the largest
count, a Response-complete decision stores the smallest count, which is not
the previous count plus one; and a fresh record fetched once with a response
stamped zero ends with `VisitCount = 1` and a zero `Last`. -/
theorem visit_accounting_counterexample :
    (schedURL memStore demoOpt (constCtrl false 0 0)
        { recs := [{ Loc := seedURL, VisitCount := maxInt }] }
        (some { URL := seedURL, Timestamp := 100, links := [] }) seedURL URLTypeResponse).map
        (fun x => (x.1.find seedURL).map (fun r => r.VisitCount))
      = some (some minInt) ∧
    minInt ≠ maxInt + 1 ∧
    (schedURL memStore demoOpt (constCtrl false 0 0) {}
        (some { URL := seedURL, Timestamp := 0, links := [] }) seedURL URLTypeResponse).map
        (fun x => (x.1.find seedURL).map (fun r => (r.VisitCount, r.Last)))
      = some (some (1, 0)) := by
  decide

/-- C5 as amended (visit accounting), on the store of the contract. For a
record whose visit count is below the largest `int`, a Response-complete
decision for `u` stores `VisitCount + 1` and `Last =` the response timestamp,
and the policy is consulted on the context carrying that updated record; a
decision of any other type leaves `VisitCount` and `Last` of the record as
they were; so one response on a fresh record leaves `VisitCount = 1` and
`Last` at the response timestamp, which is non-zero when the timestamp is. In
the loop, a completed response advances the visit count of its URL by exactly
one, whatever its links are, when that count is below the largest `int`. -/
theorem schedURL_visit_accounting (opt : Config) (ctrl : Controller) (m : MemStore)
    (u : URL) (resp : Response)
    (hlo : minInt ≤ (m.recordOf u).VisitCount) (hhi : (m.recordOf u).VisitCount < maxInt) :
    (∃ m1 item done,
        schedURL memStore opt ctrl m (some resp) u URLTypeResponse = some (m1, item, done, none) ∧
        done = (ctrl.Schedule (resp.Context.fromURL
          { m.recordOf u with VisitCount := (m.recordOf u).VisitCount + 1,
                              Last := resp.Timestamp }) u).1 ∧
        (m1.find u).map (fun x => x.VisitCount) = some ((m.recordOf u).VisitCount + 1) ∧
        (m1.find u).map (fun x => x.Last) = some resp.Timestamp ∧
        (m.find u = none →
          (m1.find u).map (fun x => x.VisitCount) = some 1 ∧
          (m1.find u).map (fun x => x.Last) = some resp.Timestamp ∧
          (resp.Timestamp ≠ 0 → ∃ t, (m1.find u).map (fun x => x.Last) = some t ∧ t ≠ 0))) ∧
    (∀ (typ : URLType) (r : Option Response), typ ≠ URLTypeResponse →
      ∃ m1 item done, schedURL memStore opt ctrl m r u typ = some (m1, item, done, none) ∧
        (m1.find u).map (fun x => x.VisitCount) = some (m.recordOf u).VisitCount ∧
        (m1.find u).map (fun x => x.Last) = some (m.recordOf u).Last) ∧
    (∀ s : Sched MemStore,
      minInt ≤ (s.store.recordOf resp.URL).VisitCount →
      (s.store.recordOf resp.URL).VisitCount < maxInt →
      ∃ s1, (work memStore opt ctrl s (Event.ResIn resp)).sched = some s1 ∧
        (s1.store.find resp.URL).map (fun x => x.VisitCount)
          = some ((s.store.recordOf resp.URL).VisitCount + 1) ∧
        (s1.store.find resp.URL).map (fun x => x.Last) = some resp.Timestamp) := by
  have hw : wrapInt ((m.recordOf u).VisitCount + 1) = (m.recordOf u).VisitCount + 1 :=
    wrapInt_of_range _ (by omega) (by omega)
  refine ⟨?_, (schedURL_visits opt ctrl m u resp).2, ?_⟩
  · obtain ⟨m1, item, done, h1, h2, h3, h4, h5⟩ := (schedURL_visits opt ctrl m u resp).1
    rw [hw] at h2 h3
    exact ⟨m1, item, done, h1, h2, h3, h4,
      fun hn => ⟨h5 hn, h4, fun hne => ⟨resp.Timestamp, h4, hne⟩⟩⟩
  · intro s h1 h2
    obtain ⟨s1, k1, k2, k3⟩ := work_response_visits opt ctrl s resp
    rw [wrapInt_of_range _ (by omega) (by omega)] at k2
    exact ⟨s1, k1, k2, k3⟩

/-- Witness of C5 as amended: a fresh store and a response stamped 100: the
record ends with `VisitCount = 1` and `Last = 100`. -/
theorem schedURL_visit_accounting_witness :
    minInt ≤ (({} : MemStore).recordOf seedURL).VisitCount ∧
    (({} : MemStore).recordOf seedURL).VisitCount < maxInt ∧
    ∃ m1 item done,
      schedURL memStore demoOpt (constCtrl false 0 0) {}
        (some { URL := seedURL, Timestamp := 100, links := [] }) seedURL URLTypeResponse
        = some (m1, item, done, none) ∧
      (m1.find seedURL).map (fun x => x.VisitCount) = some 1 ∧
      (m1.find seedURL).map (fun x => x.Last) = some 100 := by
  refine ⟨by decide, by decide, ?_⟩
  obtain ⟨m1, item, done, h1, -, -, -, h5⟩ :=
    (schedURL_visit_accounting demoOpt (constCtrl false 0 0) {} seedURL
      { URL := seedURL, Timestamp := 100, links := [] } (by decide) (by decide)).1
  exact ⟨m1, item, done, h1, (h5 rfl).1, (h5 rfl).2.1⟩

/-! ### Store errors in the decision and in the loop -/

/-- An error of `Get` is returned by `schedURL`, with no item. -/
theorem schedURL_get_error {σ : Type} (st : Store σ) (opt : Config) (ctrl : Controller)
    (s s1 : σ) (r : Option Response) (u : URL) (typ : URLType) (uu : Option URLRecord)
    (err : GoError) (h : st.Get s u = (s1, uu, some err)) :
    schedURL st opt ctrl s r u typ = some (s1, none, false, some err) := by
  simp only [schedURL, h]

/-- An error of `Update` is returned by a Response-complete `schedURL`, with no item. -/
theorem schedURL_update_error {σ : Type} (st : Store σ) (opt : Config) (ctrl : Controller)
    (s s1 s2 : σ) (resp : Response) (u : URL) (uu : URLRecord) (err : GoError)
    (hg : st.Get s u = (s1, some uu, none))
    (hu : st.Update s1 { uu with VisitCount := wrapInt (uu.VisitCount + 1), Last := resp.Timestamp }
      = (s2, some err)) :
    schedURL st opt ctrl s (some resp) u URLTypeResponse = some (s2, none, false, some err) := by
  simp only [schedURL, hg, hu]

/-- An error returned by `schedURL` for a seed or a recovered URL stops the
scheduler; the waiting list is left as it was. -/
theorem work_stops_on_schedURL_error {σ : Type} (st : Store σ) (opt : Config)
    (ctrl : Controller) (s : Sched σ) (u : URL) (s1 : σ) (item : Option Item) (done : Bool)
    (err : GoError) :
    (schedURL st opt ctrl (loopHead s).store none u URLTypeSeed = some (s1, item, done, some err) →
      work st opt ctrl s (Event.NewIn u)
        = Outcome.exit { loopHead s with store := s1 } true (some err)) ∧
    (schedURL st opt ctrl (loopHead s).store none u URLTypeRecover
        = some (s1, item, done, some err) →
      work st opt ctrl s (Event.RecoverIn u)
        = Outcome.exit { loopHead s with store := s1 } true (some err)) := by
  constructor
  · intro h
    simp only [work, workSelect, h]
  · intro h
    simp only [work, workSelect, h]

/-! ### IP literals -/

/-- C11 (code bug): an IP literal is not always accepted with a well-formed
authority. `http://[::1]/`, whose host is a bracketed IPv6 address without a
port, is rejected with the invalid host error: `net.SplitHostPort` fails on
the missing port, so the brackets reach `validateHost`. `http://[::1]:80/` is
accepted, and its host becomes `::1` without brackets, since the default port
is dropped and only `net.JoinHostPort` puts brackets back. With another port
the address stays bracketed, and IPv4 addresses are kept with or without a
port. -/
theorem Normalize_ipv6_brackets (tab : Nat → Nat) :
    (Normalize tab urlV6).2 = some "normalize URL: invalid host" ∧
    Normalize tab urlV6Default = ({ urlV6Default with Host := str "::1" }, none) ∧
    Normalize tab urlV6Port = (urlV6Port, none) ∧
    Normalize tab urlV4 = (urlV4, none) ∧
    Normalize tab urlV4Port = (urlV4Port, none) := by
  rw [Normalize_tab_irrelevant tab latin1ToLower urlV6 (by decide) (by decide),
    Normalize_tab_irrelevant tab latin1ToLower urlV6Default (by decide) (by decide),
    Normalize_tab_irrelevant tab latin1ToLower urlV6Port (by decide) (by decide),
    Normalize_tab_irrelevant tab latin1ToLower urlV4 (by decide) (by decide),
    Normalize_tab_irrelevant tab latin1ToLower urlV4Port (by decide) (by decide)]
  refine ⟨?_, ?_, ?_, ?_, ?_⟩ <;> decide

/-! ### The port -/

/-- C12: when `Normalize` succeeds, with `h` the validated host and `p` the
port split from the input host, the resulting Host is `h` alone when `p` is
empty or is the default port of the (lower-cased) scheme, and is
`net.JoinHostPort(h, p)` in every other case: `h`, a colon and `p`, with `h`
in brackets when it contains a colon. Port 443 under http and port 80 under
https are kept. -/
theorem Normalize_default_port (tab : Nat → Nat) (u : URL) (h : (Normalize tab u).2 = none) :
    (((splitHost u.Host).2 = [] ∨
        (ToLower tab u.Scheme = sHTTP ∧ (splitHost u.Host).2 = sPort80) ∨
        (ToLower tab u.Scheme = sHTTPS ∧ (splitHost u.Host).2 = sPort443)) →
      (Normalize tab u).1.Host = (validateHost tab (splitHost u.Host).1).1) ∧
    (¬ ((splitHost u.Host).2 = [] ∨
        (ToLower tab u.Scheme = sHTTP ∧ (splitHost u.Host).2 = sPort80) ∨
        (ToLower tab u.Scheme = sHTTPS ∧ (splitHost u.Host).2 = sPort443)) →
      (Normalize tab u).1.Host =
        JoinHostPort (validateHost tab (splitHost u.Host).1).1 (splitHost u.Host).2 ∧
      (containsByte (validateHost tab (splitHost u.Host).1).1 58 = false →
        (Normalize tab u).1.Host =
          (validateHost tab (splitHost u.Host).1).1 ++ 58 :: (splitHost u.Host).2) ∧
      (containsByte (validateHost tab (splitHost u.Host).1).1 58 = true →
        (Normalize tab u).1.Host =
          91 :: (validateHost tab (splitHost u.Host).1).1 ++ 93 :: 58 :: (splitHost u.Host).2)) ∧
    Normalize tab urlHTTP443 = (urlHTTP443, none) ∧
    Normalize tab urlHTTPS80 = (urlHTTPS80, none) := by
  have hH := congrArg URL.Host (Normalize_ok tab u h).2.2.2.2
  simp only at hH
  refine ⟨?_, ?_, ?_, ?_⟩
  · intro hc
    have hk : keptPort (ToLower tab u.Scheme) (splitHost u.Host).2 = [] := by
      unfold keptPort
      rcases hc with hc | hc | hc
      · rw [hc]
        split <;> rfl
      · rw [if_pos (Or.inl hc)]
      · rw [if_pos (Or.inr hc)]
    rw [hH, hk]
    simp
  · intro hc
    have hk : keptPort (ToLower tab u.Scheme) (splitHost u.Host).2 = (splitHost u.Host).2 := by
      unfold keptPort
      rw [if_neg (fun hd => hc (Or.inr hd))]
    have hne : (splitHost u.Host).2 ≠ [] := fun hd => hc (Or.inl hd)
    have hJ : (Normalize tab u).1.Host =
        JoinHostPort (validateHost tab (splitHost u.Host).1).1 (splitHost u.Host).2 := by
      rw [hH, hk, if_pos hne]
    refine ⟨hJ, ?_, ?_⟩
    · intro hb
      rw [hJ]
      simp [JoinHostPort, hb]
    · intro hb
      rw [hJ]
      simp [JoinHostPort, hb]
  · rw [Normalize_tab_irrelevant tab latin1ToLower urlHTTP443 (by decide) (by decide)]
    decide
  · rw [Normalize_tab_irrelevant tab latin1ToLower urlHTTPS80 (by decide) (by decide)]
    decide

/-- Witness of C12 at `http://[::1]:8080/`: the port is kept and the address is
bracketed. -/
theorem Normalize_default_port_witness :
    (Normalize latin1ToLower urlV6Port).2 = none ∧
    (Normalize latin1ToLower urlV6Port).1.Host = str "[::1]:8080" :=
  ⟨by decide,
    ((Normalize_default_port latin1ToLower urlV6Port (by decide)).2.1 (by decide)).2.2
      (by decide)⟩

/-! ### The fragment, the query and the frame of a rejection -/

theorem ValidString_queryFragment (u : URL) (f : Str) (X : Str) :
    ValidString (X ++ ({ u with Fragment := f } : URL).queryFragment) =
      ValidString (X ++ (if u.ForceQuery ∨ u.RawQuery ≠ [] then 63 :: u.RawQuery else [])) := by
  unfold URL.queryFragment
  by_cases hf : f = []
  · simp [hf]
  · simp only [ne_eq, hf, not_false_eq_true, if_true]
    rw [← List.append_assoc, ValidString_split 35 (by decide) _ _ _ (Nat.le_refl _),
      ValidString_ascii _ (isASCII_escape f encodeFragment), Bool.and_true]

theorem ValidString_String_fragment (u : URL) (f : Str) :
    ValidString ({ u with Fragment := f } : URL).String = ValidString u.String := by
  rw [ValidString_String, ValidString_String u]
  have h1 := ValidString_queryFragment u f (if u.Opaque ≠ [] then u.Opaque else [])
  have h2 := ValidString_queryFragment u u.Fragment (if u.Opaque ≠ [] then u.Opaque else [])
  simp only at h1 h2 ⊢
  rw [h1, ← h2]

/-- C14: when `Normalize` succeeds the resulting Fragment is empty and the query
(RawQuery and ForceQuery), the user info and the opaque part are those of the
input. Two URLs that differ only in the fragment are accepted or rejected
alike, with the same error, and when accepted they normalise to the same
URL. -/
theorem Normalize_fragment_query (tab : Nat → Nat) (u : URL) (f : Str) :
    ((Normalize tab u).2 = none →
      (Normalize tab u).1.Fragment = [] ∧ (Normalize tab u).1.RawQuery = u.RawQuery ∧
      (Normalize tab u).1.ForceQuery = u.ForceQuery ∧ (Normalize tab u).1.User = u.User ∧
      (Normalize tab u).1.Opaque = u.Opaque) ∧
    (Normalize tab { u with Fragment := f }).2 = (Normalize tab u).2 ∧
    ((Normalize tab u).2 = none →
      (Normalize tab { u with Fragment := f }).1 = (Normalize tab u).1) := by
  have hv := ValidString_String_fragment u f
  have key : (Normalize tab { u with Fragment := f }).2 = (Normalize tab u).2 ∧
      ((Normalize tab u).2 = none →
        (Normalize tab { u with Fragment := f }).1 = (Normalize tab u).1) := by
    unfold Normalize
    simp only [hv]
    by_cases h1 : ValidString u.String = true
    · by_cases hs : ToLower tab u.Scheme ≠ sHTTP ∧ ToLower tab u.Scheme ≠ sHTTPS
      · simp [h1, hs]
      · by_cases hh : (splitHost u.Host).1 = []
        · simp [h1, hs, hh]
        · cases hvh : validateHost tab (splitHost u.Host).1 with
          | mk v e =>
            cases e with
            | some e => simp [h1, hs, hh, hvh]
            | none =>
              simp only [h1, hs, hh, hvh]
              by_cases hk : keptPort (ToLower tab u.Scheme) (splitHost u.Host).2 = []
              · simp [hk]
              · simp [hk]
    · simp [h1]
  refine ⟨?_, key.1, key.2⟩
  intro h
  rw [(Normalize_ok tab u h).2.2.2.2]
  exact ⟨rfl, rfl, rfl, rfl, rfl⟩

/-- C17: when `Normalize` returns an error, the Host, Path, RawPath, Fragment
and query of the URL, and its user info and opaque part, are those of the
input. When the input passed the UTF-8 check the URL is the input with its
scheme lower-cased, otherwise it is the input unchanged. -/
theorem Normalize_error_frame (tab : Nat → Nat) (u : URL) (h : (Normalize tab u).2 ≠ none) :
    (Normalize tab u).1.Host = u.Host ∧ (Normalize tab u).1.Path = u.Path ∧
    (Normalize tab u).1.RawPath = u.RawPath ∧ (Normalize tab u).1.Fragment = u.Fragment ∧
    (Normalize tab u).1.RawQuery = u.RawQuery ∧ (Normalize tab u).1.ForceQuery = u.ForceQuery ∧
    (Normalize tab u).1.User = u.User ∧ (Normalize tab u).1.Opaque = u.Opaque ∧
    (ValidString u.String = true →
      (Normalize tab u).1 = { u with Scheme := ToLower tab u.Scheme }) ∧
    (ValidString u.String = false → (Normalize tab u).1 = u) := by
  have key : (ValidString u.String = true →
        (Normalize tab u).1 = { u with Scheme := ToLower tab u.Scheme }) ∧
      (ValidString u.String = false → (Normalize tab u).1 = u) := by
    unfold Normalize at h ⊢
    by_cases h1 : ValidString u.String = true
    · by_cases hs : ToLower tab u.Scheme ≠ sHTTP ∧ ToLower tab u.Scheme ≠ sHTTPS
      · simp [h1, hs]
      · by_cases hh : (splitHost u.Host).1 = []
        · simp [h1, hs, hh]
        · cases hvh : validateHost tab (splitHost u.Host).1 with
          | mk v e =>
            cases e with
            | some e => simp [h1, hs, hh, hvh]
            | none => simp [h1, hs, hh, hvh] at h
    · simp [h1]
  by_cases h1 : ValidString u.String = true
  · rw [key.1 h1]
    exact ⟨rfl, rfl, rfl, rfl, rfl, rfl, rfl, rfl, fun _ => rfl, fun h2 => by simp [h1] at h2⟩
  · have h2 : ValidString u.String = false := by simpa using h1
    rw [key.2 h2]
    exact ⟨rfl, rfl, rfl, rfl, rfl, rfl, rfl, rfl, fun h3 => absurd h3 h1, fun _ => rfl⟩

/-- Witness of C17 at `http://exa mple.com/`: the host is rejected and the URL is
left as it was. -/
theorem Normalize_error_frame_witness :
    (Normalize latin1ToLower urlBadHost).2 ≠ none ∧
    (Normalize latin1ToLower urlBadHost).1.Host = urlBadHost.Host :=
  ⟨by decide, (Normalize_error_frame latin1ToLower urlBadHost (by decide)).1⟩

/-! ### The guarded hand-off of the two lists -/

theorem Sched.Ext.refl {σ : Type} (a : Sched σ) : Sched.Ext a a :=
  ⟨⟨[], (List.append_nil _).symm⟩, ⟨[], (List.append_nil _).symm⟩, rfl, rfl, rfl, rfl, rfl, rfl⟩

theorem Sched.Ext.trans {σ : Type} {a b c : Sched σ} (h1 : Sched.Ext a b) (h2 : Sched.Ext b c) :
    Sched.Ext a c := by
  obtain ⟨⟨w1, hw1⟩, ⟨o1, ho1⟩, q1, n1, p1, u1, ps1, os1⟩ := h1
  obtain ⟨⟨w2, hw2⟩, ⟨o2, ho2⟩, q2, n2, p2, u2, ps2, os2⟩ := h2
  refine ⟨⟨w1 ++ w2, ?_⟩, ⟨o1 ++ o2, ?_⟩, q2.trans q1, n2.trans n1, p2.trans p1, u2.trans u1,
    ps2.trans ps1, os2.trans os1⟩
  · rw [hw2, hw1, List.append_assoc]
  · rw [ho2, ho1, List.append_assoc]

theorem Sched.Ext.store {σ : Type} (a : Sched σ) (m : σ) : Sched.Ext a { a with store := m } :=
  ⟨⟨[], (List.append_nil _).symm⟩, ⟨[], (List.append_nil _).symm⟩, rfl, rfl, rfl, rfl, rfl, rfl⟩

theorem Sched.Ext.push {σ : Type} (a : Sched σ) (m : σ) (item : Option Item) :
    Sched.Ext a { a with store := m, waiting := a.waiting ++ [item] } :=
  ⟨⟨[item], rfl⟩, ⟨[], (List.append_nil _).symm⟩, rfl, rfl, rfl, rfl, rfl, rfl⟩

theorem afterSelect_sched {σ : Type} (st : Store σ) (a : Sched σ) :
    (afterSelect st a).sched = some { a with store := (st.IsFinished a.store).1 } := by
  unfold afterSelect
  generalize st.IsFinished a.store = t
  obtain ⟨s1, b, e⟩ := t
  cases e with
  | some e => cases b <;> rfl
  | none => cases b <;> rfl

theorem afterSelect_ext {σ : Type} (st : Store σ) (a b : Sched σ)
    (h : (afterSelect st a).sched = some b) : Sched.Ext a b := by
  rw [afterSelect_sched] at h
  rw [← Option.some.inj h]
  exact Sched.Ext.store a _

theorem schedLinks_ext {σ : Type} (st : Store σ) (opt : Config) (ctrl : Controller)
    (resp : Response) : ∀ (links : List URL) (a b : Sched σ) (e : Option GoError),
    schedLinks st opt ctrl resp links a = some (b, e) → Sched.Ext a b := by
  intro links
  induction links with
  | nil =>
    intro a b e h
    simp only [schedLinks, Option.some.injEq, Prod.mk.injEq] at h
    rw [← h.1]
    exact Sched.Ext.refl a
  | cons link rest ih =>
    intro a b e h
    unfold schedLinks at h
    generalize schedURL st opt ctrl a.store (some resp) link URLTypeNew = r at h
    cases r with
    | none => simp at h
    | some r =>
      obtain ⟨s1, item, done, err⟩ := r
      cases err with
      | some err =>
        simp only [Option.some.injEq, Prod.mk.injEq] at h
        rw [← h.1]
        exact Sched.Ext.store a _
      | none =>
        cases done with
        | false => exact (Sched.Ext.push a s1 item).trans (ih _ b e h)
        | true => exact (Sched.Ext.store a s1).trans (ih _ b e h)

theorem Sched.Ext.pushOut {σ : Type} (a : Sched σ) (u : URL) :
    Sched.Ext a { a with outURLs := a.outURLs ++ [u] } :=
  ⟨⟨[], (List.append_nil _).symm⟩, ⟨[u], rfl⟩, rfl, rfl, rfl, rfl, rfl, rfl⟩

theorem loopHead_fields {σ : Type} (s : Sched σ) :
    (loopHead s).waiting = s.waiting ∧ (loopHead s).outURLs = s.outURLs ∧
    (loopHead s).pqSent = s.pqSent ∧ (loopHead s).outSent = s.outSent ∧
    ((loopHead s).queueIn = true → s.queueIn = true ∨ s.waiting ≠ []) ∧
    ((loopHead s).output = true → s.output = true ∨ s.outURLs ≠ []) ∧
    (s.waiting ≠ [] → (loopHead s).queueIn = true) ∧
    (s.outURLs ≠ [] → (loopHead s).output = true) ∧
    (∀ x rest, s.waiting = x :: rest → (loopHead s).next = x) ∧
    (∀ x rest, s.outURLs = x :: rest → (loopHead s).outURL = some x) := by
  obtain ⟨store, waiting, outURLs, queueIn, next, output, outURL, pqSent, outSent⟩ := s
  cases waiting <;> cases outURLs <;> simp [loopHead]

theorem work_ext {σ : Type} (st : Store σ) (opt : Config) (ctrl : Controller)
    (s b : Sched σ) (ev : Event) (hq : ev ≠ Event.SendQueue) (ho : ev ≠ Event.SendOut)
    (h : (work st opt ctrl s ev).sched = some b) : Sched.Ext (loopHead s) b := by
  unfold work at h
  generalize loopHead s = a at h ⊢
  cases ev with
  | NewIn u =>
    simp only [workSelect] at h
    generalize schedURL st opt ctrl a.store none u URLTypeSeed = r at h
    cases r with
    | none => exact absurd h (by simp [Outcome.sched])
    | some r =>
      obtain ⟨s1, item, done, err⟩ := r
      cases err with
      | some err =>
        have hb := Option.some.inj h
        subst hb
        exact Sched.Ext.store a s1
      | none =>
        have hb := Option.some.inj h
        subst hb
        exact Sched.Ext.push a s1 item
  | RecoverIn u =>
    simp only [workSelect] at h
    generalize schedURL st opt ctrl a.store none u URLTypeRecover = r at h
    cases r with
    | none => exact absurd h (by simp [Outcome.sched])
    | some r =>
      obtain ⟨s1, item, done, err⟩ := r
      cases err with
      | some err =>
        cases done <;>
        · have hb := Option.some.inj h
          subst hb
          exact Sched.Ext.store a s1
      | none =>
        cases done with
        | false =>
          have hb := Option.some.inj h
          subst hb
          exact Sched.Ext.push a s1 item
        | true => exact (Sched.Ext.store a s1).trans (afterSelect_ext st _ b h)
  | ResIn resp =>
    simp only [workSelect] at h
    generalize hl : schedLinks st opt ctrl resp resp.links
      { a with store := (st.IncVisitCount a.store).1 } = r at h
    cases r with
    | none => exact absurd h (by simp [Outcome.sched])
    | some r =>
      obtain ⟨s1, e⟩ := r
      have e1 : Sched.Ext a s1 :=
        (Sched.Ext.store a _).trans (schedLinks_ext st opt ctrl resp _ _ _ _ hl)
      cases e with
      | some err =>
        have hb := Option.some.inj h
        subst hb
        exact e1
      | none =>
        simp only at h
        generalize schedURL st opt ctrl s1.store (some resp) resp.URL URLTypeResponse = r2 at h
        cases r2 with
        | none => exact absurd h (by simp [Outcome.sched])
        | some r2 =>
          obtain ⟨s2, item, done, err⟩ := r2
          cases err with
          | some err =>
            cases done <;>
            · have hb := Option.some.inj h
              subst hb
              exact e1.trans (Sched.Ext.store s1 s2)
          | none =>
            cases done with
            | false =>
              have hb := Option.some.inj h
              subst hb
              exact e1.trans (Sched.Ext.push s1 s2 item)
            | true => exact e1.trans ((Sched.Ext.store s1 s2).trans (afterSelect_ext st _ b h))
  | DoneIn u =>
    simp only [workSelect] at h
    exact (Sched.Ext.store a _).trans (afterSelect_ext st _ b h)
  | ErrIn u now =>
    simp only [workSelect] at h
    generalize incErrCount st a.store u = r at h
    cases r with
    | none => exact absurd h (by simp [Outcome.sched])
    | some r =>
      obtain ⟨s1, cnt⟩ := r
      by_cases hc : cnt ≥ opt.MaxRetry
      · simp only [hc, if_true] at h
        exact (Sched.Ext.store a _).trans (afterSelect_ext st _ b h)
      · simp only [hc, if_false] at h
        have hb := Option.some.inj h
        subst hb
        exact Sched.Ext.push a s1 _
  | PqOut u =>
    cases u with
    | none =>
      have hb := Option.some.inj h
      subst hb
      exact Sched.Ext.refl a
    | some u =>
      simp only [workSelect] at h
      exact (Sched.Ext.pushOut a u).trans (afterSelect_ext st _ b h)
  | SendQueue => exact absurd rfl hq
  | SendOut => exact absurd rfl ho
  | PqErr err =>
    cases err <;>
    · have hb := Option.some.inj h
      subst hb
      exact Sched.Ext.refl a
  | Done =>
    have hb := Option.some.inj h
    subst hb
    exact Sched.Ext.refl a
  | Quit =>
    have hb := Option.some.inj h
    subst hb
    exact Sched.Ext.refl a

theorem work_sendQueue_sched {σ : Type} (st : Store σ) (opt : Config) (ctrl : Controller)
    (s b : Sched σ) (h : (work st opt ctrl s Event.SendQueue).sched = some b) :
    (loopHead s).queueIn = true ∧ b.pqSent = s.pqSent ++ [(loopHead s).next] ∧
    b.waiting = s.waiting.tail ∧ (b.queueIn = true → s.waiting.tail ≠ []) ∧
    b.outURLs = s.outURLs ∧ b.outSent = s.outSent ∧ b.output = (loopHead s).output := by
  obtain ⟨hw, ho, hp, hs, -⟩ := loopHead_fields s
  unfold work at h
  simp only [workSelect] at h
  by_cases hq : (loopHead s).queueIn = true
  · simp only [hq, if_true] at h
    rw [afterSelect_sched] at h
    have hb := Option.some.inj h
    subst hb
    refine ⟨hq, ?_, ?_, ?_, ho, hs, rfl⟩
    · simp only [hp]
    · simp only [hw]
    · simp only [hw]
      intro h1 h2
      simp [h2] at h1
  · simp only [hq] at h
    exact absurd h (by simp [Outcome.sched])

theorem work_sendOut_sched {σ : Type} (st : Store σ) (opt : Config) (ctrl : Controller)
    (s b : Sched σ) (h : (work st opt ctrl s Event.SendOut).sched = some b) :
    (loopHead s).output = true ∧ b.outSent = s.outSent ++ [(loopHead s).outURL] ∧
    b.outURLs = s.outURLs.tail ∧ (b.output = true → s.outURLs.tail ≠ []) ∧
    b.waiting = s.waiting ∧ b.pqSent = s.pqSent ∧ b.queueIn = (loopHead s).queueIn := by
  obtain ⟨hw, ho, hp, hs, -⟩ := loopHead_fields s
  unfold work at h
  simp only [workSelect] at h
  by_cases hq : (loopHead s).output = true
  · simp only [hq, if_true] at h
    rw [afterSelect_sched] at h
    have hb := Option.some.inj h
    subst hb
    refine ⟨hq, ?_, ?_, ?_, hw, hp, rfl⟩
    · simp only [hs]
    · simp only [ho]
    · simp only [ho]
      intro h1 h2
      simp [h2] at h1
  · simp only [hq] at h
    exact absurd h (by simp [Outcome.sched])

theorem loopHead_guarded {σ : Type} (s : Sched σ) (hg : s.Guarded) :
    ((loopHead s).queueIn = true → s.waiting ≠ []) ∧
    ((loopHead s).output = true → s.outURLs ≠ []) := by
  obtain ⟨-, -, -, -, hq, ho, -⟩ := loopHead_fields s
  exact ⟨fun h => (hq h).elim hg.1 id, fun h => (ho h).elim hg.2 id⟩

theorem work_sendQueue_head {σ : Type} (st : Store σ) (opt : Config) (ctrl : Controller)
    (s b : Sched σ) (hg : s.Guarded) (h : (work st opt ctrl s Event.SendQueue).sched = some b) :
    ∃ x rest, s.waiting = x :: rest ∧ b.pqSent = s.pqSent ++ [x] ∧ b.waiting = rest ∧
      b.outSent = s.outSent ∧ b.outURLs = s.outURLs := by
  obtain ⟨hq, hp, hw, -, ho, hs, -⟩ := work_sendQueue_sched st opt ctrl s b h
  have hne := (loopHead_guarded s hg).1 hq
  obtain ⟨x, rest, hx⟩ := List.exists_cons_of_ne_nil hne
  refine ⟨x, rest, hx, ?_, ?_, hs, ho⟩
  · rw [hp, (loopHead_fields s).2.2.2.2.2.2.2.2.1 x rest hx]
  · rw [hw, hx, List.tail_cons]

theorem work_sendOut_head {σ : Type} (st : Store σ) (opt : Config) (ctrl : Controller)
    (s b : Sched σ) (hg : s.Guarded) (h : (work st opt ctrl s Event.SendOut).sched = some b) :
    ∃ x rest, s.outURLs = x :: rest ∧ b.outSent = s.outSent ++ [some x] ∧ b.outURLs = rest ∧
      b.pqSent = s.pqSent ∧ b.waiting = s.waiting := by
  obtain ⟨hq, hp, hw, -, ho, hs, -⟩ := work_sendOut_sched st opt ctrl s b h
  have hne := (loopHead_guarded s hg).2 hq
  obtain ⟨x, rest, hx⟩ := List.exists_cons_of_ne_nil hne
  refine ⟨x, rest, hx, ?_, ?_, hs, ho⟩
  · rw [hp, (loopHead_fields s).2.2.2.2.2.2.2.2.2 x rest hx]
  · rw [hw, hx, List.tail_cons]

theorem work_other_lists {σ : Type} (st : Store σ) (opt : Config) (ctrl : Controller)
    (s b : Sched σ) (ev : Event) (hq : ev ≠ Event.SendQueue) (ho : ev ≠ Event.SendOut)
    (h : (work st opt ctrl s ev).sched = some b) :
    b.pqSent = s.pqSent ∧ (∃ added, b.waiting = s.waiting ++ added) ∧
    b.outSent = s.outSent ∧ (∃ added, b.outURLs = s.outURLs ++ added) := by
  obtain ⟨hw, hu, -, -, -, -, hps, hos⟩ := work_ext st opt ctrl s b ev hq ho h
  obtain ⟨lw, lo, lp, ls, -⟩ := loopHead_fields s
  rw [lw] at hw
  rw [lo] at hu
  exact ⟨hps.trans lp, hw, hos.trans ls, hu⟩

theorem work_guarded {σ : Type} (st : Store σ) (opt : Config) (ctrl : Controller)
    (s b : Sched σ) (ev : Event) (hg : s.Guarded)
    (h : (work st opt ctrl s ev).sched = some b) : b.Guarded ∧ Sched.Fifo s b := by
  have hl := loopHead_guarded s hg
  by_cases hq : ev = Event.SendQueue
  · subst hq
    obtain ⟨x, rest, hx, hp, hw, hs, ho⟩ := work_sendQueue_head st opt ctrl s b hg h
    obtain ⟨-, -, hw2, hqb, -, -, hob⟩ := work_sendQueue_sched st opt ctrl s b h
    refine ⟨⟨?_, ?_⟩, ⟨[x], hp⟩, ⟨[], ?_⟩, ⟨[], ?_⟩, ⟨[], ?_⟩⟩
    · intro hb
      rw [hw2]
      exact hqb hb
    · intro hb
      rw [ho]
      exact hl.2 (hob ▸ hb)
    · simp [Sched.queueHistory, hp, hw, hx]
    · simp [hs]
    · simp [Sched.outHistory, hs, ho]
  · by_cases hso : ev = Event.SendOut
    · subst hso
      obtain ⟨x, rest, hx, hp, hw, hs, ho⟩ := work_sendOut_head st opt ctrl s b hg h
      obtain ⟨-, -, hw2, hqb, -, -, hob⟩ := work_sendOut_sched st opt ctrl s b h
      refine ⟨⟨?_, ?_⟩, ⟨[], ?_⟩, ⟨[], ?_⟩, ⟨[some x], hp⟩, ⟨[], ?_⟩⟩
      · intro hb
        rw [ho]
        exact hl.1 (hob ▸ hb)
      · intro hb
        rw [hw2]
        exact hqb hb
      · simp [hs]
      · simp [Sched.queueHistory, hs, ho]
      · simp [Sched.outHistory, hp, hw, hx]
    · obtain ⟨⟨aw, hw⟩, ⟨ao, hu⟩, hqi, -, hoi, -, -, -⟩ := work_ext st opt ctrl s b ev hq hso h
      obtain ⟨hps, -, hos, -⟩ := work_other_lists st opt ctrl s b ev hq hso h
      obtain ⟨lw, lo, -⟩ := loopHead_fields s
      rw [lw] at hw
      rw [lo] at hu
      refine ⟨⟨?_, ?_⟩, ⟨[], ?_⟩, ⟨aw, ?_⟩, ⟨[], ?_⟩, ⟨ao.map some, ?_⟩⟩
      · intro hb
        rw [hw]
        exact List.append_ne_nil_of_left_ne_nil (hl.1 (hqi ▸ hb)) _
      · intro hb
        rw [hu]
        exact List.append_ne_nil_of_left_ne_nil (hl.2 (hoi ▸ hb)) _
      · simp [hps]
      · simp [Sched.queueHistory, hps, hw]
      · simp [hos]
      · simp [Sched.outHistory, hos, hu]

theorem Sched.Fifo.chain {σ : Type} {a b c : Sched σ} (h1 : Sched.Fifo a b)
    (h2 : Sched.Fifo b c) : Sched.Fifo a c := by
  obtain ⟨⟨p1, hp1⟩, ⟨q1, hq1⟩, ⟨r1, hr1⟩, ⟨t1, ht1⟩⟩ := h1
  obtain ⟨⟨p2, hp2⟩, ⟨q2, hq2⟩, ⟨r2, hr2⟩, ⟨t2, ht2⟩⟩ := h2
  exact ⟨⟨p1 ++ p2, by rw [hp2, hp1, List.append_assoc]⟩,
    ⟨q1 ++ q2, by rw [hq2, hq1, List.append_assoc]⟩,
    ⟨r1 ++ r2, by rw [hr2, hr1, List.append_assoc]⟩,
    ⟨t1 ++ t2, by rw [ht2, ht1, List.append_assoc]⟩⟩

theorem run_guarded {σ : Type} (st : Store σ) (opt : Config) (ctrl : Controller) :
    ∀ (evs : List Event) (s b : Sched σ), s.Guarded →
    (run st opt ctrl s evs).sched = some b → b.Guarded ∧ Sched.Fifo s b := by
  intro evs
  induction evs with
  | nil =>
    intro s b hg h
    have hb := Option.some.inj h
    subst hb
    exact ⟨hg, ⟨[], by simp⟩, ⟨[], by simp⟩, ⟨[], by simp⟩, ⟨[], by simp⟩⟩
  | cons ev rest ih =>
    intro s b hg h
    unfold run at h
    rcases hw : work st opt ctrl s ev with s1 | ⟨s1, stopped, err⟩ | _ | _
    · rw [hw] at h
      have h1 := work_guarded st opt ctrl s s1 ev hg (by rw [hw]; rfl)
      have h2 := ih s1 b h1.1 h
      exact ⟨h2.1, h1.2.chain h2.2⟩
    · rw [hw] at h
      exact work_guarded st opt ctrl s b ev hg (by rw [hw]; exact h)
    · rw [hw] at h
      exact absurd h (by simp [Outcome.sched])
    · rw [hw] at h
      exact absurd h (by simp [Outcome.sched])

/-- C15: in every iteration of the loop, from a state in which a channel
variable is non-nil only while its list is not empty (as when `work` starts),
the send to the wait queue is blocked when the waiting list is empty and the
send to the output stream is blocked when the ready list is empty; a send that
takes place hands over the head of its list and removes exactly that head,
leaving the other list alone; every other event hands nothing over and removes
nothing, it only appends. Along any run the guard is kept, and what was handed
over stays a beginning of what was appended, in the order of the appends. -/
theorem work_guarded_handoff {σ : Type} (st : Store σ) (opt : Config) (ctrl : Controller)
    (s : Sched σ) (hg : s.Guarded) :
    (s.waiting = [] → work st opt ctrl s Event.SendQueue = Outcome.blocked) ∧
    (s.outURLs = [] → work st opt ctrl s Event.SendOut = Outcome.blocked) ∧
    (∀ b, (work st opt ctrl s Event.SendQueue).sched = some b →
      (loopHead s).queueIn = true ∧
      ∃ x rest, s.waiting = x :: rest ∧ (loopHead s).next = x ∧
        b.pqSent = s.pqSent ++ [x] ∧ b.waiting = rest ∧
        b.outSent = s.outSent ∧ b.outURLs = s.outURLs) ∧
    (∀ b, (work st opt ctrl s Event.SendOut).sched = some b →
      (loopHead s).output = true ∧
      ∃ x rest, s.outURLs = x :: rest ∧ (loopHead s).outURL = some x ∧
        b.outSent = s.outSent ++ [some x] ∧ b.outURLs = rest ∧
        b.pqSent = s.pqSent ∧ b.waiting = s.waiting) ∧
    (∀ ev b, ev ≠ Event.SendQueue → ev ≠ Event.SendOut →
      (work st opt ctrl s ev).sched = some b →
      b.pqSent = s.pqSent ∧ (∃ added, b.waiting = s.waiting ++ added) ∧
      b.outSent = s.outSent ∧ (∃ added, b.outURLs = s.outURLs ++ added)) ∧
    (∀ evs b, (run st opt ctrl s evs).sched = some b → b.Guarded ∧ Sched.Fifo s b) := by
  have hl := loopHead_guarded s hg
  refine ⟨?_, ?_, ?_, ?_, ?_, ?_⟩
  · intro hw
    have hq : (loopHead s).queueIn = false := by
      cases hc : (loopHead s).queueIn with
      | false => rfl
      | true => exact absurd hw (hl.1 hc)
    simp only [work, workSelect, hq]
    rfl
  · intro hw
    have hq : (loopHead s).output = false := by
      cases hc : (loopHead s).output with
      | false => rfl
      | true => exact absurd hw (hl.2 hc)
    simp only [work, workSelect, hq]
    rfl
  · intro b h
    obtain ⟨x, rest, hx, hr⟩ := work_sendQueue_head st opt ctrl s b hg h
    exact ⟨(work_sendQueue_sched st opt ctrl s b h).1, x, rest, hx,
      (loopHead_fields s).2.2.2.2.2.2.2.2.1 x rest hx, hr⟩
  · intro b h
    obtain ⟨x, rest, hx, hr⟩ := work_sendOut_head st opt ctrl s b hg h
    exact ⟨(work_sendOut_sched st opt ctrl s b h).1, x, rest, hx,
      (loopHead_fields s).2.2.2.2.2.2.2.2.2 x rest hx, hr⟩
  · intro ev b hq ho h
    exact work_other_lists st opt ctrl s b ev hq ho h
  · intro evs b h
    exact run_guarded st opt ctrl evs s b hg h

/-- Witness of C15: the state in which `work` starts is guarded and its send to
the wait queue is blocked; from a state with two waiting items, two sends hand
them over in the order of the list. -/
theorem work_guarded_handoff_witness :
    (Sched.init ({} : MemStore)).Guarded ∧
    work memStore demoOpt (constCtrl false 0 0) (Sched.init {}) Event.SendQueue
      = Outcome.blocked ∧
    ((run memStore demoOpt (constCtrl false 0 0) handoffSched
        [Event.SendQueue, Event.SendOut, Event.SendQueue]).sched.map
      (fun b => (b.pqSent, b.waiting, b.outSent, b.outURLs)))
      = some (handoffSched.waiting, [], [some seedURL], []) :=
  ⟨⟨fun h => (nomatch h), fun h => (nomatch h)⟩,
    (work_guarded_handoff memStore demoOpt (constCtrl false 0 0) (Sched.init {})
      ⟨fun h => (nomatch h), fun h => (nomatch h)⟩).1 rfl,
    by decide⟩

/-! ### The error count -/

theorem MemStore.errorCount_Get (m : MemStore) (u v : URL) :
    (m.Get u).1.errorCount v = m.errorCount v := by
  rw [MemStore.errorCount_eq, MemStore.errorCount_eq, MemStore.recordOf_Get]

theorem MemStore.errorCount_Update (m : MemStore) (r : URLRecord) (v : URL) :
    (m.Update r).1.errorCount v = if v = r.Loc then r.ErrorCount else m.errorCount v := by
  unfold MemStore.errorCount
  rw [MemStore.find_Update]
  by_cases hv : v = r.Loc
  · simp only [hv, if_true]
  · simp only [hv, if_false]

theorem MemStore.errorCount_UpdateStatus (m : MemStore) (u v : URL) (status : Status) :
    (m.UpdateStatus u status).1.errorCount v = m.errorCount v := by
  unfold MemStore.errorCount
  rw [MemStore.find_UpdateStatus]
  by_cases hv : v = u
  · simp only [hv, if_true]
    cases m.find u <;> rfl
  · simp only [hv, if_false]

theorem schedDecide_errorCount (opt : Config) (ctrl : Controller) (m : MemStore)
    (uu : URLRecord) (ctx : Context) (u v : URL) :
    (schedDecide memStore opt ctrl m uu ctx u).1.errorCount v = m.errorCount v := by
  obtain ⟨m1, item, h, -, hm⟩ := schedDecide_mem opt ctrl m uu ctx u
  rw [h]
  simp only [hm]
  split
  · exact MemStore.errorCount_UpdateStatus m u v URLStatusFinished
  · rfl

theorem schedURL_errorCount (opt : Config) (ctrl : Controller) (m : MemStore)
    (r : Option Response) (u : URL) (typ : URLType)
    (res : MemStore × Option Item × Bool × Option GoError)
    (h : schedURL memStore opt ctrl m r u typ = some res) (v : URL) :
    res.1.errorCount v = m.errorCount v := by
  by_cases ht : typ = URLTypeResponse
  · subst ht
    cases r with
    | none =>
      have hg : memStore.Get m u = ((m.Get u).1, some (m.recordOf u), none) :=
        MemStore.Get_eq m u
      simp only [schedURL, hg] at h
      exact absurd h (by simp)
    | some resp =>
      rw [schedURL_mem_response] at h
      rw [← Option.some.inj h, schedDecide_errorCount, MemStore.errorCount_Update]
      by_cases hv : v = u
      · subst hv
        simp only [recordUsed, MemStore.recordOf_loc, if_true]
        rw [MemStore.errorCount_eq]
      · have hl : (recordUsed URLTypeResponse (some resp) (m.recordOf u)).Loc = u := by
          simp only [recordUsed, MemStore.recordOf_loc]
        rw [hl, if_neg hv, MemStore.errorCount_Get]
  · rw [schedURL_mem_other opt ctrl m r u typ ht] at h
    rw [← Option.some.inj h, schedDecide_errorCount, MemStore.errorCount_Get]

theorem schedLinks_errorCount (opt : Config) (ctrl : Controller) (resp : Response) :
    ∀ (links : List URL) (a b : Sched MemStore) (e : Option GoError),
    schedLinks memStore opt ctrl resp links a = some (b, e) →
    ∀ v, b.store.errorCount v = a.store.errorCount v := by
  intro links
  induction links with
  | nil =>
    intro a b e h v
    simp only [schedLinks, Option.some.injEq, Prod.mk.injEq] at h
    rw [← h.1]
  | cons link rest ih =>
    intro a b e h v
    unfold schedLinks at h
    generalize hr : schedURL memStore opt ctrl a.store (some resp) link URLTypeNew = r at h
    cases r with
    | none => simp at h
    | some r =>
      have hc := schedURL_errorCount opt ctrl a.store (some resp) link URLTypeNew r hr v
      obtain ⟨s1, item, done, err⟩ := r
      cases err with
      | some err =>
        simp only [Option.some.injEq, Prod.mk.injEq] at h
        rw [← h.1]
        exact hc
      | none =>
        cases done with
        | false => exact (ih _ b e h v).trans hc
        | true => exact (ih _ b e h v).trans hc

theorem afterSelect_mem_store (a b : Sched MemStore)
    (h : (afterSelect memStore a).sched = some b) : b = a := by
  rw [afterSelect_mem] at h
  exact (Option.some.inj h).symm

theorem work_errorCount_other (opt : Config) (ctrl : Controller) (s b : Sched MemStore)
    (ev : Event) (hne : ∀ u now, ev ≠ Event.ErrIn u now)
    (h : (work memStore opt ctrl s ev).sched = some b) (v : URL) :
    b.store.errorCount v = s.store.errorCount v := by
  unfold work at h
  rw [← loopHead_store s]
  generalize loopHead s = a at h ⊢
  cases ev with
  | NewIn u =>
    simp only [workSelect] at h
    generalize hr : schedURL memStore opt ctrl a.store none u URLTypeSeed = r at h
    cases r with
    | none => exact absurd h (by simp [Outcome.sched])
    | some r =>
      have hc := schedURL_errorCount opt ctrl a.store none u URLTypeSeed r hr v
      obtain ⟨s1, item, done, err⟩ := r
      cases err <;>
      · have hb := Option.some.inj h
        subst hb
        exact hc
  | RecoverIn u =>
    simp only [workSelect] at h
    generalize hr : schedURL memStore opt ctrl a.store none u URLTypeRecover = r at h
    cases r with
    | none => exact absurd h (by simp [Outcome.sched])
    | some r =>
      have hc := schedURL_errorCount opt ctrl a.store none u URLTypeRecover r hr v
      obtain ⟨s1, item, done, err⟩ := r
      cases err with
      | some err =>
        cases done <;>
        · have hb := Option.some.inj h
          subst hb
          exact hc
      | none =>
        cases done with
        | false =>
          have hb := Option.some.inj h
          subst hb
          exact hc
        | true =>
          rw [afterSelect_mem_store _ b h]
          exact hc
  | ResIn resp =>
    simp only [workSelect] at h
    generalize hl : schedLinks memStore opt ctrl resp resp.links
      { a with store := (memStore.IncVisitCount a.store).1 } = r at h
    cases r with
    | none => exact absurd h (by simp [Outcome.sched])
    | some r =>
      obtain ⟨s1, e⟩ := r
      have e1 : s1.store.errorCount v = a.store.errorCount v :=
        schedLinks_errorCount opt ctrl resp _ _ _ _ hl v
      cases e with
      | some err =>
        have hb := Option.some.inj h
        subst hb
        exact e1
      | none =>
        simp only at h
        generalize hr : schedURL memStore opt ctrl s1.store (some resp) resp.URL
          URLTypeResponse = r2 at h
        cases r2 with
        | none => exact absurd h (by simp [Outcome.sched])
        | some r2 =>
          have hc := schedURL_errorCount opt ctrl s1.store (some resp) resp.URL
            URLTypeResponse r2 hr v
          obtain ⟨s2, item, done, err⟩ := r2
          cases err with
          | some err =>
            cases done <;>
            · have hb := Option.some.inj h
              subst hb
              exact hc.trans e1
          | none =>
            cases done with
            | false =>
              have hb := Option.some.inj h
              subst hb
              exact hc.trans e1
            | true =>
              rw [afterSelect_mem_store _ b h]
              exact hc.trans e1
  | DoneIn u =>
    simp only [workSelect] at h
    rw [afterSelect_mem_store _ b h]
    exact MemStore.errorCount_UpdateStatus a.store u v URLStatusFinished
  | ErrIn u now => exact absurd rfl (hne u now)
  | PqOut u =>
    cases u with
    | none =>
      have hb := Option.some.inj h
      subst hb
      rfl
    | some u =>
      simp only [workSelect] at h
      rw [afterSelect_mem_store _ b h]
  | SendQueue =>
    simp only [workSelect] at h
    by_cases hq : a.queueIn = true
    · simp only [hq, if_true] at h
      rw [afterSelect_mem_store _ b h]
    · simp only [hq] at h
      exact absurd h (by simp [Outcome.sched])
  | SendOut =>
    simp only [workSelect] at h
    by_cases hq : a.output = true
    · simp only [hq, if_true] at h
      rw [afterSelect_mem_store _ b h]
    · simp only [hq] at h
      exact absurd h (by simp [Outcome.sched])
  | PqErr err =>
    cases err <;>
    · have hb := Option.some.inj h
      subst hb
      rfl
  | Done =>
    have hb := Option.some.inj h
    subst hb
    rfl
  | Quit =>
    have hb := Option.some.inj h
    subst hb
    rfl

theorem MemStore.recordOf_Get_Update (m : MemStore) (u v : URL) (r : URLRecord)
    (hr : r.Loc = u) :
    ((m.Get u).1.Update r).1.recordOf v = if v = u then r else m.recordOf v := by
  have hf := MemStore.find_Update (m.Get u).1 r v
  rw [hr] at hf
  by_cases hv : v = u
  · rw [if_pos hv] at hf
    rw [if_pos hv]
    exact MemStore.recordOf_of_find hf
  · rw [if_neg hv, MemStore.find_Get, if_neg hv] at hf
    rw [if_neg hv]
    unfold MemStore.recordOf
    rw [hf]

theorem incErr_recordOf (m : MemStore) (u v : URL) :
    (((m.Get u).1.Update
      { m.recordOf u with ErrorCount := wrapInt ((m.recordOf u).ErrorCount + 1) }).1).recordOf v =
      if v = u then { m.recordOf u with ErrorCount := wrapInt ((m.recordOf u).ErrorCount + 1) }
      else m.recordOf v :=
  MemStore.recordOf_Get_Update m u v _ (MemStore.recordOf_loc m u)

theorem work_errorCount_errIn (opt : Config) (ctrl : Controller) (s b : Sched MemStore)
    (u : URL) (now : Time) (h : (work memStore opt ctrl s (Event.ErrIn u now)).sched = some b)
    (v : URL) :
    b.store.errorCount v =
      if v = u then wrapInt (s.store.errorCount u + 1) else s.store.errorCount v := by
  have hrec := incErr_recordOf s.store u v
  have hcnt : (((s.store.Get u).1.Update
      { s.store.recordOf u with
        ErrorCount := wrapInt ((s.store.recordOf u).ErrorCount + 1) }).1).errorCount v
      = if v = u then wrapInt (s.store.errorCount u + 1) else s.store.errorCount v := by
    rw [MemStore.errorCount_eq, hrec, MemStore.errorCount_eq, MemStore.errorCount_eq]
    by_cases hv : v = u
    · simp only [hv, if_true]
    · simp only [hv, if_false]
  simp only [work, workSelect, loopHead_store, incErrCount_mem] at h
  by_cases hc : (s.store.recordOf u).ErrorCount ≥ opt.MaxRetry
  · simp only [hc, if_true] at h
    rw [afterSelect_mem_store _ b h]
    show (MemStore.UpdateStatus _ u URLStatusError).1.errorCount v = _
    rw [MemStore.errorCount_UpdateStatus, hcnt]
  · simp only [hc, if_false] at h
    have hb := Option.some.inj h
    subst hb
    exact hcnt

/-- Counterexample to C16 as stated: the error count is a Go `int`. With the
record of `u` at the largest count, an error notification stores the smallest
count: the count is not one more than before, and it has decreased. -/
theorem errorCount_wrap_counterexample :
    (work memStore demoOpt (constCtrl false 0 0)
        { store := { recs := [{ Loc := seedURL, ErrorCount := maxInt }] } }
        (Event.ErrIn seedURL 100)).sched.map (fun b => b.store.errorCount seedURL)
      = some minInt ∧
    minInt ≠ maxInt + 1 ∧ minInt < maxInt := by
  decide

/-- C16 as amended (error notification). An error notification for `u` always
leaves a state, in which the stored error count of `u` is the Go `int`
increment of the count before and every other count is the same; when the
count before is below the largest `int`, it is one more than before. An event
that is not an error notification for `v` leaves the count of `v` as it was,
so a count below the largest `int` is never decreased. When the count before
the notification is below `MaxRetry`, the loop continues, the status of every
record is the one it had, and exactly one item is appended to the waiting
list, with URL `u`, Next the current time plus the retry delay and the score
of a new item; nothing is handed over. The outcome is the same under any
policy. -/
theorem work_errIn_notification (opt : Config) (ctrl : Controller) (s : Sched MemStore)
    (u : URL) (now : Time)
    (hlo : minInt ≤ s.store.errorCount u) (hhi : s.store.errorCount u < maxInt) :
    (∃ b, (work memStore opt ctrl s (Event.ErrIn u now)).sched = some b) ∧
    (∀ b v, (work memStore opt ctrl s (Event.ErrIn u now)).sched = some b →
      b.store.errorCount v = s.store.errorCount v + (if v = u then 1 else 0)) ∧
    (∀ ev b v, (work memStore opt ctrl s ev).sched = some b →
      ((∀ now1, ev ≠ Event.ErrIn v now1) → b.store.errorCount v = s.store.errorCount v) ∧
      (minInt ≤ s.store.errorCount v → s.store.errorCount v < maxInt →
        s.store.errorCount v ≤ b.store.errorCount v)) ∧
    (s.store.errorCount u < opt.MaxRetry →
      ∃ s1, work memStore opt ctrl s (Event.ErrIn u now) = Outcome.continue s1 ∧
        s1.waiting = s.waiting ++
          [some { URL := some u, Next := now + opt.RetryDuration, Score := NewItem.Score }] ∧
        (∀ v, (s1.store.recordOf v).Status = (s.store.recordOf v).Status) ∧
        s1.outURLs = s.outURLs ∧ s1.pqSent = s.pqSent ∧ s1.outSent = s.outSent) ∧
    (∀ ctrl1, work memStore opt ctrl1 s (Event.ErrIn u now)
      = work memStore opt ctrl s (Event.ErrIn u now)) := by
  refine ⟨?_, ?_, ?_, ?_, ?_⟩
  · by_cases hc : s.store.errorCount u < opt.MaxRetry
    · obtain ⟨s1, h1, -⟩ := work_errIn_below opt ctrl s u now hc
      exact ⟨s1, by rw [h1]; rfl⟩
    · obtain ⟨s2, h2, -⟩ := work_errIn_cap opt ctrl s u now (not_lt.mp hc)
      exact ⟨s2, h2⟩
  · intro b v h
    rw [work_errorCount_errIn opt ctrl s b u now h v]
    by_cases hv : v = u
    · rw [if_pos hv, if_pos hv, hv, wrapInt_of_range _ (by omega) (by omega)]
    · rw [if_neg hv, if_neg hv, add_zero]
  · intro ev b v h
    by_cases he : ∃ u1 now1, ev = Event.ErrIn u1 now1
    · obtain ⟨u1, now1, rfl⟩ := he
      have hb := work_errorCount_errIn opt ctrl s b u1 now1 h v
      by_cases hv : v = u1
      · subst hv
        rw [if_pos rfl] at hb
        refine ⟨fun hne => absurd rfl (hne now1), fun h1 h2 => ?_⟩
        rw [hb, wrapInt_of_range _ (by omega) (by omega)]
        omega
      · rw [if_neg hv] at hb
        exact ⟨fun _ => hb, fun _ _ => le_of_eq hb.symm⟩
    · have hb := work_errorCount_other opt ctrl s b ev
        (fun u1 now1 hh => he ⟨u1, now1, hh⟩) h v
      exact ⟨fun _ => hb, fun _ _ => le_of_eq hb.symm⟩
  · intro hc
    have hlt : ¬ (s.store.recordOf u).ErrorCount ≥ opt.MaxRetry := by
      rw [← MemStore.errorCount_eq]
      exact not_le.mpr hc
    obtain ⟨-, lo, lp, ls, -⟩ := loopHead_fields s
    refine ⟨{ loopHead s with
        store := ((s.store.Get u).1.Update
          { s.store.recordOf u with
            ErrorCount := wrapInt ((s.store.recordOf u).ErrorCount + 1) }).1,
        waiting := (loopHead s).waiting ++
          [some ⟨some u, now + opt.RetryDuration, NewItem.Score⟩] }, ?_, ?_, ?_, lo, lp, ls⟩
    · simp only [work, workSelect, loopHead_store, incErrCount_mem, hlt, if_false]
    · simp only [loopHead_waiting]
    · intro v
      show ((((s.store.Get u).1.Update
        { s.store.recordOf u with
          ErrorCount := wrapInt ((s.store.recordOf u).ErrorCount + 1) }).1).recordOf
          v).Status = _
      rw [incErr_recordOf]
      by_cases hv : v = u
      · rw [if_pos hv, hv]
      · rw [if_neg hv]
  · intro ctrl1
    rfl

/-- Witness of C16 as amended: a fresh store and a first error notification,
below the cap `MaxRetry = 1`: the count becomes 1. -/
theorem work_errIn_notification_witness :
    minInt ≤ ({} : MemStore).errorCount seedURL ∧
    ({} : MemStore).errorCount seedURL < maxInt ∧
    ∃ b, (work memStore demoOpt (constCtrl false 0 0) { store := {} }
      (Event.ErrIn seedURL 100)).sched = some b :=
  ⟨by decide, by decide,
    (work_errIn_notification demoOpt (constCtrl false 0 0) { store := {} } seedURL 100
      (by decide) (by decide)).1⟩

/-! ### The shape of a cleaned path -/

theorem joinByte_snoc : ∀ (L : List Str) (e : Str), L ≠ [] →
    joinByte 47 (L ++ [e]) = joinByte 47 L ++ 47 :: e
  | [], _, h => absurd rfl h
  | [a], e, _ => by simp [joinByte]
  | a :: b :: t, e, _ => by
    have ih := joinByte_snoc (b :: t) e (by simp)
    simp only [List.cons_append] at ih ⊢
    simp only [joinByte, ih, List.append_assoc, List.cons_append]

theorem cleanBuf_snoc (rooted : Bool) (L : List Str) (e : Str) :
    cleanBuf rooted (L ++ [e]) = cleanBuf rooted L ++ (if L = [] then e else 47 :: e) := by
  unfold cleanBuf
  by_cases hL : L = []
  · subst hL
    simp [joinByte]
  · rw [joinByte_snoc L e hL, if_neg hL, List.append_assoc]

theorem cleanBuf_length_snoc (rooted : Bool) (L : List Str) (e : Str) (he : e ≠ []) :
    (cleanBuf rooted L).length < (cleanBuf rooted (L ++ [e])).length := by
  have hpos : 0 < e.length := List.length_pos.mpr he
  rw [cleanBuf_snoc]
  by_cases hL : L = []
  · simp only [hL, if_true, List.length_append]
    omega
  · simp only [hL, if_false, List.length_append, List.length_cons]
    omega

theorem cleanBuf_length_mono (rooted : Bool) (L : List Str) : ∀ (M : List Str),
    (cleanBuf rooted L).length ≤ (cleanBuf rooted (L ++ M)).length := by
  intro M
  induction M using List.reverseRecOn with
  | nil => simp
  | append_singleton M e ih =>
    rw [← List.append_assoc, cleanBuf_snoc]
    simp only [List.length_append]
    omega

theorem cleanBuf_length_lt (rooted : Bool) (L M : List Str) (hM : M ≠ [])
    (hne : ∀ e ∈ M, e ≠ []) : (cleanBuf rooted L).length < (cleanBuf rooted (L ++ M)).length := by
  rcases List.eq_nil_or_concat M with h | ⟨M1, e, rfl⟩
  · exact absurd h hM
  · have he : e ≠ [] := hne e (by simp)
    have h1 := cleanBuf_length_mono rooted L M1
    have h2 := cleanBuf_length_snoc rooted (L ++ M1) e he
    simp only [List.concat_eq_append, ← List.append_assoc]
    omega

theorem backtrack_slash (d : Nat) (S : List Nat) (hS : d ≤ S.length) : ∀ (l : List Nat),
    (∀ b ∈ l, b ≠ 47) → backtrack d (l ++ 47 :: S) = S
  | [], _ => by simp [backtrack]
  | b :: l, h => by
    have hb : b ≠ 47 := h b (by simp)
    have hlen : (l ++ 47 :: S).length > d := by simp; omega
    show backtrack d (b :: (l ++ 47 :: S)) = S
    rw [backtrack, if_pos ⟨hlen, hb⟩]
    exact backtrack_slash d S hS l (fun x hx => h x (by simp [hx]))

theorem backtrack_base (d : Nat) (S : List Nat) (hS : S.length = d) : ∀ (l : List Nat),
    l ≠ [] → (∀ b ∈ l, b ≠ 47) → backtrack d (l ++ S) = S
  | [], hne, _ => absurd rfl hne
  | [b], _, _ => by
    show backtrack d (b :: S) = S
    rw [backtrack, if_neg (by omega)]
  | b :: c :: l, _, h => by
    have hb : b ≠ 47 := h b (by simp)
    have hlen : (c :: l ++ S).length > d := by simp; omega
    show backtrack d (b :: (c :: l ++ S)) = S
    rw [backtrack, if_pos ⟨hlen, hb⟩]
    exact backtrack_base d S hS (c :: l) (by simp) (fun x hx => h x (by simp [hx]))

theorem takeWhile_eq_nil (rest : Str)
    (h : rest.takeWhile (fun b => decide (b ≠ 47)) = []) :
    rest = [] ∨ rest.head? = some 47 := by
  cases rest with
  | nil => exact Or.inl rfl
  | cons r rs =>
    right
    by_cases hr : r = 47
    · simp [hr]
    · simp [List.takeWhile_cons, hr] at h

theorem takeWhile_elem (c : Nat) (rest : Str) (h1 : c ≠ 47)
    (h2 : ¬ (c = 46 ∧ (rest = [] ∨ rest.head? = some 47)))
    (h3 : ¬ (c = 46 ∧ rest.head? = some 46 ∧
      (rest.drop 1 = [] ∨ (rest.drop 1).head? = some 47))) :
    IsElem ((c :: rest).takeWhile (fun b => decide (b ≠ 47))) ∧
    (c :: rest).takeWhile (fun b => decide (b ≠ 47)) ≠ [46, 46] := by
  have hc : (c :: rest).takeWhile (fun b => decide (b ≠ 47)) =
      c :: rest.takeWhile (fun b => decide (b ≠ 47)) := by
    simp [List.takeWhile_cons, h1]
  refine ⟨⟨?_, ?_, ?_⟩, ?_⟩
  · rw [hc]
    exact List.cons_ne_nil _ _
  · intro b hb
    have := List.mem_takeWhile_imp hb
    simpa using this
  · rw [hc]
    intro he
    have h46 : c = 46 := (List.cons.inj he).1
    exact h2 ⟨h46, takeWhile_eq_nil rest (List.cons.inj he).2⟩
  · rw [hc]
    intro he
    have h46 : c = 46 := (List.cons.inj he).1
    have ht := (List.cons.inj he).2
    cases rest with
    | nil => simp at ht
    | cons r rs =>
      by_cases hr : r = 47
      · simp [List.takeWhile_cons, hr] at ht
      · simp only [List.takeWhile_cons, ne_eq, hr, not_false_eq_true, decide_True, if_true] at ht
        have hr46 : r = 46 := (List.cons.inj ht).1
        exact h3 ⟨h46, by simp [hr46], by simpa using takeWhile_eq_nil rs (List.cons.inj ht).2⟩

theorem cleanBuf_nil_length (rooted : Bool) :
    (cleanBuf rooted []).length = if rooted then 1 else 0 := by
  cases rooted <;> rfl

theorem cleanLoop_shape (rooted : Bool) : ∀ (fuel : Nat) (path : Str) (D names : List Str)
    (out : List Nat) (dotdot : Nat),
    (∀ d ∈ D, d = [46, 46]) → (rooted = true → D = []) →
    (∀ n ∈ names, IsElem n ∧ n ≠ [46, 46]) →
    out = (cleanBuf rooted (D ++ names)).reverse → dotdot = (cleanBuf rooted D).length →
    ∃ D1 names1, (∀ d ∈ D1, d = [46, 46]) ∧ (rooted = true → D1 = []) ∧
      (∀ n ∈ names1, IsElem n ∧ n ≠ [46, 46]) ∧
      cleanLoop rooted fuel path out dotdot = (cleanBuf rooted (D1 ++ names1)).reverse := by
  intro fuel
  induction fuel with
  | zero =>
    intro path D names out dotdot hD hr hn ho hd
    exact ⟨D, names, hD, hr, hn, ho⟩
  | succ n ih =>
    intro path D names out dotdot hD hr hn ho hd
    cases path with
    | nil => exact ⟨D, names, hD, hr, hn, ho⟩
    | cons c rest =>
      rw [cleanLoop_succ]
      by_cases h1 : c = 47
      · rw [if_pos h1]
        exact ih rest D names out dotdot hD hr hn ho hd
      · rw [if_neg h1]
        by_cases h2 : c = 46 ∧ (rest = [] ∨ rest.head? = some 47)
        · rw [if_pos h2]
          exact ih rest D names out dotdot hD hr hn ho hd
        · rw [if_neg h2]
          have hDne : ∀ e ∈ D, e ≠ [] := fun e he => by rw [hD e he]; simp
          have hnne : ∀ e ∈ names, e ≠ [] := fun e he => (hn e he).1.1
          by_cases h3 : c = 46 ∧ rest.head? = some 46 ∧
              (rest.drop 1 = [] ∨ (rest.drop 1).head? = some 47)
          · rw [if_pos h3]
            by_cases hn0 : names = []
            · subst hn0
              have hlen : ¬ out.length > dotdot := by
                rw [ho, hd, List.append_nil, List.length_reverse]
                omega
              rw [if_neg hlen]
              cases rooted with
              | true =>
                rw [if_neg (by decide)]
                exact ih _ D [] out dotdot hD hr hn ho hd
              | false =>
                rw [if_pos (by decide)]
                refine ih _ (D ++ [[46, 46]]) [] _ _ ?_ (fun h => nomatch h) (fun _ h => nomatch h)
                  ?_ ?_
                · intro d hd1
                  rcases List.mem_append.mp hd1 with hd2 | hd2
                  · exact hD d hd2
                  · simpa using hd2
                · rw [ho, List.append_nil, List.append_nil, cleanBuf_snoc]
                  by_cases hD0 : D = []
                  · subst hD0
                    rfl
                  · have hpos : 0 < (cleanBuf false D).length := by
                      have := cleanBuf_length_lt false [] D hD0 hDne
                      simp only [List.nil_append] at this
                      omega
                    simp [hD0, hpos]
                · rw [ho, List.append_nil, cleanBuf_snoc]
                  by_cases hD0 : D = []
                  · subst hD0
                    rfl
                  · have hpos : 0 < (cleanBuf false D).length := by
                      have := cleanBuf_length_lt false [] D hD0 hDne
                      simp only [List.nil_append] at this
                      omega
                    simp [hD0, hpos]
            · rcases List.eq_nil_or_concat names with hnil | ⟨ns, e, hne⟩
              · exact absurd hnil hn0
              · rw [List.concat_eq_append] at hne
                subst hne
                have he : IsElem e := (hn e (by simp)).1
                have hlen : out.length > dotdot := by
                  rw [ho, hd, List.length_reverse]
                  exact cleanBuf_length_lt rooted D (ns ++ [e]) (by simp) hnne
                rw [if_pos hlen]
                have hb : backtrack dotdot out = (cleanBuf rooted (D ++ ns)).reverse := by
                  rw [ho, ← List.append_assoc, cleanBuf_snoc]
                  have hrev : ∀ b ∈ e.reverse, b ≠ 47 := fun b hb =>
                    he.2.1 b (List.mem_reverse.mp hb)
                  by_cases hL : D ++ ns = []
                  · rw [if_pos hL, List.reverse_append]
                    have hD0 : D = [] := (List.append_eq_nil.mp hL).1
                    apply backtrack_base dotdot _ _ e.reverse (by simpa using he.1) hrev
                    rw [hd, hL, hD0, List.length_reverse]
                  · rw [if_neg hL]
                    have e1 : (cleanBuf rooted (D ++ ns) ++ 47 :: e).reverse =
                        e.reverse ++ 47 :: (cleanBuf rooted (D ++ ns)).reverse := by
                      simp
                    rw [e1]
                    apply backtrack_slash dotdot _ _ e.reverse hrev
                    rw [hd, List.length_reverse]
                    exact cleanBuf_length_mono rooted D ns
                rw [hb]
                exact ih _ D ns _ dotdot hD hr
                  (fun x hx => hn x (List.mem_append.mpr (Or.inl hx))) rfl hd
          · rw [if_neg h3]
            obtain ⟨hel, hdd⟩ := takeWhile_elem c rest h1 h2 h3
            refine ih _ D (names ++ [(c :: rest).takeWhile (fun b => decide (b ≠ 47))]) _ dotdot
              hD hr ?_ ?_ hd
            · intro x hx
              rcases List.mem_append.mp hx with hx1 | hx1
              · exact hn x hx1
              · rw [List.mem_singleton.mp hx1]
                exact ⟨hel, hdd⟩
            · rw [← List.append_assoc, cleanBuf_snoc, ho]
              by_cases hL : D ++ names = []
              · have hlen : (cleanBuf rooted (D ++ names)).reverse.length =
                    if rooted then 1 else 0 := by
                  rw [List.length_reverse, hL, cleanBuf_nil_length]
                rw [if_pos hL]
                cases rooted <;> simp [hlen]
              · have hlt : (cleanBuf rooted []).length <
                    (cleanBuf rooted (D ++ names)).length := by
                  have := cleanBuf_length_lt rooted [] (D ++ names) hL (fun x hx => by
                    rcases List.mem_append.mp hx with hx1 | hx1
                    · exact hDne x hx1
                    · exact hnne x hx1)
                  simpa using this
                rw [cleanBuf_nil_length] at hlt
                rw [if_neg hL]
                cases rooted with
                | true =>
                  have h1 : (cleanBuf true (D ++ names)).length ≠ 1 := by
                    simp only [if_true] at hlt
                    omega
                  simp [h1]
                | false =>
                  have h0 : (cleanBuf false (D ++ names)).length ≠ 0 := by
                    simp only [Bool.false_eq_true, if_false] at hlt
                    omega
                  simp [h0]

/-- The shape of `path.Clean(path)`: the elements `L` it keeps are not empty,
have no slash and are not `.`; a rooted path keeps no `..` and is the root
slash followed by the elements joined by slashes; another path is `.` when
nothing is kept, else the elements joined by slashes. -/
theorem Clean_shape (path : Str) :
    ∃ L : List Str, (∀ e ∈ L, IsElem e) ∧
      (path.head? = some 47 → ∀ e ∈ L, e ≠ [46, 46]) ∧
      Clean path =
        if path.head? = some 47 then 47 :: joinByte 47 L
        else if L = [] then [46] else joinByte 47 L := by
  unfold Clean
  by_cases hp : path = []
  · subst hp
    exact ⟨[], (fun _ h => nomatch h), (fun _ _ h => nomatch h), by simp⟩
  · rw [if_neg hp]
    by_cases hr : path.head? = some 47
    · obtain ⟨D1, names1, hD1, hr1, hn1, heq⟩ :=
        cleanLoop_shape true path.length (path.drop 1) [] [] [47] 1
          (fun _ h => nomatch h) (fun _ => rfl) (fun _ h => nomatch h) rfl rfl
      have hD0 : D1 = [] := hr1 rfl
      subst hD0
      refine ⟨names1, fun e he => (hn1 e he).1, fun _ e he => (hn1 e he).2, ?_⟩
      simp only [hr, decide_True, if_true, heq, List.length_reverse, List.reverse_reverse,
        List.nil_append]
      simp [cleanBuf]
    · obtain ⟨D1, names1, hD1, -, hn1, heq⟩ :=
        cleanLoop_shape false path.length path [] [] [] 0
          (fun _ h => nomatch h) (fun h => nomatch h) (fun _ h => nomatch h) rfl rfl
      refine ⟨D1 ++ names1, ?_, fun h => absurd h hr, ?_⟩
      · intro e he
        rcases List.mem_append.mp he with h1 | h1
        · rw [hD1 e h1]
          exact ⟨by simp, by simp, by simp⟩
        · exact (hn1 e h1).1
      · have hne : ∀ e ∈ D1 ++ names1, e ≠ [] := by
          intro e he
          rcases List.mem_append.mp he with h1 | h1
          · rw [hD1 e h1]
            simp
          · exact (hn1 e h1).1.1
        simp only [hr, decide_False, Bool.false_eq_true, if_false, heq, List.length_reverse,
          List.reverse_reverse]
        by_cases hL : D1 ++ names1 = []
        · rw [hL]
          simp [cleanBuf, joinByte]
        · have hlt := cleanBuf_length_lt false [] (D1 ++ names1) hL hne
          simp only [List.nil_append, cleanBuf_nil_length, Bool.false_eq_true, if_false] at hlt
          rw [if_neg (by omega), if_neg hL]
          simp [cleanBuf]

theorem splitByte_ne_nil (sep : Nat) : ∀ (s : Str), splitByte sep s ≠ []
  | [] => by simp [splitByte]
  | c :: rest => by
    have ih := splitByte_ne_nil sep rest
    unfold splitByte
    split
    · simp
    · cases h : splitByte sep rest with
      | nil => exact absurd h ih
      | cons l ls => simp

theorem splitByte_noSep : ∀ (e : Str), (∀ b ∈ e, b ≠ 47) → splitByte 47 e = [e]
  | [], _ => rfl
  | c :: rest, h => by
    have hc : c ≠ 47 := h c (by simp)
    have ih := splitByte_noSep rest (fun b hb => h b (by simp [hb]))
    unfold splitByte
    rw [if_neg hc, ih]

theorem splitByte_cons (sep c : Nat) (rest : Str) :
    splitByte sep (c :: rest) =
      if c = sep then [] :: splitByte sep rest
      else
        match splitByte sep rest with
        | [] => [[c]]
        | l :: ls => (c :: l) :: ls := rfl

theorem joinByte_cons_cons (sep : Nat) (a b : Str) (t : List Str) :
    joinByte sep (a :: b :: t) = a ++ sep :: joinByte sep (b :: t) := rfl

theorem splitByte_append_sep : ∀ (a b : Str),
    splitByte 47 (a ++ 47 :: b) = splitByte 47 a ++ splitByte 47 b
  | [], b => by simp [splitByte]
  | c :: a, b => by
    have ih := splitByte_append_sep a b
    rw [List.cons_append, splitByte_cons, splitByte_cons, ih]
    by_cases hc : c = 47
    · rw [if_pos hc, if_pos hc]
      rfl
    · obtain ⟨l, ls, hl⟩ := List.exists_cons_of_ne_nil (splitByte_ne_nil 47 a)
      rw [if_neg hc, if_neg hc, hl]
      rfl

theorem splitByte_joinByte : ∀ (L : List Str), L ≠ [] → (∀ e ∈ L, ∀ b ∈ e, b ≠ 47) →
    splitByte 47 (joinByte 47 L) = L
  | [], h, _ => absurd rfl h
  | [e], _, h => by
    simp only [joinByte]
    exact splitByte_noSep e (h e (by simp))
  | e :: e1 :: t, _, h => by
    have ih := splitByte_joinByte (e1 :: t) (by simp) (fun x hx => h x (by simp [hx]))
    rw [joinByte_cons_cons, splitByte_append_sep, splitByte_noSep e (h e (by simp)), ih]
    rfl

theorem hasDoubleSlash_cons (c : Nat) (t : Str) (hc : c ≠ 47) :
    hasDoubleSlash (c :: t) = hasDoubleSlash t := by
  cases t with
  | nil => rfl
  | cons b r => simp [hasDoubleSlash, hc]

theorem hasDoubleSlash_append : ∀ (e t : Str), (∀ b ∈ e, b ≠ 47) →
    hasDoubleSlash (e ++ t) = hasDoubleSlash t
  | [], _, _ => rfl
  | c :: e, t, h => by
    rw [List.cons_append, hasDoubleSlash_cons c _ (h c (by simp))]
    exact hasDoubleSlash_append e t (fun b hb => h b (by simp [hb]))

theorem hasDoubleSlash_slash (e t : Str) (he : e ≠ []) (h : ∀ b ∈ e, b ≠ 47) :
    hasDoubleSlash (47 :: (e ++ t)) = hasDoubleSlash t := by
  cases e with
  | nil => exact absurd rfl he
  | cons c e =>
    have hc : c ≠ 47 := h c (by simp)
    rw [← hasDoubleSlash_append (c :: e) t h]
    simp [hasDoubleSlash, hc]

theorem hasDoubleSlash_joinByte : ∀ (L : List Str) (t : Str), L ≠ [] →
    (∀ e ∈ L, e ≠ [] ∧ ∀ b ∈ e, b ≠ 47) →
    hasDoubleSlash (joinByte 47 L ++ t) = hasDoubleSlash t ∧
    hasDoubleSlash (47 :: (joinByte 47 L ++ t)) = hasDoubleSlash t
  | [], _, h, _ => absurd rfl h
  | [e], t, _, h => by
    simp only [joinByte]
    exact ⟨hasDoubleSlash_append e t (h e (by simp)).2,
      hasDoubleSlash_slash e t (h e (by simp)).1 (h e (by simp)).2⟩
  | e :: e1 :: r, t, _, h => by
    have ih := hasDoubleSlash_joinByte (e1 :: r) t (by simp) (fun x hx => h x (by simp [hx]))
    have he := h e (by simp)
    rw [joinByte_cons_cons, List.append_assoc, List.cons_append]
    constructor
    · rw [hasDoubleSlash_append e _ he.2]
      exact ih.2
    · rw [hasDoubleSlash_slash e _ he.1 he.2]
      exact ih.2

theorem segments_joinByte (L : List Str) (hL : ∀ e ∈ L, ∀ b ∈ e, b ≠ 47) :
    ∀ x ∈ segments (joinByte 47 L), x = [] ∨ x ∈ L := by
  intro x hx
  unfold segments at hx
  by_cases h0 : L = []
  · subst h0
    left
    simpa [joinByte, splitByte] using hx
  · rw [splitByte_joinByte L h0 hL] at hx
    exact Or.inr hx

theorem segments_slash_cons (p : Str) : segments (47 :: p) = [] :: segments p := by
  unfold segments
  rw [splitByte_cons, if_pos rfl]

theorem segments_append_slash (p : Str) : segments (p ++ [47]) = segments p ++ [[]] := by
  unfold segments
  rw [splitByte_append_sep]
  rfl

/-- What the closure `clean` of `Normalize` returns for the path `pth`: it is
never `.`, has no `.` segment and no two slashes in a row, has no `..` segment
when `pth` is rooted, is empty when `pth` cleans to nothing, and otherwise
ends with a slash when `pth` does. -/
theorem cleanPath_clean (pth : Str) :
    cleanPath pth ≠ [46] ∧
    [46] ∉ segments (cleanPath pth) ∧
    hasDoubleSlash (cleanPath pth) = false ∧
    (pth.head? = some 47 → [46, 46] ∉ segments (cleanPath pth)) ∧
    (Clean pth = [46] → cleanPath pth = []) ∧
    (HasSuffix pth [47] = true → Clean pth ≠ [46] → HasSuffix (cleanPath pth) [47] = true) := by
  obtain ⟨L, hL, hLr, hp⟩ := Clean_shape pth
  have hsf : ∀ e ∈ L, ∀ b ∈ e, b ≠ 47 := fun e he => (hL e he).2.1
  have hne : ∀ e ∈ L, e ≠ [] ∧ ∀ b ∈ e, b ≠ 47 := fun e he => ⟨(hL e he).1, (hL e he).2.1⟩
  have hnd : [46] ∉ L := fun h => (hL _ h).2.2 rfl
  have hcp : cleanPath pth =
      if Clean pth = [46] then []
      else if (HasSuffix pth [47] && !HasSuffix (Clean pth) [47]) = true then Clean pth ++ [47]
      else Clean pth := rfl
  rw [hcp]
  by_cases h46 : Clean pth = [46]
  · rw [if_pos h46]
    refine ⟨by simp, by simp [segments, splitByte], rfl, fun _ => by simp [segments, splitByte],
      fun _ => rfl, fun _ h => absurd h46 h⟩
  · rw [if_neg h46]
    have hseg : ∀ x ∈ segments (Clean pth), x = [] ∨ x ∈ L := by
      intro x hx
      rw [hp] at hx
      by_cases hr : pth.head? = some 47
      · rw [if_pos hr, segments_slash_cons] at hx
        rcases List.mem_cons.mp hx with h | h
        · exact Or.inl h
        · exact segments_joinByte L hsf x h
      · rw [if_neg hr] at hx
        by_cases h0 : L = []
        · rw [if_pos h0] at hp
          rw [if_neg hr] at hp
          exact absurd hp h46
        · rw [if_neg h0] at hx
          exact segments_joinByte L hsf x hx
    have hds : hasDoubleSlash (Clean pth) = false ∧
        (HasSuffix (Clean pth) [47] = false → hasDoubleSlash (Clean pth ++ [47]) = false) := by
      rw [hp]
      by_cases hr : pth.head? = some 47
      · rw [if_pos hr]
        by_cases h0 : L = []
        · subst h0
          exact ⟨rfl, fun h => by simp [joinByte, HasSuffix] at h⟩
        · have h1 := (hasDoubleSlash_joinByte L [] h0 hne).2
          have h2 := (hasDoubleSlash_joinByte L [47] h0 hne).2
          rw [List.append_nil] at h1
          exact ⟨h1, fun _ => h2⟩
      · rw [if_neg hr]
        by_cases h0 : L = []
        · rw [if_pos h0] at hp
          rw [if_neg hr] at hp
          exact absurd hp h46
        · have h1 := (hasDoubleSlash_joinByte L [] h0 hne).1
          have h2 := (hasDoubleSlash_joinByte L [47] h0 hne).1
          rw [List.append_nil] at h1
          rw [if_neg h0]
          exact ⟨h1, fun _ => h2⟩
    by_cases hc : (HasSuffix pth [47] && !HasSuffix (Clean pth) [47]) = true
    · rw [if_pos hc]
      have hs : HasSuffix (Clean pth) [47] = false := by
        simp only [Bool.and_eq_true, Bool.not_eq_true'] at hc
        exact hc.2
      have hseg2 : ∀ x ∈ segments (Clean pth ++ [47]), x = [] ∨ x ∈ L := by
        intro x hx
        rw [segments_append_slash] at hx
        rcases List.mem_append.mp hx with h | h
        · exact hseg x h
        · exact Or.inl (List.mem_singleton.mp h)
      refine ⟨?_, ?_, hds.2 hs, ?_, fun h => absurd h h46, ?_⟩
      · intro h
        have := congrArg List.getLast? h
        simp at this
      · intro h
        rcases hseg2 _ h with h1 | h1
        · exact absurd h1 (by simp)
        · exact hnd h1
      · intro hr h
        rcases hseg2 _ h with h1 | h1
        · exact absurd h1 (by simp)
        · exact hLr hr _ h1 rfl
      · intro _ _
        rw [HasSuffix_singleton]
        simp
    · rw [if_neg hc]
      refine ⟨h46, ?_, hds.1, ?_, fun h => absurd h h46, ?_⟩
      · intro h
        rcases hseg _ h with h1 | h1
        · exact absurd h1 (by simp)
        · exact hnd h1
      · intro hr h
        rcases hseg _ h with h1 | h1
        · exact absurd h1 (by simp)
        · exact hLr hr _ h1 rfl
      · intro hs _
        simp only [hs, Bool.true_and, Bool.not_eq_true', Bool.not_eq_false] at hc
        simpa using hc

/-- Counterexample to C13 as stated: the URL `http://example.com` with the path
`./` is accepted, its path ends with a slash, and the resulting path is empty:
a path that cleans to nothing becomes the empty string before the trailing
slash is looked at. -/
theorem Normalize_dot_slash_counterexample :
    (Normalize latin1ToLower urlDotSlash).2 = none ∧
    HasSuffix urlDotSlash.Path [47] = true ∧
    (Normalize latin1ToLower urlDotSlash).1.Path = [] ∧
    HasSuffix (Normalize latin1ToLower urlDotSlash).1.Path [47] = false := by
  decide

/-- C13 as amended (path cleaning). When `Normalize` succeeds, the resulting
Path, and likewise RawPath, is never `.`, has no `.` segment, has no two
slashes in a row and, when the original path is rooted, has no `..` segment;
an original path that cleans to nothing (`path.Clean` returns `.`) yields the
empty string; and when the original path ends with a slash and does not clean
to nothing, the resulting path ends with a slash. -/
theorem Normalize_path_cleaning (tab : Nat → Nat) (u : URL) (h : (Normalize tab u).2 = none) :
    ((Normalize tab u).1.Path ≠ [46] ∧
      [46] ∉ segments (Normalize tab u).1.Path ∧
      hasDoubleSlash (Normalize tab u).1.Path = false ∧
      (u.Path.head? = some 47 → [46, 46] ∉ segments (Normalize tab u).1.Path) ∧
      (Clean u.Path = [46] → (Normalize tab u).1.Path = []) ∧
      (HasSuffix u.Path [47] = true → Clean u.Path ≠ [46] →
        HasSuffix (Normalize tab u).1.Path [47] = true)) ∧
    ((Normalize tab u).1.RawPath ≠ [46] ∧
      [46] ∉ segments (Normalize tab u).1.RawPath ∧
      hasDoubleSlash (Normalize tab u).1.RawPath = false ∧
      (u.RawPath.head? = some 47 → [46, 46] ∉ segments (Normalize tab u).1.RawPath) ∧
      (Clean u.RawPath = [46] → (Normalize tab u).1.RawPath = []) ∧
      (HasSuffix u.RawPath [47] = true → Clean u.RawPath ≠ [46] →
        HasSuffix (Normalize tab u).1.RawPath [47] = true)) := by
  rw [(Normalize_ok tab u h).2.2.2.2]
  exact ⟨cleanPath_clean u.Path, cleanPath_clean u.RawPath⟩

/-- Witness of C13 as amended at `http://example.com/a//b/./c/../d/`: the path
becomes `/a/b/d/`. -/
theorem Normalize_path_cleaning_witness :
    (Normalize latin1ToLower urlMessyPath).2 = none ∧
    (Normalize latin1ToLower urlMessyPath).1.Path = str "/a/b/d/" ∧
    hasDoubleSlash (Normalize latin1ToLower urlMessyPath).1.Path = false ∧
    HasSuffix (Normalize latin1ToLower urlMessyPath).1.Path [47] = true :=
  ⟨by decide, by decide,
    (Normalize_path_cleaning latin1ToLower urlMessyPath (by decide)).1.2.2.1,
    (Normalize_path_cleaning latin1ToLower urlMessyPath (by decide)).1.2.2.2.2.2
      (by decide) (by decide)⟩

end Crawler
